import Mathlib

/-!
# The history index of `visor/historydb`

A shallow embedding of `src/visor/historydb/historydb.go`: the block replay
driver `ProcessBlockchain`, the per-block procedure `ProcessBlock` and the two
point lookups `GetUxout` and `GetTransaction`, over the four indexes the engine
owns (transactions, outputs, address-in, address-out).

Go mutates the indexes in place and returns an `error`; here every procedure
takes the engine state and returns the state it leaves behind together with the
error (`none` for `nil`), so writes made before a failure stay visible.
-/

namespace cipher

/-- A `cipher.SHA256` digest, kept abstract as a number; the zero value is `0`. -/
abbrev SHA256 := Nat

/-- A `cipher.Address`, kept abstract as a number. -/
abbrev Address := Nat

end cipher

namespace coin

/-- An entry of `coin.Transaction.Out`. -/
structure TransactionOutput where
  Address : cipher.Address
  Coins : Nat
  Hours : Nat
deriving DecidableEq

/-- The ledger type `coin.Transaction`; `historydb.go` reads `In` and calls `Hash()`. -/
structure Transaction where
  InnerHash : cipher.SHA256
  In : List cipher.SHA256
  Out : List TransactionOutput
deriving DecidableEq

/-- The ledger type `coin.BlockHeader`. -/
structure BlockHeader where
  Time : Nat
  BkSeq : Nat
deriving DecidableEq

/-- The ledger type `coin.BlockBody`. -/
structure BlockBody where
  Transactions : List Transaction
deriving DecidableEq

/-- The ledger type `coin.Block`. -/
structure Block where
  Head : BlockHeader
  Body : BlockBody
deriving DecidableEq

/-- The block's sequence number, `b.Seq()`: the `BkSeq` of its header. -/
def Block.Seq (b : Block) : Nat := b.Head.BkSeq

/-- The ledger type `coin.UxHead`. -/
structure UxHead where
  Time : Nat
  BkSeq : Nat
deriving DecidableEq

/-- The ledger type `coin.UxBody`; `historydb.go` reads `Address`. -/
structure UxBody where
  SrcTransaction : cipher.SHA256
  Address : cipher.Address
  Coins : Nat
  Hours : Nat
deriving DecidableEq

/-- The ledger type `coin.UxOut`, an output as the ledger creates it. -/
structure UxOut where
  Head : UxHead
  Body : UxBody
deriving DecidableEq

/-- The ledger `coin.Blockchain` as `ProcessBlockchain` sees it: the sequence
number of its head, a `uint64`, and the block at each depth. -/
structure Blockchain where
  HeadSeq : Nat
  GetBlockInDepth : Nat → Block
  HeadSeq_lt : HeadSeq < 2 ^ 64

end coin

/-- The functions of package `coin` that `historydb.go` calls and whose code
lies outside it, taken as parameters: the content hashes `Transaction.Hash` and
`UxOut.Hash`, and `coin.CreateUnspents`. -/
structure Coin where
  TxHash : coin.Transaction → cipher.SHA256
  UxHash : coin.UxOut → cipher.SHA256
  CreateUnspents : coin.BlockHeader → coin.Transaction → List coin.UxOut

namespace historydb

/-- An index-level error. -/
inductive Error where
  | OutputNotFound (id : cipher.SHA256)
  | TransactionNotFound (id : cipher.SHA256)
deriving DecidableEq

deriving instance DecidableEq for Except

/-- The output record `historydb.UxOut`: the ledger's output and its spend
marker, zero until the output is spent. -/
structure UxOut where
  Out : coin.UxOut
  SpentTxID : cipher.SHA256
  SpentBlockSeq : Nat
deriving DecidableEq

/-- Modelled from the spec: `UxOut.Hash` of the outputs index (its file is not
part of the sources); the record's identifier is the content hash of its ledger
output. -/
def UxOut.Hash (c : Coin) (o : UxOut) : cipher.SHA256 := c.UxHash o.Out

/-- The transaction record `historydb.Transaction`. -/
structure Transaction where
  Tx : coin.Transaction
  BlockSeq : Nat
deriving DecidableEq

/-- Modelled from the spec: the Transaction Index, a mapping from transaction
identifier to transaction record. -/
structure Transactions where
  bkt : cipher.SHA256 → Option Transaction

/-- Modelled from the spec: the Output Index, a mapping from output identifier
to output record; `put` is its only writer, so every record is stored under its
own identifier. -/
structure Outputs (c : Coin) where
  bkt : cipher.SHA256 → Option UxOut
  keyed : ∀ id o, bkt id = some o → o.Hash c = id

/-- Modelled from the spec: an address index, a mapping from address to the
identifiers recorded for it, in insertion order. -/
structure addressUx where
  bkt : cipher.Address → List cipher.SHA256

/-- Modelled from the spec: the Transaction Index after `put`: the record is
stored under its transaction's hash, overwriting what was there. -/
def Transactions.put (c : Coin) (txs : Transactions) (t : Transaction) : Transactions :=
  ⟨fun id => if id = c.TxHash t.Tx then some t else txs.bkt id⟩

/-- Modelled from the spec: `Transactions.Add`, the Transaction Index's `put`;
the store does not fail. -/
def Transactions.Add (c : Coin) (txs : Transactions) (t : Transaction) :
    Except Error Transactions :=
  .ok (txs.put c t)

/-- Modelled from the spec: `Transactions.Get`, the record or NotFound. -/
def Transactions.Get (txs : Transactions) (hash : cipher.SHA256) :
    Except Error Transaction :=
  match txs.bkt hash with
  | some t => .ok t
  | none => .error (.TransactionNotFound hash)

/-- Modelled from the spec: `Outputs.Get`, the record or NotFound. -/
def Outputs.Get {c : Coin} (os : Outputs c) (uxID : cipher.SHA256) :
    Except Error UxOut :=
  match os.bkt uxID with
  | some o => .ok o
  | none => .error (.OutputNotFound uxID)

/-- Modelled from the spec: the Output Index after `put`: the full record is
inserted or overwritten at its identifier key. -/
def Outputs.put {c : Coin} (os : Outputs c) (o : UxOut) : Outputs c :=
  ⟨fun id => if id = o.Hash c then some o else os.bkt id, by
    intro id r h
    dsimp only at h
    by_cases hid : id = o.Hash c
    · rw [if_pos hid] at h
      cases h
      exact hid.symm
    · rw [if_neg hid] at h
      exact os.keyed id r h⟩

/-- Modelled from the spec: `Outputs.Set`, the Output Index's `put`; the store
does not fail. -/
def Outputs.Set {c : Coin} (os : Outputs c) (o : UxOut) : Except Error (Outputs c) :=
  .ok (os.put o)

/-- Modelled from the spec: an address index after `add`: the identifier is
appended to the address's set if absent, and nothing changes if it is there. -/
def addressUx.insert (ax : addressUx) (addr : cipher.Address) (uxHash : cipher.SHA256) :
    addressUx :=
  if uxHash ∈ ax.bkt addr then ax
  else ⟨fun a => if a = addr then ax.bkt addr ++ [uxHash] else ax.bkt a⟩

/-- Modelled from the spec: `addressUx.Add`, the address index's `add`; the
store does not fail. -/
def addressUx.Add (ax : addressUx) (addr : cipher.Address) (uxHash : cipher.SHA256) :
    Except Error addressUx :=
  .ok (ax.insert addr uxHash)

/-- Modelled from the spec: `addressUx.Get`, the `list` of an address index
(the empty list for an unknown address). -/
def addressUx.Get (ax : addressUx) (addr : cipher.Address) : List cipher.SHA256 :=
  ax.bkt addr

/-- The engine `HistoryDB`: its four indexes. -/
structure HistoryDB (c : Coin) where
  txns : Transactions
  outputs : Outputs c
  addrIn : addressUx
  addrOut : addressUx

/-- The engine over empty indexes, as `New` leaves it on a fresh store. -/
def HistoryDB.empty (c : Coin) : HistoryDB c where
  txns := ⟨fun _ => none⟩
  outputs := ⟨fun _ => none, by intro id o h; cases h⟩
  addrIn := ⟨fun _ => []⟩
  addrOut := ⟨fun _ => []⟩

/-- `HistoryDB.GetUxout` delegates to the Output Index. -/
def HistoryDB.GetUxout {c : Coin} (hd : HistoryDB c) (hash : cipher.SHA256) :
    Except Error UxOut :=
  hd.outputs.Get hash

/-- `HistoryDB.GetTransaction` delegates to the Transaction Index. -/
def HistoryDB.GetTransaction {c : Coin} (hd : HistoryDB c) (hash : cipher.SHA256) :
    Except Error Transaction :=
  hd.txns.Get hash

/-- The loop over `t.In` of `ProcessBlock` (lines 92-108): fetch the output,
set its spend marker, write it back and list it under the spender's address;
stop at the first error. -/
def settleInputs (c : Coin) (b : coin.Block) (t : coin.Transaction) :
    HistoryDB c → List cipher.SHA256 → HistoryDB c × Option Error
  | hd, [] => (hd, none)
  | hd, i :: rest =>
    match hd.outputs.Get i with
    | .error err => (hd, some err)
    | .ok o =>
      let o : UxOut := { o with SpentBlockSeq := b.Seq, SpentTxID := c.TxHash t }
      match hd.outputs.Set o with
      | .error err => (hd, some err)
      | .ok outs =>
        let hd : HistoryDB c := { hd with outputs := outs }
        match hd.addrOut.Add o.Out.Body.Address (o.Hash c) with
        | .error err => (hd, some err)
        | .ok ao => settleInputs c b t { hd with addrOut := ao } rest

/-- The loop over `uxArray` of `ProcessBlock` (lines 113-124): store each new
output with a zero spend marker and list it under the receiving address. -/
def createOutputs (c : Coin) : HistoryDB c → List coin.UxOut → HistoryDB c × Option Error
  | hd, [] => (hd, none)
  | hd, ux :: rest =>
    let uxOut : UxOut := { Out := ux, SpentTxID := 0, SpentBlockSeq := 0 }
    match hd.outputs.Set uxOut with
    | .error err => (hd, some err)
    | .ok outs =>
      let hd : HistoryDB c := { hd with outputs := outs }
      match hd.addrIn.Add ux.Body.Address (c.UxHash ux) with
      | .error err => (hd, some err)
      | .ok ai => createOutputs c { hd with addrIn := ai } rest

/-- The loop over `b.Body.Transactions` of `ProcessBlock` (lines 82-125). -/
def processTransactions (c : Coin) (b : coin.Block) :
    HistoryDB c → List coin.Transaction → HistoryDB c × Option Error
  | hd, [] => (hd, none)
  | hd, t :: rest =>
    let tx : Transaction := { Tx := t, BlockSeq := b.Seq }
    match hd.txns.Add c tx with
    | .error err => (hd, some err)
    | .ok txns =>
      let hd : HistoryDB c := { hd with txns := txns }
      match (if b.Seq > 0 then settleInputs c b t hd t.In else (hd, none)) with
      | (hd, some err) => (hd, some err)
      | (hd, none) =>
        match createOutputs c hd (c.CreateUnspents b.Head t) with
        | (hd, some err) => (hd, some err)
        | (hd, none) => processTransactions c b hd rest

/-- `HistoryDB.ProcessBlock`: index the transactions, inputs and outputs of one
block. Returns the state left behind and the error, if any. -/
def HistoryDB.ProcessBlock {c : Coin} (hd : HistoryDB c) (b : coin.Block) :
    HistoryDB c × Option Error :=
  processTransactions c b hd b.Body.Transactions

/-- The `for i := uint64(0); i <= depth; i++` loop of `ProcessBlockchain`; the
counter wraps modulo `2 ^ 64`. `none` means the fuel ran out before the loop
returned. -/
def processBlockchainLoop (c : Coin) (bc : coin.Blockchain) (depth : Nat) :
    Nat → Nat → HistoryDB c → Option (HistoryDB c × Option Error)
  | 0, _, _ => none
  | fuel + 1, i, hd =>
    if i ≤ depth then
      match hd.ProcessBlock (bc.GetBlockInDepth i) with
      | (hd, some err) => some (hd, some err)
      | (hd, none) => processBlockchainLoop c bc depth fuel ((i + 1) % 2 ^ 64) hd
    else some (hd, none)

/-- `HistoryDB.ProcessBlockchain`: replay the blocks at depth `0 .. head`. -/
def HistoryDB.ProcessBlockchain {c : Coin} (fuel : Nat) (hd : HistoryDB c)
    (bc : coin.Blockchain) : Option (HistoryDB c × Option Error) :=
  processBlockchainLoop c bc bc.HeadSeq fuel 0 hd

end historydb

namespace historydb

/-- The record `o` with the spend marker of block `b` and transaction `t`, as
`settleInputs` writes it back. -/
def markSpent (c : Coin) (b : coin.Block) (t : coin.Transaction) (o : UxOut) : UxOut :=
  { o with SpentBlockSeq := b.Seq, SpentTxID := c.TxHash t }

/-- The state `settleInputs` moves to after it fetched record `o` for an
input: the record is written back with the spend marker of `b` and `t`, and
its identifier is listed under its owner in the address-out index. -/
def settleOne (c : Coin) (b : coin.Block) (t : coin.Transaction) (hd : HistoryDB c)
    (o : UxOut) : HistoryDB c :=
  { hd with
    outputs := hd.outputs.put (markSpent c b t o)
    addrOut := hd.addrOut.insert o.Out.Body.Address (c.UxHash o.Out) }

/-- The state `ProcessBlock` moves to after it stored the record of
transaction `t` in the Transaction Index (lines 83-89). -/
def addTx (c : Coin) (b : coin.Block) (hd : HistoryDB c) (t : coin.Transaction) :
    HistoryDB c :=
  { hd with txns := hd.txns.put c { Tx := t, BlockSeq := b.Seq } }

/-- The state `createOutputs` moves to after it indexed the new output `ux`. -/
def createOne (c : Coin) (hd : HistoryDB c) (ux : coin.UxOut) : HistoryDB c :=
  { hd with
    outputs := hd.outputs.put { Out := ux, SpentTxID := 0, SpentBlockSeq := 0 }
    addrIn := hd.addrIn.insert ux.Body.Address (c.UxHash ux) }

/-- The state after the blocks at depth `0 .. n - 1` were handed to
`ProcessBlock` one after the other: a left fold of `ProcessBlock`. -/
def replayState (c : Coin) (bc : coin.Blockchain) (hd : HistoryDB c) (n : Nat) :
    HistoryDB c :=
  ((List.range n).map bc.GetBlockInDepth).foldl (fun s b => (s.ProcessBlock b).1) hd

/-! ### A small ledger to run the code on -/

/-- A concrete instance of the `coin` functions: a transaction's hash is its
`InnerHash`, an output's hash is `100 * SrcTransaction + Coins`, and
`CreateUnspents` makes one output per entry of `tx.Out`. -/
def demoCoin : Coin where
  TxHash t := t.InnerHash
  UxHash ux := 100 * ux.Body.SrcTransaction + ux.Body.Coins
  CreateUnspents bh t := t.Out.map fun o =>
    { Head := { Time := bh.Time, BkSeq := bh.BkSeq }
      Body := { SrcTransaction := t.InnerHash, Address := o.Address, Coins := o.Coins,
                Hours := o.Hours } }

/-- Genesis: transaction 1 creates output 101 for address 7. -/
def demoBlock0 : coin.Block :=
  { Head := { Time := 0, BkSeq := 0 }
    Body := { Transactions := [{ InnerHash := 1, In := [], Out := [⟨7, 1, 0⟩] }] } }

/-- Block 1: transaction 2 spends output 101 and creates output 201 for address 8. -/
def demoBlock1 : coin.Block :=
  { Head := { Time := 10, BkSeq := 1 }
    Body := { Transactions := [{ InnerHash := 2, In := [101], Out := [⟨8, 1, 0⟩] }] } }

/-- Block 2: transaction 3 spends output 201 and creates output 301 for address 7. -/
def demoBlock2 : coin.Block :=
  { Head := { Time := 20, BkSeq := 2 }
    Body := { Transactions := [{ InnerHash := 3, In := [201], Out := [⟨7, 1, 0⟩] }] } }

/-- The ledger of the three blocks above; its head has sequence 2. -/
def demoChain : coin.Blockchain where
  HeadSeq := 2
  GetBlockInDepth i := if i = 0 then demoBlock0 else if i = 1 then demoBlock1 else demoBlock2
  HeadSeq_lt := by decide

/-- The indexes after genesis was processed on empty indexes. -/
def demoState1 : HistoryDB demoCoin := ((HistoryDB.empty demoCoin).ProcessBlock demoBlock0).1

/-- The indexes after genesis and block 1 were processed. -/
def demoState2 : HistoryDB demoCoin := (demoState1.ProcessBlock demoBlock1).1

/-- A block of sequence 2 whose transaction 4 lists output 101 as an input
again, after block 1 spent it. -/
def demoRespend : coin.Block :=
  { Head := { Time := 20, BkSeq := 2 }
    Body := { Transactions := [{ InnerHash := 4, In := [101], Out := [] }] } }

/-- A block of sequence 1 whose transaction 5 lists output 101, which genesis
created, and then output 999, which no block created. -/
def demoBadInput : coin.Block :=
  { Head := { Time := 10, BkSeq := 1 }
    Body := { Transactions := [{ InnerHash := 5, In := [101, 999], Out := [⟨8, 1, 0⟩] }] } }

/-- A block of sequence 0 whose transaction 6 lists inputs all the same: output
999, which is on no record, and output 201, which is. -/
def demoGenesisWithInputs : coin.Block :=
  { Head := { Time := 0, BkSeq := 0 }
    Body := { Transactions := [{ InnerHash := 6, In := [999, 201], Out := [⟨9, 1, 0⟩] }] } }

/-- A ledger of two blocks, genesis and `demoBadInput`, whose second block
lists an input no block created. -/
def demoBrokenChain : coin.Blockchain where
  HeadSeq := 1
  GetBlockInDepth i := if i = 0 then demoBlock0 else demoBadInput
  HeadSeq_lt := by decide

/-- The identifiers of the outputs the transactions of block `b` create. -/
def createdIds (c : Coin) (b : coin.Block) : List cipher.SHA256 :=
  b.Body.Transactions.flatMap fun t => (c.CreateUnspents b.Head t).map c.UxHash

/-- The identifiers of the outputs created over the blocks `0 .. head` of a
ledger, block by block. -/
def ledgerCreatedIds (c : Coin) (bc : coin.Blockchain) : List cipher.SHA256 :=
  (List.range (bc.HeadSeq + 1)).flatMap fun k => createdIds c (bc.GetBlockInDepth k)

/-- The indexes after one full replay of `demoChain` on empty indexes. -/
def demoReplayed : HistoryDB demoCoin :=
  replayState demoCoin demoChain (HistoryDB.empty demoCoin) 3

/-- The states the engine can be in: the empty indexes, and what any call of
`ProcessBlock`, failed or not, leaves behind. -/
inductive Reachable (c : Coin) : HistoryDB c → Prop
  | empty : Reachable c (HistoryDB.empty c)
  | step (hd : HistoryDB c) (b : coin.Block) :
      Reachable c hd → Reachable c (hd.ProcessBlock b).1

/-- Every identifier listed under an address, in either address index, is the
key of a record of the Output Index. -/
def ListedOnRecord {c : Coin} (hd : HistoryDB c) : Prop :=
  ∀ a id, id ∈ hd.addrIn.bkt a ∨ id ∈ hd.addrOut.bkt a → hd.outputs.bkt id ≠ none

/-- A block of sequence 1 with two transactions: transaction 7 creates output
701 for address 7, then transaction 8 spends output 701. -/
def demoCreateThenSpend : coin.Block :=
  { Head := { Time := 10, BkSeq := 1 }
    Body := { Transactions := [{ InnerHash := 7, In := [], Out := [⟨7, 1, 0⟩] },
                               { InnerHash := 8, In := [701], Out := [⟨8, 1, 0⟩] }] } }

/-- The same two transactions in the other order: transaction 8 lists output
701 before transaction 7 creates it. -/
def demoSpendThenCreate : coin.Block :=
  { Head := { Time := 10, BkSeq := 1 }
    Body := { Transactions := [{ InnerHash := 8, In := [701], Out := [⟨8, 1, 0⟩] },
                               { InnerHash := 7, In := [], Out := [⟨7, 1, 0⟩] }] } }

/-- The Output Index of the second replay against that of the first: `R` is a
state of the replay that started on empty indexes and ends in `S`, `T` the
state at the same point of the replay that started on `S`. Under a key `R`
holds, `T` holds the same record; under a key `R` does not hold yet, `T` still
holds what `S` holds. -/
def OutputsSim {c : Coin} (S R T : HistoryDB c) : Prop :=
  ∀ k, (R.outputs.bkt k ≠ none → T.outputs.bkt k = R.outputs.bkt k) ∧
    (R.outputs.bkt k = none → T.outputs.bkt k = S.outputs.bkt k)

/-- The same relation for the Transaction Index. -/
def TxnsSim {c : Coin} (S R T : HistoryDB c) : Prop :=
  ∀ k, (R.txns.bkt k ≠ none → T.txns.bkt k = R.txns.bkt k) ∧
    (R.txns.bkt k = none → T.txns.bkt k = S.txns.bkt k)

/-- The second replay against the first, over the four indexes: the address
indexes of `T` are those of `S` already, and the two other indexes are related
as above. -/
def ReplaySim {c : Coin} (S R T : HistoryDB c) : Prop :=
  T.addrIn = S.addrIn ∧ T.addrOut = S.addrOut ∧ OutputsSim S R T ∧ TxnsSim S R T

end historydb

namespace historydb

variable {c : Coin}

/-! ## The index operations -/

theorem Outputs_put_bkt (os : Outputs c) (o : UxOut) (k : cipher.SHA256) :
    (os.put o).bkt k = if k = c.UxHash o.Out then some o else os.bkt k := rfl

theorem Outputs_Get_eq_ok {os : Outputs c} {k : cipher.SHA256} {o : UxOut} :
    os.Get k = .ok o ↔ os.bkt k = some o := by
  unfold Outputs.Get
  cases h : os.bkt k <;> simp

theorem Outputs_Get_eq_error {os : Outputs c} {k : cipher.SHA256} {e : Error} :
    os.Get k = .error e ↔ os.bkt k = none ∧ e = .OutputNotFound k := by
  unfold Outputs.Get
  cases h : os.bkt k <;> simp [eq_comm]

theorem Transactions_Get_eq_ok {txs : Transactions} {k : cipher.SHA256} {t : Transaction} :
    txs.Get k = .ok t ↔ txs.bkt k = some t := by
  unfold Transactions.Get
  cases h : txs.bkt k <;> simp

theorem addressUx_mem_insert (ax : addressUx) (addr a : cipher.Address)
    (x id : cipher.SHA256) :
    id ∈ (ax.insert addr x).bkt a ↔ id ∈ ax.bkt a ∨ (a = addr ∧ id = x) := by
  unfold addressUx.insert
  by_cases hx : x ∈ ax.bkt addr
  · rw [if_pos hx]
    constructor
    · exact Or.inl
    · rintro (h | ⟨rfl, rfl⟩)
      · exact h
      · exact hx
  · rw [if_neg hx]
    by_cases ha : a = addr
    · subst ha
      simp
    · simp [ha]

/-! ## `settleInputs` -/

theorem settleInputs_nil (b : coin.Block) (t : coin.Transaction) (hd : HistoryDB c) :
    settleInputs c b t hd [] = (hd, none) := rfl

theorem settleInputs_cons_none (b : coin.Block) (t : coin.Transaction) (hd : HistoryDB c)
    (i : cipher.SHA256) (rest : List cipher.SHA256) (h : hd.outputs.bkt i = none) :
    settleInputs c b t hd (i :: rest) = (hd, some (.OutputNotFound i)) := by
  simp [settleInputs, Outputs.Get, h]

theorem settleInputs_cons_some (b : coin.Block) (t : coin.Transaction) (hd : HistoryDB c)
    (i : cipher.SHA256) (rest : List cipher.SHA256) (o : UxOut)
    (h : hd.outputs.bkt i = some o) :
    settleInputs c b t hd (i :: rest) = settleInputs c b t (settleOne c b t hd o) rest := by
  simp [settleInputs, Outputs.Get, h, Outputs.Set, addressUx.Add, settleOne, UxOut.Hash,
    markSpent]

theorem markSpent_markSpent (b : coin.Block) (t : coin.Transaction) (o : UxOut) :
    markSpent c b t (markSpent c b t o) = markSpent c b t o := rfl

theorem markSpent_Out (b : coin.Block) (t : coin.Transaction) (o : UxOut) :
    (markSpent c b t o).Out = o.Out := rfl

theorem settleOne_bkt (b : coin.Block) (t : coin.Transaction) (hd : HistoryDB c)
    (i : cipher.SHA256) (o : UxOut) (h : hd.outputs.bkt i = some o) (k : cipher.SHA256) :
    (settleOne c b t hd o).outputs.bkt k =
      if k = i then some (markSpent c b t o) else hd.outputs.bkt k := by
  have hk : c.UxHash o.Out = i := hd.outputs.keyed i o h
  simp [settleOne, Outputs_put_bkt, hk, markSpent]

theorem settleInputs_txns (b : coin.Block) (t : coin.Transaction) (hd : HistoryDB c)
    (ins : List cipher.SHA256) : (settleInputs c b t hd ins).1.txns = hd.txns := by
  induction ins generalizing hd with
  | nil => rfl
  | cons i rest ih =>
    cases h : hd.outputs.bkt i with
    | none => rw [settleInputs_cons_none b t hd i rest h]
    | some o => rw [settleInputs_cons_some b t hd i rest o h, ih]; rfl

theorem settleInputs_addrIn (b : coin.Block) (t : coin.Transaction) (hd : HistoryDB c)
    (ins : List cipher.SHA256) : (settleInputs c b t hd ins).1.addrIn = hd.addrIn := by
  induction ins generalizing hd with
  | nil => rfl
  | cons i rest ih =>
    cases h : hd.outputs.bkt i with
    | none => rw [settleInputs_cons_none b t hd i rest h]
    | some o => rw [settleInputs_cons_some b t hd i rest o h, ih]; rfl

/-- What `settleInputs` does to one key of the Output Index: nothing, or the
record it held now carries the spend marker (only for a listed input). -/
theorem settleInputs_bkt (b : coin.Block) (t : coin.Transaction) (hd : HistoryDB c)
    (ins : List cipher.SHA256) (k : cipher.SHA256) :
    (settleInputs c b t hd ins).1.outputs.bkt k = hd.outputs.bkt k ∨
      (k ∈ ins ∧ ∃ o, hd.outputs.bkt k = some o ∧
        (settleInputs c b t hd ins).1.outputs.bkt k = some (markSpent c b t o)) := by
  induction ins generalizing hd with
  | nil => exact Or.inl rfl
  | cons i rest ih =>
    cases h : hd.outputs.bkt i with
    | none => rw [settleInputs_cons_none b t hd i rest h]; exact Or.inl rfl
    | some o =>
      rw [settleInputs_cons_some b t hd i rest o h]
      have h1 := settleOne_bkt b t hd i o h k
      by_cases hk : k = i
      · subst hk
        rw [if_pos rfl] at h1
        right
        refine ⟨List.mem_cons_self _ _, o, h, ?_⟩
        rcases ih (settleOne c b t hd o) with h2 | ⟨_, o1, h3, h4⟩
        · rw [h2, h1]
        · rw [h1] at h3
          cases h3
          rw [h4, markSpent_markSpent]
      · rw [if_neg hk] at h1
        rcases ih (settleOne c b t hd o) with h2 | ⟨hm, o1, h3, h4⟩
        · left; rw [h2, h1]
        · right
          exact ⟨List.mem_cons_of_mem _ hm, o1, by rw [← h1]; exact h3, h4⟩

theorem settleInputs_bkt_of_not_mem (b : coin.Block) (t : coin.Transaction)
    (hd : HistoryDB c) (ins : List cipher.SHA256) (k : cipher.SHA256) (hk : k ∉ ins) :
    (settleInputs c b t hd ins).1.outputs.bkt k = hd.outputs.bkt k := by
  rcases settleInputs_bkt b t hd ins k with h | ⟨hm, _⟩
  · exact h
  · exact absurd hm hk

theorem settleInputs_bkt_eq_none (b : coin.Block) (t : coin.Transaction)
    (hd : HistoryDB c) (ins : List cipher.SHA256) (k : cipher.SHA256) :
    (settleInputs c b t hd ins).1.outputs.bkt k = none ↔ hd.outputs.bkt k = none := by
  rcases settleInputs_bkt b t hd ins k with h | ⟨_, o, h1, h2⟩
  · rw [h]
  · rw [h1, h2]; simp

theorem settleInputs_addrOut_mono (b : coin.Block) (t : coin.Transaction)
    (hd : HistoryDB c) (ins : List cipher.SHA256) (a : cipher.Address)
    (id : cipher.SHA256) (h : id ∈ hd.addrOut.bkt a) :
    id ∈ (settleInputs c b t hd ins).1.addrOut.bkt a := by
  induction ins generalizing hd with
  | nil => exact h
  | cons i rest ih =>
    cases hi : hd.outputs.bkt i with
    | none => rw [settleInputs_cons_none b t hd i rest hi]; exact h
    | some o =>
      rw [settleInputs_cons_some b t hd i rest o hi]
      apply ih
      exact (addressUx_mem_insert _ _ _ _ _).2 (Or.inl h)

/-- With every listed input on record, `settleInputs` does not fail, and each
input's record is the one held before with the spend marker set, listed under
its owner in the address-out index. -/
theorem settleInputs_ok (b : coin.Block) (t : coin.Transaction) (hd : HistoryDB c)
    (ins : List cipher.SHA256) (hp : ∀ i ∈ ins, hd.outputs.bkt i ≠ none) :
    (settleInputs c b t hd ins).2 = none ∧
      ∀ i ∈ ins, ∃ o, hd.outputs.bkt i = some o ∧
        (settleInputs c b t hd ins).1.outputs.bkt i = some (markSpent c b t o) ∧
        i ∈ (settleInputs c b t hd ins).1.addrOut.bkt o.Out.Body.Address := by
  induction ins generalizing hd with
  | nil => exact ⟨rfl, fun i hi => absurd hi (List.not_mem_nil i)⟩
  | cons i rest ih =>
    cases h : hd.outputs.bkt i with
    | none => exact absurd h (hp i (List.mem_cons_self _ _))
    | some o =>
      rw [settleInputs_cons_some b t hd i rest o h]
      have hone : ∀ k, (settleOne c b t hd o).outputs.bkt k =
          if k = i then some (markSpent c b t o) else hd.outputs.bkt k :=
        settleOne_bkt b t hd i o h
      have hp1 : ∀ j ∈ rest, (settleOne c b t hd o).outputs.bkt j ≠ none := by
        intro j hj
        rw [hone j]
        by_cases hji : j = i
        · rw [if_pos hji]; simp
        · rw [if_neg hji]; exact hp j (List.mem_cons_of_mem _ hj)
      obtain ⟨hok, hall⟩ := ih (settleOne c b t hd o) hp1
      refine ⟨hok, ?_⟩
      intro j hj
      by_cases hjr : j ∈ rest
      · obtain ⟨o1, h1, h2, h3⟩ := hall j hjr
        by_cases hji : j = i
        · subst hji
          rw [hone j, if_pos rfl] at h1
          cases h1
          exact ⟨o, h, by rw [h2, markSpent_markSpent], h3⟩
        · rw [hone j, if_neg hji] at h1
          exact ⟨o1, h1, h2, h3⟩
      · have hji : j = i := by
          rcases List.mem_cons.1 hj with h0 | h0
          · exact h0
          · exact absurd h0 hjr
        subst hji
        refine ⟨o, h, ?_, ?_⟩
        · rw [settleInputs_bkt_of_not_mem b t _ rest j hjr, hone j, if_pos rfl]
        · apply settleInputs_addrOut_mono
          have hk : c.UxHash o.Out = j := hd.outputs.keyed j o h
          apply (addressUx_mem_insert _ _ _ _ _).2
          right
          exact ⟨rfl, hk.symm⟩

/-! ## `createOutputs` -/

theorem createOutputs_cons (hd : HistoryDB c) (ux : coin.UxOut) (rest : List coin.UxOut) :
    createOutputs c hd (ux :: rest) = createOutputs c (createOne c hd ux) rest := by
  simp [createOutputs, Outputs.Set, addressUx.Add, createOne]

theorem createOne_bkt (hd : HistoryDB c) (ux : coin.UxOut) (k : cipher.SHA256) :
    (createOne c hd ux).outputs.bkt k =
      if k = c.UxHash ux then some { Out := ux, SpentTxID := 0, SpentBlockSeq := 0 }
      else hd.outputs.bkt k := rfl

theorem createOutputs_snd (hd : HistoryDB c) (uxs : List coin.UxOut) :
    (createOutputs c hd uxs).2 = none := by
  induction uxs generalizing hd with
  | nil => rfl
  | cons ux rest ih => rw [createOutputs_cons, ih]

theorem createOutputs_eq (hd : HistoryDB c) (uxs : List coin.UxOut) :
    createOutputs c hd uxs = ((createOutputs c hd uxs).1, none) := by
  rw [← createOutputs_snd hd uxs]

theorem createOutputs_txns (hd : HistoryDB c) (uxs : List coin.UxOut) :
    (createOutputs c hd uxs).1.txns = hd.txns := by
  induction uxs generalizing hd with
  | nil => rfl
  | cons ux rest ih => rw [createOutputs_cons, ih]; rfl

theorem createOutputs_addrOut (hd : HistoryDB c) (uxs : List coin.UxOut) :
    (createOutputs c hd uxs).1.addrOut = hd.addrOut := by
  induction uxs generalizing hd with
  | nil => rfl
  | cons ux rest ih => rw [createOutputs_cons, ih]; rfl

/-- What `createOutputs` does to one key of the Output Index: nothing, or the
key now holds one of the new outputs, unspent. -/
theorem createOutputs_bkt (hd : HistoryDB c) (uxs : List coin.UxOut) (k : cipher.SHA256) :
    (createOutputs c hd uxs).1.outputs.bkt k = hd.outputs.bkt k ∨
      ∃ ux ∈ uxs, c.UxHash ux = k ∧ (createOutputs c hd uxs).1.outputs.bkt k =
        some { Out := ux, SpentTxID := 0, SpentBlockSeq := 0 } := by
  induction uxs generalizing hd with
  | nil => exact Or.inl rfl
  | cons ux rest ih =>
    rw [createOutputs_cons]
    rcases ih (createOne c hd ux) with h | ⟨ux1, hm, hk, h⟩
    · rw [h, createOne_bkt]
      by_cases hk : k = c.UxHash ux
      · rw [if_pos hk]
        exact Or.inr ⟨ux, List.mem_cons_self _ _, hk.symm, rfl⟩
      · rw [if_neg hk]
        exact Or.inl rfl
    · exact Or.inr ⟨ux1, List.mem_cons_of_mem _ hm, hk, h⟩

theorem createOutputs_bkt_of_not_mem (hd : HistoryDB c) (uxs : List coin.UxOut)
    (k : cipher.SHA256) (hk : ∀ ux ∈ uxs, c.UxHash ux ≠ k) :
    (createOutputs c hd uxs).1.outputs.bkt k = hd.outputs.bkt k := by
  rcases createOutputs_bkt hd uxs k with h | ⟨ux, hm, h1, _⟩
  · exact h
  · exact absurd h1 (hk ux hm)

theorem createOutputs_bkt_ne_none (hd : HistoryDB c) (uxs : List coin.UxOut)
    (k : cipher.SHA256) (hk : hd.outputs.bkt k ≠ none) :
    (createOutputs c hd uxs).1.outputs.bkt k ≠ none := by
  rcases createOutputs_bkt hd uxs k with h | ⟨ux, _, _, h⟩
  · rw [h]; exact hk
  · rw [h]; simp

/-- Every new output is on record, unspent, once `createOutputs` is through. -/
theorem createOutputs_bkt_of_mem (hd : HistoryDB c) (uxs : List coin.UxOut)
    (ux : coin.UxOut) (hm : ux ∈ uxs) :
    ∃ ux1 ∈ uxs, c.UxHash ux1 = c.UxHash ux ∧
      (createOutputs c hd uxs).1.outputs.bkt (c.UxHash ux) =
        some { Out := ux1, SpentTxID := 0, SpentBlockSeq := 0 } := by
  induction uxs generalizing hd with
  | nil => exact absurd hm (List.not_mem_nil ux)
  | cons u rest ih =>
    rw [createOutputs_cons]
    rcases createOutputs_bkt (createOne c hd u) rest (c.UxHash ux) with h | ⟨ux1, h1, h2, h3⟩
    · by_cases hu : c.UxHash ux = c.UxHash u
      · refine ⟨u, List.mem_cons_self _ _, hu.symm, ?_⟩
        rw [h, createOne_bkt, if_pos hu]
      · have hr : ux ∈ rest := by
          rcases List.mem_cons.1 hm with h0 | h0
          · exact absurd (congrArg c.UxHash h0) hu
          · exact h0
        obtain ⟨ux1, h1, h2, h3⟩ := ih (createOne c hd u) hr
        exact ⟨ux1, List.mem_cons_of_mem _ h1, h2, h3⟩
    · exact ⟨ux1, List.mem_cons_of_mem _ h1, h2, h3⟩

/-- The address-in index after `createOutputs`: what it listed before, and
each new output under its owner. -/
theorem createOutputs_mem_addrIn (hd : HistoryDB c) (uxs : List coin.UxOut)
    (a : cipher.Address) (id : cipher.SHA256) :
    id ∈ (createOutputs c hd uxs).1.addrIn.bkt a ↔
      id ∈ hd.addrIn.bkt a ∨ ∃ ux ∈ uxs, ux.Body.Address = a ∧ c.UxHash ux = id := by
  induction uxs generalizing hd with
  | nil => simp [createOutputs]
  | cons u rest ih =>
    rw [createOutputs_cons, ih (createOne c hd u)]
    have h1 : id ∈ (createOne c hd u).addrIn.bkt a ↔
        id ∈ hd.addrIn.bkt a ∨ (a = u.Body.Address ∧ id = c.UxHash u) :=
      addressUx_mem_insert _ _ _ _ _
    rw [h1]
    constructor
    · rintro ((h | ⟨h2, h3⟩) | ⟨ux, hm, h2, h3⟩)
      · exact Or.inl h
      · exact Or.inr ⟨u, List.mem_cons_self _ _, h2.symm, h3.symm⟩
      · exact Or.inr ⟨ux, List.mem_cons_of_mem _ hm, h2, h3⟩
    · rintro (h | ⟨ux, hm, h2, h3⟩)
      · exact Or.inl (Or.inl h)
      · rcases List.mem_cons.1 hm with h0 | h0
        · subst h0
          exact Or.inl (Or.inr ⟨h2.symm, h3.symm⟩)
        · exact Or.inr ⟨ux, h0, h2, h3⟩

/-! ## One transaction, and the loop over the block's transactions -/

theorem addTx_outputs (b : coin.Block) (hd : HistoryDB c) (t : coin.Transaction) :
    (addTx c b hd t).outputs = hd.outputs := rfl

theorem addTx_addrIn (b : coin.Block) (hd : HistoryDB c) (t : coin.Transaction) :
    (addTx c b hd t).addrIn = hd.addrIn := rfl

theorem addTx_addrOut (b : coin.Block) (hd : HistoryDB c) (t : coin.Transaction) :
    (addTx c b hd t).addrOut = hd.addrOut := rfl

theorem addTx_txns_bkt (b : coin.Block) (hd : HistoryDB c) (t : coin.Transaction)
    (k : cipher.SHA256) :
    (addTx c b hd t).txns.bkt k =
      if k = c.TxHash t then some { Tx := t, BlockSeq := b.Seq } else hd.txns.bkt k := rfl

theorem processTransactions_nil (b : coin.Block) (hd : HistoryDB c) :
    processTransactions c b hd [] = (hd, none) := rfl

/-- One transaction of a block past genesis: the inputs are settled, and the
outputs are created only if that did not fail. -/
theorem processTransactions_single_pos (b : coin.Block) (hd : HistoryDB c)
    (t : coin.Transaction) (hs : b.Seq > 0) :
    processTransactions c b hd [t] =
      if (settleInputs c b t (addTx c b hd t) t.In).2 = none then
        createOutputs c (settleInputs c b t (addTx c b hd t) t.In).1
          (c.CreateUnspents b.Head t)
      else settleInputs c b t (addTx c b hd t) t.In := by
  have h0 : ({ hd with txns := hd.txns.put c { Tx := t, BlockSeq := b.Seq } } : HistoryDB c)
      = addTx c b hd t := rfl
  simp only [processTransactions, Transactions.Add, if_pos hs, h0]
  rcases hsi : settleInputs c b t (addTx c b hd t) t.In with ⟨hd1, _ | e⟩
  · simp only [if_true]
    rcases hco : createOutputs c hd1 (c.CreateUnspents b.Head t) with ⟨hd2, _ | e2⟩
    · rfl
    · have := createOutputs_snd hd1 (c.CreateUnspents b.Head t)
      simp [hco] at this
  · simp

/-- One transaction of the genesis block: only the outputs are created. -/
theorem processTransactions_single_zero (b : coin.Block) (hd : HistoryDB c)
    (t : coin.Transaction) (hs : b.Seq = 0) :
    processTransactions c b hd [t] =
      createOutputs c (addTx c b hd t) (c.CreateUnspents b.Head t) := by
  have h0 : ({ hd with txns := hd.txns.put c { Tx := t, BlockSeq := b.Seq } } : HistoryDB c)
      = addTx c b hd t := rfl
  have hs1 : ¬ b.Seq > 0 := by omega
  simp only [processTransactions, Transactions.Add, if_neg hs1, h0]
  rcases hco : createOutputs c (addTx c b hd t) (c.CreateUnspents b.Head t) with ⟨hd2, _ | e2⟩
  · rfl
  · have := createOutputs_snd (addTx c b hd t) (c.CreateUnspents b.Head t)
    simp [hco] at this

/-- The loop over the transactions goes on with the next transaction exactly
when the one before it did not fail. -/
theorem processTransactions_cons (b : coin.Block) (hd : HistoryDB c)
    (t : coin.Transaction) (rest : List coin.Transaction) :
    processTransactions c b hd (t :: rest) =
      if (processTransactions c b hd [t]).2 = none then
        processTransactions c b (processTransactions c b hd [t]).1 rest
      else processTransactions c b hd [t] := by
  simp only [processTransactions, Transactions.Add]
  rcases (if b.Seq > 0 then settleInputs c b t _ t.In else (_, none)) with ⟨hd1, _ | e⟩
  · simp only
    rcases createOutputs c hd1 (c.CreateUnspents b.Head t) with ⟨hd2, _ | e2⟩
    · simp
    · simp
  · simp

theorem processTransactions_append (b : coin.Block) (hd : HistoryDB c)
    (pre post : List coin.Transaction) :
    processTransactions c b hd (pre ++ post) =
      if (processTransactions c b hd pre).2 = none then
        processTransactions c b (processTransactions c b hd pre).1 post
      else processTransactions c b hd pre := by
  induction pre generalizing hd with
  | nil => simp [processTransactions_nil]
  | cons t rest ih =>
    rw [List.cons_append, processTransactions_cons, processTransactions_cons b hd t rest]
    by_cases h : (processTransactions c b hd [t]).2 = none
    · rw [if_pos h, if_pos h, ih]
    · rw [if_neg h, if_neg h, if_neg h]

/-- The state one transaction leaves behind, whatever the block's sequence:
the outputs are created on the state the inputs left, unless settling failed. -/
theorem processTransactions_single (b : coin.Block) (hd : HistoryDB c)
    (t : coin.Transaction) :
    (b.Seq > 0 ∧ (settleInputs c b t (addTx c b hd t) t.In).2 ≠ none ∧
        processTransactions c b hd [t] = settleInputs c b t (addTx c b hd t) t.In) ∨
      (b.Seq > 0 ∧ (settleInputs c b t (addTx c b hd t) t.In).2 = none ∧
        processTransactions c b hd [t] =
          createOutputs c (settleInputs c b t (addTx c b hd t) t.In).1
            (c.CreateUnspents b.Head t)) ∨
      (b.Seq = 0 ∧ processTransactions c b hd [t] =
          createOutputs c (addTx c b hd t) (c.CreateUnspents b.Head t)) := by
  by_cases hs : b.Seq > 0
  · by_cases he : (settleInputs c b t (addTx c b hd t) t.In).2 = none
    · right; left
      refine ⟨hs, he, ?_⟩
      rw [processTransactions_single_pos b hd t hs, if_pos he]
    · left
      refine ⟨hs, he, ?_⟩
      rw [processTransactions_single_pos b hd t hs, if_neg he]
  · right; right
    have h0 : b.Seq = 0 := by omega
    exact ⟨h0, processTransactions_single_zero b hd t h0⟩

/-- What one transaction does to one key of the Output Index. -/
theorem processTransactions_single_bkt (b : coin.Block) (hd : HistoryDB c)
    (t : coin.Transaction) (k : cipher.SHA256) :
    (processTransactions c b hd [t]).1.outputs.bkt k = hd.outputs.bkt k ∨
      (b.Seq > 0 ∧ k ∈ t.In ∧ ∃ o, hd.outputs.bkt k = some o ∧
        (processTransactions c b hd [t]).1.outputs.bkt k = some (markSpent c b t o)) ∨
      (∃ ux ∈ c.CreateUnspents b.Head t, c.UxHash ux = k ∧
        (processTransactions c b hd [t]).2 = none ∧
        (processTransactions c b hd [t]).1.outputs.bkt k =
          some { Out := ux, SpentTxID := 0, SpentBlockSeq := 0 }) := by
  have hset := settleInputs_bkt b t (addTx c b hd t) t.In k
  rw [addTx_outputs] at hset
  rcases processTransactions_single b hd t with ⟨hs, _, h⟩ | ⟨hs, _, h⟩ | ⟨hs, h⟩
  · rw [h]
    rcases hset with h1 | ⟨hm, o, h1, h2⟩
    · exact Or.inl h1
    · exact Or.inr (Or.inl ⟨hs, hm, o, h1, h2⟩)
  · rw [h]
    rcases createOutputs_bkt (settleInputs c b t (addTx c b hd t) t.In).1
        (c.CreateUnspents b.Head t) k with h3 | ⟨ux, hm, hk, h3⟩
    · rw [h3]
      rcases hset with h1 | ⟨hm, o, h1, h2⟩
      · exact Or.inl h1
      · exact Or.inr (Or.inl ⟨hs, hm, o, h1, h2⟩)
    · exact Or.inr (Or.inr ⟨ux, hm, hk, createOutputs_snd _ _, h3⟩)
  · rw [h]
    rcases createOutputs_bkt (addTx c b hd t) (c.CreateUnspents b.Head t) k with
      h3 | ⟨ux, hm, hk, h3⟩
    · exact Or.inl h3
    · exact Or.inr (Or.inr ⟨ux, hm, hk, createOutputs_snd _ _, h3⟩)

/-- What the transactions of a block do to one key of the Output Index: the
record is the one held before, or it was last written by the settling of an
input, or it was last written by the creation of an output. -/
theorem processTransactions_bkt (b : coin.Block) (hd : HistoryDB c)
    (txs : List coin.Transaction) (k : cipher.SHA256) :
    (processTransactions c b hd txs).1.outputs.bkt k = hd.outputs.bkt k ∨
      (b.Seq > 0 ∧ ∃ t ∈ txs, k ∈ t.In ∧ ∃ o,
        (processTransactions c b hd txs).1.outputs.bkt k = some (markSpent c b t o)) ∨
      (∃ t ∈ txs, ∃ ux ∈ c.CreateUnspents b.Head t, c.UxHash ux = k ∧
        (processTransactions c b hd txs).1.outputs.bkt k =
          some { Out := ux, SpentTxID := 0, SpentBlockSeq := 0 }) := by
  induction txs generalizing hd with
  | nil => exact Or.inl rfl
  | cons t rest ih =>
    have h1 := processTransactions_single_bkt b hd t k
    rw [processTransactions_cons]
    by_cases he : (processTransactions c b hd [t]).2 = none
    · rw [if_pos he]
      rcases ih (processTransactions c b hd [t]).1 with h2 | ⟨hs, t1, hm, hk, o, h2⟩ |
        ⟨t1, hm, ux, hu, hk, h2⟩
      · rw [h2]
        rcases h1 with h1 | ⟨hs, hm, o, _, h1⟩ | ⟨ux, hu, hk, _, h1⟩
        · exact Or.inl h1
        · exact Or.inr (Or.inl ⟨hs, t, List.mem_cons_self _ _, hm, o, h1⟩)
        · exact Or.inr (Or.inr ⟨t, List.mem_cons_self _ _, ux, hu, hk, h1⟩)
      · exact Or.inr (Or.inl ⟨hs, t1, List.mem_cons_of_mem _ hm, hk, o, h2⟩)
      · exact Or.inr (Or.inr ⟨t1, List.mem_cons_of_mem _ hm, ux, hu, hk, h2⟩)
    · rw [if_neg he]
      rcases h1 with h1 | ⟨hs, hm, o, _, h1⟩ | ⟨ux, hu, hk, _, h1⟩
      · exact Or.inl h1
      · exact Or.inr (Or.inl ⟨hs, t, List.mem_cons_self _ _, hm, o, h1⟩)
      · exact Or.inr (Or.inr ⟨t, List.mem_cons_self _ _, ux, hu, hk, h1⟩)

/-- A key that is no input and no new output of the block keeps its record. -/
theorem processTransactions_bkt_of_untouched (b : coin.Block) (hd : HistoryDB c)
    (txs : List coin.Transaction) (k : cipher.SHA256)
    (hin : b.Seq > 0 → ∀ t ∈ txs, k ∉ t.In)
    (hout : ∀ t ∈ txs, ∀ ux ∈ c.CreateUnspents b.Head t, c.UxHash ux ≠ k) :
    (processTransactions c b hd txs).1.outputs.bkt k = hd.outputs.bkt k := by
  rcases processTransactions_bkt b hd txs k with h | ⟨hs, t, hm, hk, _⟩ | ⟨t, hm, ux, hu, hk, _⟩
  · exact h
  · exact absurd hk (hin hs t hm)
  · exact absurd hk (hout t hm ux hu)

theorem processTransactions_single_bkt_ne_none (b : coin.Block) (hd : HistoryDB c)
    (t : coin.Transaction) (k : cipher.SHA256) (hk : hd.outputs.bkt k ≠ none) :
    (processTransactions c b hd [t]).1.outputs.bkt k ≠ none := by
  rcases processTransactions_single_bkt b hd t k with h | ⟨_, _, o, _, h⟩ | ⟨ux, _, _, _, h⟩
  · rw [h]; exact hk
  · rw [h]; simp
  · rw [h]; simp

/-- No key of the Output Index is ever removed. -/
theorem processTransactions_bkt_ne_none (b : coin.Block) (hd : HistoryDB c)
    (txs : List coin.Transaction) (k : cipher.SHA256) (hk : hd.outputs.bkt k ≠ none) :
    (processTransactions c b hd txs).1.outputs.bkt k ≠ none := by
  rcases processTransactions_bkt b hd txs k with h | ⟨_, t, _, _, o, h⟩ | ⟨t, _, ux, _, _, h⟩
  · rw [h]; exact hk
  · rw [h]; simp
  · rw [h]; simp

theorem processTransactions_single_addrOut_mono (b : coin.Block) (hd : HistoryDB c)
    (t : coin.Transaction) (a : cipher.Address) (id : cipher.SHA256)
    (h : id ∈ hd.addrOut.bkt a) :
    id ∈ (processTransactions c b hd [t]).1.addrOut.bkt a := by
  have h1 : id ∈ (settleInputs c b t (addTx c b hd t) t.In).1.addrOut.bkt a :=
    settleInputs_addrOut_mono b t _ t.In a id h
  rcases processTransactions_single b hd t with ⟨_, _, he⟩ | ⟨_, _, he⟩ | ⟨_, he⟩
  · rw [he]; exact h1
  · rw [he, createOutputs_addrOut]; exact h1
  · rw [he, createOutputs_addrOut]; exact h

/-- No identifier is ever removed from the address-out index. -/
theorem processTransactions_addrOut_mono (b : coin.Block) (hd : HistoryDB c)
    (txs : List coin.Transaction) (a : cipher.Address) (id : cipher.SHA256)
    (h : id ∈ hd.addrOut.bkt a) :
    id ∈ (processTransactions c b hd txs).1.addrOut.bkt a := by
  induction txs generalizing hd with
  | nil => exact h
  | cons t rest ih =>
    have h1 := processTransactions_single_addrOut_mono b hd t a id h
    rw [processTransactions_cons]
    by_cases he : (processTransactions c b hd [t]).2 = none
    · rw [if_pos he]; exact ih _ h1
    · rw [if_neg he]; exact h1

/-! ## C1: spend marking -/

/-- Spend marking over the loop of transactions of a block past genesis. -/
theorem processTransactions_spend (b : coin.Block) (hs : b.Seq > 0)
    (txs : List coin.Transaction) (hd : HistoryDB c)
    (hnd : (txs.flatMap fun t => t.In).Nodup)
    (hp : ∀ t ∈ txs, ∀ id ∈ t.In, hd.outputs.bkt id ≠ none)
    (hdj : ∀ t ∈ txs, ∀ id ∈ t.In, ∀ t1 ∈ txs, ∀ ux ∈ c.CreateUnspents b.Head t1,
      c.UxHash ux ≠ id) :
    (processTransactions c b hd txs).2 = none ∧
      ∀ t ∈ txs, ∀ id ∈ t.In, ∃ r, hd.outputs.bkt id = some r ∧
        (processTransactions c b hd txs).1.outputs.bkt id = some (markSpent c b t r) ∧
        id ∈ (processTransactions c b hd txs).1.addrOut.bkt r.Out.Body.Address := by
  induction txs generalizing hd with
  | nil => exact ⟨rfl, fun t ht => absurd ht (List.not_mem_nil t)⟩
  | cons t rest ih =>
    rw [List.flatMap_cons, List.nodup_append] at hnd
    obtain ⟨_, hndr, hdis⟩ := hnd
    have hpt : ∀ i ∈ t.In, (addTx c b hd t).outputs.bkt i ≠ none := fun i hi =>
      hp t (List.mem_cons_self _ _) i hi
    obtain ⟨hok, hall⟩ := settleInputs_ok b t (addTx c b hd t) t.In hpt
    have hsingle : processTransactions c b hd [t] =
        createOutputs c (settleInputs c b t (addTx c b hd t) t.In).1
          (c.CreateUnspents b.Head t) := by
      rw [processTransactions_single_pos b hd t hs, if_pos hok]
    have hsok : (processTransactions c b hd [t]).2 = none := by
      rw [hsingle]; exact createOutputs_snd _ _
    rw [processTransactions_cons, if_pos hsok]
    have hp1 : ∀ t1 ∈ rest, ∀ id ∈ t1.In,
        (processTransactions c b hd [t]).1.outputs.bkt id ≠ none := fun t1 h1 id hid =>
      processTransactions_single_bkt_ne_none b hd t id (hp t1 (List.mem_cons_of_mem _ h1) id hid)
    have hdj1 : ∀ t1 ∈ rest, ∀ id ∈ t1.In, ∀ t2 ∈ rest, ∀ ux ∈ c.CreateUnspents b.Head t2,
        c.UxHash ux ≠ id := fun t1 h1 id hid t2 h2 ux hux =>
      hdj t1 (List.mem_cons_of_mem _ h1) id hid t2 (List.mem_cons_of_mem _ h2) ux hux
    obtain ⟨hrok, hrall⟩ := ih (processTransactions c b hd [t]).1 hndr hp1 hdj1
    refine ⟨hrok, ?_⟩
    intro t1 ht1 id hid
    rcases List.mem_cons.1 ht1 with h0 | h0
    · subst h0
      obtain ⟨o, h1, h2, h3⟩ := hall id hid
      rw [addTx_outputs] at h1
      refine ⟨o, h1, ?_, ?_⟩
      · have hnr : ∀ t2 ∈ rest, id ∉ t2.In := by
          intro t2 h2m hin
          exact hdis hid (List.mem_flatMap.2 ⟨t2, h2m, hin⟩)
        rw [processTransactions_bkt_of_untouched b _ rest id (fun _ => hnr)
          (fun t2 h2m ux hux => hdj t1 ht1 id hid t2 (List.mem_cons_of_mem _ h2m) ux hux)]
        rw [hsingle, createOutputs_bkt_of_not_mem _ _ id
          (fun ux hux => hdj t1 ht1 id hid t1 (List.mem_cons_self _ _) ux hux)]
        exact h2
      · apply processTransactions_addrOut_mono
        rw [hsingle, createOutputs_addrOut]
        exact h3
    · obtain ⟨r, h1, h2, h3⟩ := hrall t1 h0 id hid
      refine ⟨r, ?_, h2, h3⟩
      rw [← h1, hsingle]
      have hnt : id ∉ t.In := fun hin => hdis hin (List.mem_flatMap.2 ⟨t1, h0, hid⟩)
      rw [createOutputs_bkt_of_not_mem _ _ id
        (fun ux hux => hdj t1 ht1 id hid t (List.mem_cons_self _ _) ux hux),
        settleInputs_bkt_of_not_mem b t _ t.In id hnt, addTx_outputs]

/-- C1 (spend marking): for a block with sequence `s > 0` whose input
identifiers are pairwise distinct, all on record beforehand and distinct from
every output the block creates, `ProcessBlock` succeeds, and for every input
`id` of every transaction `t` of the block `GetUxout id` returns the record
stored under `id` before, changed only in its spend marker, now
`(s, t.Hash())`; and `id` is listed in the address-out index under that
record's owning address. -/
theorem ProcessBlock_marks_inputs_spent (hd : HistoryDB c) (b : coin.Block)
    (hs : b.Seq > 0)
    (hdistinct : (b.Body.Transactions.flatMap fun t => t.In).Nodup)
    (hpresent : ∀ t ∈ b.Body.Transactions, ∀ id ∈ t.In, ∃ r, hd.GetUxout id = .ok r)
    (hfresh : ∀ t ∈ b.Body.Transactions, ∀ id ∈ t.In, ∀ t1 ∈ b.Body.Transactions,
      ∀ ux ∈ c.CreateUnspents b.Head t1, c.UxHash ux ≠ id) :
    (hd.ProcessBlock b).2 = none ∧
      ∀ t ∈ b.Body.Transactions, ∀ id ∈ t.In, ∃ r, hd.GetUxout id = .ok r ∧
        (hd.ProcessBlock b).1.GetUxout id =
          .ok { r with SpentBlockSeq := b.Seq, SpentTxID := c.TxHash t } ∧
        id ∈ (hd.ProcessBlock b).1.addrOut.Get r.Out.Body.Address := by
  have hp : ∀ t ∈ b.Body.Transactions, ∀ id ∈ t.In, hd.outputs.bkt id ≠ none := by
    intro t ht id hid
    obtain ⟨r, hr⟩ := hpresent t ht id hid
    rw [HistoryDB.GetUxout, Outputs_Get_eq_ok] at hr
    rw [hr]; simp
  obtain ⟨hok, hall⟩ := processTransactions_spend b hs b.Body.Transactions hd hdistinct hp hfresh
  refine ⟨hok, ?_⟩
  intro t ht id hid
  obtain ⟨r, h1, h2, h3⟩ := hall t ht id hid
  exact ⟨r, Outputs_Get_eq_ok.2 h1, Outputs_Get_eq_ok.2 h2, h3⟩

theorem ProcessBlock_marks_inputs_spent_witness :
    (demoState1.ProcessBlock demoBlock1).2 = none ∧
      ∀ t ∈ demoBlock1.Body.Transactions, ∀ id ∈ t.In, ∃ r, demoState1.GetUxout id = .ok r ∧
        (demoState1.ProcessBlock demoBlock1).1.GetUxout id =
          .ok { r with SpentBlockSeq := demoBlock1.Seq, SpentTxID := demoCoin.TxHash t } ∧
        id ∈ (demoState1.ProcessBlock demoBlock1).1.addrOut.Get r.Out.Body.Address :=
  ProcessBlock_marks_inputs_spent demoState1 demoBlock1 (by decide) (by decide)
    (by
      intro t ht id hid
      simp only [demoBlock1, List.mem_singleton] at ht
      subst ht
      simp only [List.mem_singleton] at hid
      subst hid
      exact ⟨⟨⟨⟨0, 0⟩, ⟨1, 7, 1, 0⟩⟩, 0, 0⟩, by decide⟩)
    (by decide)

/-! ## C2: a re-spend overwrites the marker -/

theorem markSpent_markSpent_other (b : coin.Block) (t t1 : coin.Transaction) (o : UxOut) :
    markSpent c b t (markSpent c b t1 o) = markSpent c b t o := rfl

/-- When `settleInputs` does not fail, every listed input was on record. -/
theorem settleInputs_present_of_ok (b : coin.Block) (t : coin.Transaction)
    (hd : HistoryDB c) (ins : List cipher.SHA256)
    (hok : (settleInputs c b t hd ins).2 = none) :
    ∀ i ∈ ins, hd.outputs.bkt i ≠ none := by
  induction ins generalizing hd with
  | nil => exact fun i hi => absurd hi (List.not_mem_nil i)
  | cons i rest ih =>
    cases h : hd.outputs.bkt i with
    | none =>
      rw [settleInputs_cons_none b t hd i rest h] at hok
      simp at hok
    | some o =>
      rw [settleInputs_cons_some b t hd i rest o h] at hok
      intro j hj
      rcases List.mem_cons.1 hj with h0 | h0
      · rw [h0, h]; simp
      · have h1 := ih (settleOne c b t hd o) hok j h0
        rw [settleOne_bkt b t hd i o h j] at h1
        by_cases hji : j = i
        · rw [hji, h]; simp
        · rw [if_neg hji] at h1; exact h1

/-- When the block creates no output under key `k`, the record under `k` is the
one held before, or that record with the spend marker of a transaction of the
block that lists `k` as an input. -/
theorem processTransactions_bkt_of_not_created (b : coin.Block) (hd : HistoryDB c)
    (txs : List coin.Transaction) (k : cipher.SHA256)
    (hout : ∀ t ∈ txs, ∀ ux ∈ c.CreateUnspents b.Head t, c.UxHash ux ≠ k) :
    (processTransactions c b hd txs).1.outputs.bkt k = hd.outputs.bkt k ∨
      (b.Seq > 0 ∧ ∃ t ∈ txs, k ∈ t.In ∧ ∃ o, hd.outputs.bkt k = some o ∧
        (processTransactions c b hd txs).1.outputs.bkt k = some (markSpent c b t o)) := by
  induction txs generalizing hd with
  | nil => exact Or.inl rfl
  | cons t rest ih =>
    have h1 : (processTransactions c b hd [t]).1.outputs.bkt k = hd.outputs.bkt k ∨
        (b.Seq > 0 ∧ k ∈ t.In ∧ ∃ o, hd.outputs.bkt k = some o ∧
          (processTransactions c b hd [t]).1.outputs.bkt k = some (markSpent c b t o)) := by
      rcases processTransactions_single_bkt b hd t k with h | h | ⟨ux, hu, hk, _⟩
      · exact Or.inl h
      · exact Or.inr h
      · exact absurd hk (hout t (List.mem_cons_self _ _) ux hu)
    rw [processTransactions_cons]
    by_cases he : (processTransactions c b hd [t]).2 = none
    · rw [if_pos he]
      rcases ih (processTransactions c b hd [t]).1
          (fun t1 h1m => hout t1 (List.mem_cons_of_mem _ h1m)) with
        h2 | ⟨hs, t1, hm, hk, o, h2, h3⟩
      · rw [h2]
        rcases h1 with h1 | ⟨hs, hm, o, h1, h4⟩
        · exact Or.inl h1
        · exact Or.inr ⟨hs, t, List.mem_cons_self _ _, hm, o, h1, h4⟩
      · right
        rcases h1 with h1 | ⟨_, _, o1, h1, h4⟩
        · exact ⟨hs, t1, List.mem_cons_of_mem _ hm, hk, o, by rw [← h1]; exact h2, h3⟩
        · rw [h4] at h2
          cases h2
          exact ⟨hs, t1, List.mem_cons_of_mem _ hm, hk, o1, h1, by
            rw [h3, markSpent_markSpent_other]⟩
    · rw [if_neg he]
      rcases h1 with h1 | ⟨hs, hm, o, h1, h4⟩
      · exact Or.inl h1
      · exact Or.inr ⟨hs, t, List.mem_cons_self _ _, hm, o, h1, h4⟩

/-- C2, as the code has it: when a block with sequence `s2 > 0` is processed
without error, creates no output under `id`, and `t` is its last transaction
that lists `id` as an input, the record under `id` comes out as the record held
before with its spend marker overwritten by `(s2, t.Hash())`, whatever marker
`(s1, tx1)` it carried. -/
theorem ProcessBlock_respend_overwrites_marker (hd : HistoryDB c) (b : coin.Block)
    (hs : b.Seq > 0) (id : cipher.SHA256) (r : UxOut) (hr : hd.GetUxout id = .ok r)
    (pre post : List coin.Transaction) (t : coin.Transaction)
    (hsplit : b.Body.Transactions = pre ++ t :: post) (hid : id ∈ t.In)
    (hlast : ∀ t1 ∈ post, id ∉ t1.In)
    (hfresh : ∀ t1 ∈ b.Body.Transactions, ∀ ux ∈ c.CreateUnspents b.Head t1,
      c.UxHash ux ≠ id)
    (hok : (hd.ProcessBlock b).2 = none) :
    (hd.ProcessBlock b).1.GetUxout id =
      .ok { r with SpentBlockSeq := b.Seq, SpentTxID := c.TxHash t } := by
  rw [HistoryDB.GetUxout, Outputs_Get_eq_ok] at hr ⊢
  unfold HistoryDB.ProcessBlock at hok ⊢
  rw [hsplit] at hok hfresh ⊢
  have hfpre : ∀ t1 ∈ pre, ∀ ux ∈ c.CreateUnspents b.Head t1, c.UxHash ux ≠ id :=
    fun t1 h1 => hfresh t1 (List.mem_append_left _ h1)
  have hft : ∀ ux ∈ c.CreateUnspents b.Head t, c.UxHash ux ≠ id :=
    hfresh t (List.mem_append_right _ (List.mem_cons_self _ _))
  have hfpost : ∀ t1 ∈ post, ∀ ux ∈ c.CreateUnspents b.Head t1, c.UxHash ux ≠ id :=
    fun t1 h1 => hfresh t1 (List.mem_append_right _ (List.mem_cons_of_mem _ h1))
  rw [processTransactions_append] at hok ⊢
  by_cases hpre : (processTransactions c b hd pre).2 = none
  · rw [if_pos hpre] at hok ⊢
    rw [processTransactions_cons] at hok ⊢
    by_cases hone : (processTransactions c b (processTransactions c b hd pre).1 [t]).2 = none
    · rw [if_pos hone] at hok ⊢
      rw [processTransactions_bkt_of_untouched b _ post id (fun _ => hlast) hfpost]
      rw [processTransactions_single_pos b _ t hs] at hone ⊢
      by_cases hset : (settleInputs c b t
          (addTx c b (processTransactions c b hd pre).1 t) t.In).2 = none
      · rw [if_pos hset]
        rw [createOutputs_bkt_of_not_mem _ _ id hft]
        obtain ⟨_, hall⟩ := settleInputs_ok b t _ t.In
          (settleInputs_present_of_ok b t _ t.In hset)
        obtain ⟨o, h1, h2, _⟩ := hall id hid
        rw [h2]
        rw [addTx_outputs] at h1
        rcases processTransactions_bkt_of_not_created b hd pre id hfpre with
          h3 | ⟨_, t1, _, _, o1, h3, h4⟩
        · rw [h3, hr] at h1
          cases h1
          rfl
        · rw [h4] at h1
          rw [hr] at h3
          cases h3
          cases h1
          rfl
      · rw [if_neg hset] at hone
        exact absurd hone hset
    · rw [if_neg hone] at hok
      exact absurd hok hone
  · rw [if_neg hpre] at hok
    exact absurd hok hpre


theorem ProcessBlock_respend_overwrites_marker_witness :
    (demoState2.ProcessBlock demoRespend).1.GetUxout 101 =
      .ok { Out := ⟨⟨0, 0⟩, ⟨1, 7, 1, 0⟩⟩, SpentTxID := demoCoin.TxHash ⟨4, [101], []⟩,
            SpentBlockSeq := demoRespend.Seq } :=
  ProcessBlock_respend_overwrites_marker demoState2 demoRespend (by decide) 101
    { Out := ⟨⟨0, 0⟩, ⟨1, 7, 1, 0⟩⟩, SpentTxID := 2, SpentBlockSeq := 1 } (by decide)
    [] [] ⟨4, [101], []⟩ rfl (by decide) (by decide) (by decide) (by decide)

/-- C2 as stated fails: output 101 carries the marker `(1, 2)` of block 1 and
transaction 2; after a block of sequence 2 whose transaction 4 lists 101 again,
the record carries `(2, 4)`. -/
theorem respend_replaces_original_spender :
    demoState2.GetUxout 101 =
        .ok { Out := ⟨⟨0, 0⟩, ⟨1, 7, 1, 0⟩⟩, SpentTxID := 2, SpentBlockSeq := 1 } ∧
      demoRespend.Seq > 0 ∧
      (∃ t ∈ demoRespend.Body.Transactions, 101 ∈ t.In) ∧
      (demoState2.ProcessBlock demoRespend).2 = none ∧
      (demoState2.ProcessBlock demoRespend).1.GetUxout 101 =
        .ok { Out := ⟨⟨0, 0⟩, ⟨1, 7, 1, 0⟩⟩, SpentTxID := 4, SpentBlockSeq := 2 } := by
  decide

/-! ## C3: a missing input is fatal -/

theorem settleInputs_append (b : coin.Block) (t : coin.Transaction) (hd : HistoryDB c)
    (ins1 ins2 : List cipher.SHA256) :
    settleInputs c b t hd (ins1 ++ ins2) =
      if (settleInputs c b t hd ins1).2 = none then
        settleInputs c b t (settleInputs c b t hd ins1).1 ins2
      else settleInputs c b t hd ins1 := by
  induction ins1 generalizing hd with
  | nil => simp [settleInputs_nil]
  | cons i rest ih =>
    rw [List.cons_append]
    cases h : hd.outputs.bkt i with
    | none =>
      rw [settleInputs_cons_none b t hd i _ h, settleInputs_cons_none b t hd i _ h]
      simp
    | some o =>
      rw [settleInputs_cons_some b t hd i _ o h, settleInputs_cons_some b t hd i _ o h, ih]

theorem settleInputs_head_congr (b1 b2 : coin.Block) (hh : b1.Head = b2.Head)
    (t : coin.Transaction) (hd : HistoryDB c) (ins : List cipher.SHA256) :
    settleInputs c b1 t hd ins = settleInputs c b2 t hd ins := by
  have hseq : b1.Seq = b2.Seq := by unfold coin.Block.Seq; rw [hh]
  induction ins generalizing hd with
  | nil => rfl
  | cons i rest ih =>
    cases h : hd.outputs.bkt i with
    | none => rw [settleInputs_cons_none b1 t hd i _ h, settleInputs_cons_none b2 t hd i _ h]
    | some o =>
      rw [settleInputs_cons_some b1 t hd i _ o h, settleInputs_cons_some b2 t hd i _ o h, ih]
      simp [settleOne, markSpent, hseq]

/-- The loop over the transactions reads only the header of the block. -/
theorem processTransactions_head_congr (b1 b2 : coin.Block) (hh : b1.Head = b2.Head)
    (hd : HistoryDB c) (txs : List coin.Transaction) :
    processTransactions c b1 hd txs = processTransactions c b2 hd txs := by
  have hseq : b1.Seq = b2.Seq := by unfold coin.Block.Seq; rw [hh]
  have hadd : ∀ (h : HistoryDB c) (t : coin.Transaction), addTx c b1 h t = addTx c b2 h t := by
    intro h t; simp [addTx, hseq]
  have hone : ∀ (h : HistoryDB c) (t : coin.Transaction),
      processTransactions c b1 h [t] = processTransactions c b2 h [t] := by
    intro h t
    by_cases hs : b1.Seq > 0
    · rw [processTransactions_single_pos b1 h t hs,
        processTransactions_single_pos b2 h t (hseq ▸ hs), hadd,
        settleInputs_head_congr b1 b2 hh, hh]
    · have h1 : b1.Seq = 0 := by omega
      rw [processTransactions_single_zero b1 h t h1,
        processTransactions_single_zero b2 h t (hseq ▸ h1), hadd, hh]
  induction txs generalizing hd with
  | nil => rfl
  | cons t rest ih =>
    rw [processTransactions_cons b1, processTransactions_cons b2, hone, ih]

/-- `ProcessBlock` on the block cut down to the transactions `pre` is the loop
over `pre` under the block's own header. -/
theorem ProcessBlock_truncated (hd : HistoryDB c) (b : coin.Block)
    (pre : List coin.Transaction) :
    hd.ProcessBlock { b with Body := { Transactions := pre } } =
      processTransactions c b hd pre := by
  exact processTransactions_head_congr { b with Body := { Transactions := pre } } b rfl hd pre

/-- The loop over the transactions at the first missing input: the
transactions `pre` went through, the inputs `ins1` of `t` are on record and
`id` is not; the loop stops with the lookup error in the state that settling
`ins1` left. -/
theorem processTransactions_missing (b : coin.Block) (hs : b.Seq > 0) (hd : HistoryDB c)
    (pre post : List coin.Transaction) (t : coin.Transaction)
    (hpre : (processTransactions c b hd pre).2 = none)
    (ins1 ins2 : List cipher.SHA256) (id : cipher.SHA256)
    (hin : t.In = ins1 ++ id :: ins2)
    (hins1 : ∀ i ∈ ins1, (processTransactions c b hd pre).1.outputs.bkt i ≠ none)
    (hmiss : (processTransactions c b hd pre).1.outputs.bkt id = none) :
    processTransactions c b hd (pre ++ t :: post) =
      ((settleInputs c b t (addTx c b (processTransactions c b hd pre).1 t) ins1).1,
        some (.OutputNotFound id)) := by
  have hset1 := settleInputs_ok b t (addTx c b (processTransactions c b hd pre).1 t) ins1 hins1
  have hset : settleInputs c b t (addTx c b (processTransactions c b hd pre).1 t) t.In =
      ((settleInputs c b t (addTx c b (processTransactions c b hd pre).1 t) ins1).1,
        some (.OutputNotFound id)) := by
    rw [hin, settleInputs_append, if_pos hset1.1]
    apply settleInputs_cons_none
    rw [settleInputs_bkt_eq_none]
    exact hmiss
  have hone : processTransactions c b (processTransactions c b hd pre).1 [t] =
      ((settleInputs c b t (addTx c b (processTransactions c b hd pre).1 t) ins1).1,
        some (.OutputNotFound id)) := by
    rw [processTransactions_single_pos b _ t hs, hset]
    simp
  rw [processTransactions_append, if_pos hpre, processTransactions_cons, hone]
  simp

/-- C3 (fatal on missing input): in a block with sequence `s > 0`, let the
transactions before `t` go through without error, let the inputs of `t` listed
before `id` be on record in the state they leave, and let `id` have no record
there (settling inputs adds and removes no record, so this is the state of the
keys when `id` is fetched). Then `ProcessBlock` returns the lookup error of the
Output Index, the address-in index is the one the transactions before `t` left,
and every key of the Output Index holds what they left, changed at most by the
spend marker of `t` on an input settled before `id`: no output of `t` or of a
later transaction is inserted. -/
theorem ProcessBlock_missing_input_fatal (hd : HistoryDB c) (b : coin.Block)
    (hs : b.Seq > 0) (pre post : List coin.Transaction) (t : coin.Transaction)
    (hsplit : b.Body.Transactions = pre ++ t :: post)
    (hpre : (hd.ProcessBlock { b with Body := { Transactions := pre } }).2 = none)
    (ins1 ins2 : List cipher.SHA256) (id : cipher.SHA256)
    (hin : t.In = ins1 ++ id :: ins2)
    (hins1 : ∀ i ∈ ins1, ∃ r,
      (hd.ProcessBlock { b with Body := { Transactions := pre } }).1.GetUxout i = .ok r)
    (e : Error)
    (hmiss : (hd.ProcessBlock { b with Body := { Transactions := pre } }).1.GetUxout id =
      .error e) :
    (hd.ProcessBlock b).2 = some e ∧
      (hd.ProcessBlock b).1.addrIn =
        (hd.ProcessBlock { b with Body := { Transactions := pre } }).1.addrIn ∧
      ∀ k, (hd.ProcessBlock b).1.GetUxout k =
          (hd.ProcessBlock { b with Body := { Transactions := pre } }).1.GetUxout k ∨
        ∃ o, k ∈ ins1 ∧
          (hd.ProcessBlock { b with Body := { Transactions := pre } }).1.GetUxout k = .ok o ∧
          (hd.ProcessBlock b).1.GetUxout k =
            .ok { o with SpentBlockSeq := b.Seq, SpentTxID := c.TxHash t } := by
  rw [ProcessBlock_truncated hd b pre] at hpre hins1 hmiss ⊢
  rw [HistoryDB.GetUxout, Outputs_Get_eq_error] at hmiss
  obtain ⟨hnone, he⟩ := hmiss
  have hp1 : ∀ i ∈ ins1, (processTransactions c b hd pre).1.outputs.bkt i ≠ none := by
    intro i hi
    obtain ⟨r, hr⟩ := hins1 i hi
    rw [HistoryDB.GetUxout, Outputs_Get_eq_ok] at hr
    rw [hr]; simp
  have hres : hd.ProcessBlock b =
      ((settleInputs c b t (addTx c b (processTransactions c b hd pre).1 t) ins1).1,
        some (.OutputNotFound id)) := by
    unfold HistoryDB.ProcessBlock
    rw [hsplit]
    exact processTransactions_missing b hs hd pre post t hpre ins1 ins2 id hin hp1 hnone
  rw [hres]
  refine ⟨by rw [he], ?_, ?_⟩
  · show (settleInputs c b t _ ins1).1.addrIn = _
    rw [settleInputs_addrIn, addTx_addrIn]
  · intro k
    show (settleInputs c b t _ ins1).1.outputs.Get k = (processTransactions c b hd pre).1.outputs.Get k ∨ _
    rcases settleInputs_bkt b t (addTx c b (processTransactions c b hd pre).1 t) ins1 k with
      h | ⟨hm, o, h1, h2⟩
    · left
      unfold Outputs.Get
      rw [h, addTx_outputs]
    · right
      rw [addTx_outputs] at h1
      exact ⟨o, hm, Outputs_Get_eq_ok.2 h1, Outputs_Get_eq_ok.2 h2⟩

theorem ProcessBlock_missing_input_fatal_witness :
    (demoState1.ProcessBlock demoBadInput).2 = some (.OutputNotFound 999) ∧
      (demoState1.ProcessBlock demoBadInput).1.addrIn =
        (demoState1.ProcessBlock
          { demoBadInput with Body := { Transactions := [] } }).1.addrIn ∧
      ∀ k, (demoState1.ProcessBlock demoBadInput).1.GetUxout k =
          (demoState1.ProcessBlock
            { demoBadInput with Body := { Transactions := [] } }).1.GetUxout k ∨
        ∃ o, k ∈ [101] ∧
          (demoState1.ProcessBlock
            { demoBadInput with Body := { Transactions := [] } }).1.GetUxout k = .ok o ∧
          (demoState1.ProcessBlock demoBadInput).1.GetUxout k =
            .ok { o with SpentBlockSeq := demoBadInput.Seq,
                         SpentTxID := demoCoin.TxHash ⟨5, [101, 999], [⟨8, 1, 0⟩]⟩ } :=
  ProcessBlock_missing_input_fatal demoState1 demoBadInput (by decide) [] []
    ⟨5, [101, 999], [⟨8, 1, 0⟩]⟩ rfl rfl [101] [] 999 rfl
    (by
      intro i hi
      simp only [List.mem_singleton] at hi
      subst hi
      exact ⟨⟨⟨⟨0, 0⟩, ⟨1, 7, 1, 0⟩⟩, 0, 0⟩, by decide⟩)
    (.OutputNotFound 999) (by decide)

/-! ## C4: the genesis block settles no input -/

theorem processTransactions_zero_snd (b : coin.Block) (hs : b.Seq = 0) (hd : HistoryDB c)
    (txs : List coin.Transaction) : (processTransactions c b hd txs).2 = none := by
  induction txs generalizing hd with
  | nil => rfl
  | cons t rest ih =>
    have h1 : (processTransactions c b hd [t]).2 = none := by
      rw [processTransactions_single_zero b hd t hs]; exact createOutputs_snd _ _
    rw [processTransactions_cons, if_pos h1]
    exact ih _

theorem processTransactions_zero_addrOut (b : coin.Block) (hs : b.Seq = 0)
    (hd : HistoryDB c) (txs : List coin.Transaction) :
    (processTransactions c b hd txs).1.addrOut = hd.addrOut := by
  induction txs generalizing hd with
  | nil => rfl
  | cons t rest ih =>
    have h1 : (processTransactions c b hd [t]).2 = none := by
      rw [processTransactions_single_zero b hd t hs]; exact createOutputs_snd _ _
    rw [processTransactions_cons, if_pos h1, ih, processTransactions_single_zero b hd t hs,
      createOutputs_addrOut, addTx_addrOut]

/-- C4 (genesis exemption): for a block with sequence 0, whatever inputs its
transactions list, `ProcessBlock` does not fail, leaves the address-out index
as it was, and every key of the Output Index holds either what it held before
or an output created by a transaction of the block, with a zero spend marker. -/
theorem ProcessBlock_genesis_settles_no_input (hd : HistoryDB c) (b : coin.Block)
    (hs : b.Seq = 0) :
    (hd.ProcessBlock b).2 = none ∧
      (hd.ProcessBlock b).1.addrOut = hd.addrOut ∧
      ∀ id, (hd.ProcessBlock b).1.GetUxout id = hd.GetUxout id ∨
        ∃ t ∈ b.Body.Transactions, ∃ ux ∈ c.CreateUnspents b.Head t, c.UxHash ux = id ∧
          (hd.ProcessBlock b).1.GetUxout id =
            .ok { Out := ux, SpentTxID := 0, SpentBlockSeq := 0 } := by
  refine ⟨processTransactions_zero_snd b hs hd _, processTransactions_zero_addrOut b hs hd _, ?_⟩
  intro id
  unfold HistoryDB.ProcessBlock HistoryDB.GetUxout
  rcases processTransactions_bkt b hd b.Body.Transactions id with
    h | ⟨hpos, _⟩ | ⟨t, hm, ux, hu, hk, h⟩
  · left
    unfold Outputs.Get
    rw [h]
  · omega
  · right
    exact ⟨t, hm, ux, hu, hk, Outputs_Get_eq_ok.2 h⟩

theorem ProcessBlock_genesis_settles_no_input_witness :
    (demoState2.ProcessBlock demoGenesisWithInputs).2 = none ∧
      (demoState2.ProcessBlock demoGenesisWithInputs).1.addrOut = demoState2.addrOut ∧
      ∀ id, (demoState2.ProcessBlock demoGenesisWithInputs).1.GetUxout id =
          demoState2.GetUxout id ∨
        ∃ t ∈ demoGenesisWithInputs.Body.Transactions,
          ∃ ux ∈ demoCoin.CreateUnspents demoGenesisWithInputs.Head t,
            demoCoin.UxHash ux = id ∧
            (demoState2.ProcessBlock demoGenesisWithInputs).1.GetUxout id =
              .ok { Out := ux, SpentTxID := 0, SpentBlockSeq := 0 } :=
  ProcessBlock_genesis_settles_no_input demoState2 demoGenesisWithInputs (by decide)

/-! ## The replay loop -/

theorem replayState_zero (bc : coin.Blockchain) (hd : HistoryDB c) :
    replayState c bc hd 0 = hd := rfl

theorem replayState_succ (bc : coin.Blockchain) (hd : HistoryDB c) (n : Nat) :
    replayState c bc hd (n + 1) =
      ((replayState c bc hd n).ProcessBlock (bc.GetBlockInDepth n)).1 := by
  simp [replayState, List.range_succ, List.foldl_append]

theorem processBlockchainLoop_zero (bc : coin.Blockchain) (depth i : Nat) (hd : HistoryDB c) :
    processBlockchainLoop c bc depth 0 i hd = none := rfl

/-- One turn of the replay loop. -/
theorem processBlockchainLoop_succ (bc : coin.Blockchain) (depth fuel i : Nat)
    (hd : HistoryDB c) :
    processBlockchainLoop c bc depth (fuel + 1) i hd =
      if i ≤ depth then
        if (hd.ProcessBlock (bc.GetBlockInDepth i)).2 = none then
          processBlockchainLoop c bc depth fuel ((i + 1) % 2 ^ 64)
            (hd.ProcessBlock (bc.GetBlockInDepth i)).1
        else some (hd.ProcessBlock (bc.GetBlockInDepth i))
      else some (hd, none) := by
  simp only [processBlockchainLoop]
  by_cases hi : i ≤ depth
  · rw [if_pos hi, if_pos hi]
    rcases hd.ProcessBlock (bc.GetBlockInDepth i) with ⟨hd1, _ | e⟩
    · simp
    · simp
  · rw [if_neg hi, if_neg hi]

/-- More fuel does not change what the loop returned. -/
theorem processBlockchainLoop_fuel_succ (bc : coin.Blockchain) (depth fuel i : Nat)
    (hd : HistoryDB c) (r : HistoryDB c × Option Error)
    (h : processBlockchainLoop c bc depth fuel i hd = some r) :
    processBlockchainLoop c bc depth (fuel + 1) i hd = some r := by
  induction fuel generalizing i hd with
  | zero => rw [processBlockchainLoop_zero] at h; cases h
  | succ f ih =>
    rw [processBlockchainLoop_succ] at h ⊢
    by_cases hi : i ≤ depth
    · rw [if_pos hi] at h ⊢
      by_cases hs : (hd.ProcessBlock (bc.GetBlockInDepth i)).2 = none
      · rw [if_pos hs] at h ⊢
        exact ih _ _ h
      · rw [if_neg hs] at h ⊢
        exact h
    · rw [if_neg hi] at h ⊢
      exact h

theorem processBlockchainLoop_fuel_mono (bc : coin.Blockchain) (depth fuel fuel1 i : Nat)
    (hd : HistoryDB c) (r : HistoryDB c × Option Error) (hle : fuel ≤ fuel1)
    (h : processBlockchainLoop c bc depth fuel i hd = some r) :
    processBlockchainLoop c bc depth fuel1 i hd = some r := by
  induction hle with
  | refl => exact h
  | step _ ih => exact processBlockchainLoop_fuel_succ bc depth _ i hd r ih

/-- The loop from counter `i` on a ledger whose blocks `i .. depth` all go
through: it returns `nil` in the state of the left fold. -/
theorem processBlockchainLoop_all_ok (bc : coin.Blockchain) (hd : HistoryDB c)
    (depth : Nat) (hdepth : depth + 1 < 2 ^ 64) (n i fuel : Nat)
    (hn : i + n = depth + 1) (hfuel : n + 1 ≤ fuel)
    (hok : ∀ j, i ≤ j → j ≤ depth →
      ((replayState c bc hd j).ProcessBlock (bc.GetBlockInDepth j)).2 = none) :
    processBlockchainLoop c bc depth fuel i (replayState c bc hd i) =
      some (replayState c bc hd (depth + 1), none) := by
  induction n generalizing i fuel with
  | zero =>
    obtain ⟨f, rfl⟩ : ∃ f, fuel = f + 1 := ⟨fuel - 1, by omega⟩
    have hi : ¬ i ≤ depth := by omega
    have hid : i = depth + 1 := by omega
    rw [processBlockchainLoop_succ, if_neg hi, hid]
  | succ m ih =>
    obtain ⟨f, rfl⟩ : ∃ f, fuel = f + 1 := ⟨fuel - 1, by omega⟩
    have hi : i ≤ depth := by omega
    have hmod : (i + 1) % 2 ^ 64 = i + 1 := Nat.mod_eq_of_lt (by omega)
    rw [processBlockchainLoop_succ, if_pos hi, if_pos (hok i (le_refl i) hi), hmod,
      ← replayState_succ]
    exact ih (i + 1) f (by omega) (by omega) (fun j h1 h2 => hok j (by omega) h2)

/-- The loop from counter `i` on a ledger whose blocks `i .. k - 1` go through
and whose block `k` fails: it returns what the call on block `k` returned. -/
theorem processBlockchainLoop_first_error (bc : coin.Blockchain) (hd : HistoryDB c)
    (depth : Nat) (hdepth : depth < 2 ^ 64) (k : Nat) (hk : k ≤ depth) (n i fuel : Nat)
    (hn : i + n = k) (hfuel : n + 1 ≤ fuel)
    (hok : ∀ j, i ≤ j → j < k →
      ((replayState c bc hd j).ProcessBlock (bc.GetBlockInDepth j)).2 = none)
    (hfail : ((replayState c bc hd k).ProcessBlock (bc.GetBlockInDepth k)).2 ≠ none) :
    processBlockchainLoop c bc depth fuel i (replayState c bc hd i) =
      some ((replayState c bc hd k).ProcessBlock (bc.GetBlockInDepth k)) := by
  induction n generalizing i fuel with
  | zero =>
    obtain ⟨f, rfl⟩ : ∃ f, fuel = f + 1 := ⟨fuel - 1, by omega⟩
    have hik : i = k := by omega
    subst hik
    rw [processBlockchainLoop_succ, if_pos hk, if_neg hfail]
  | succ m ih =>
    obtain ⟨f, rfl⟩ : ∃ f, fuel = f + 1 := ⟨fuel - 1, by omega⟩
    have hi : i ≤ depth := by omega
    have hmod : (i + 1) % 2 ^ 64 = i + 1 := Nat.mod_eq_of_lt (by omega)
    rw [processBlockchainLoop_succ, if_pos hi, if_pos (hok i (le_refl i) (by omega)), hmod,
      ← replayState_succ]
    exact ih (i + 1) f (by omega) (by omega) (fun j h1 h2 => hok j (by omega) h2)

/-- With the head at the largest `uint64`, the loop condition `i <= depth`
holds for every counter, so the loop never returns `nil`. -/
theorem processBlockchainLoop_max_not_nil (bc : coin.Blockchain) (fuel i : Nat)
    (hd hd1 : HistoryDB c) (hi : i < 2 ^ 64) :
    processBlockchainLoop c bc (2 ^ 64 - 1) fuel i hd ≠ some (hd1, none) := by
  induction fuel generalizing i hd with
  | zero => rw [processBlockchainLoop_zero]; simp
  | succ f ih =>
    rw [processBlockchainLoop_succ, if_pos (by omega)]
    by_cases hs : (hd.ProcessBlock (bc.GetBlockInDepth i)).2 = none
    · rw [if_pos hs]
      exact ih _ _ (Nat.mod_lt _ (by norm_num))
    · rw [if_neg hs]
      intro h
      apply hs
      have := congrArg (fun r => r.map Prod.snd) h
      simpa using this

/-- With the head at the largest `uint64` and no failing block, the loop does
not return at all. -/
theorem processBlockchainLoop_max_none (bc : coin.Blockchain)
    (hok : ∀ (hd : HistoryDB c) (k : Nat), (hd.ProcessBlock (bc.GetBlockInDepth k)).2 = none)
    (fuel i : Nat) (hd : HistoryDB c) (hi : i < 2 ^ 64) :
    processBlockchainLoop c bc (2 ^ 64 - 1) fuel i hd = none := by
  induction fuel generalizing i hd with
  | zero => rfl
  | succ f ih =>
    rw [processBlockchainLoop_succ, if_pos (by omega), if_pos (hok hd i)]
    exact ih _ _ (Nat.mod_lt _ (by norm_num))

/-- When the replay returns `nil`, no block `0 .. head` failed. -/
theorem ProcessBlockchain_nil_all_ok (hd hd1 : HistoryDB c) (bc : coin.Blockchain)
    (fuel : Nat) (h : HistoryDB.ProcessBlockchain fuel hd bc = some (hd1, none)) :
    ∀ k ≤ bc.HeadSeq,
      ((replayState c bc hd k).ProcessBlock (bc.GetBlockInDepth k)).2 = none := by
  by_contra hcon
  push_neg at hcon
  classical
  have hex : ∃ k, k ≤ bc.HeadSeq ∧
      ((replayState c bc hd k).ProcessBlock (bc.GetBlockInDepth k)).2 ≠ none := by
    obtain ⟨k, hk, hf⟩ := hcon
    exact ⟨k, hk, hf⟩
  have hmin : ∀ {m : Nat}, m < Nat.find hex → ¬ (m ≤ bc.HeadSeq ∧
      ((replayState c bc hd m).ProcessBlock (bc.GetBlockInDepth m)).2 ≠ none) :=
    fun hm => Nat.find_min hex hm
  obtain ⟨hk, hf⟩ := Nat.find_spec hex
  have hbefore : ∀ j, 0 ≤ j → j < Nat.find hex →
      ((replayState c bc hd j).ProcessBlock (bc.GetBlockInDepth j)).2 = none := by
    intro j _ hj
    by_contra hne
    exact hmin hj ⟨by omega, hne⟩
  have h1 := processBlockchainLoop_first_error bc hd bc.HeadSeq bc.HeadSeq_lt (Nat.find hex) hk
    (Nat.find hex) 0 (Nat.find hex + 1) (by omega) (le_refl _) hbefore hf
  rw [replayState_zero] at h1
  unfold HistoryDB.ProcessBlockchain at h
  have h2 := processBlockchainLoop_fuel_mono bc bc.HeadSeq fuel (max fuel (Nat.find hex + 1)) 0
    hd _ (le_max_left _ _) h
  have h3 := processBlockchainLoop_fuel_mono bc bc.HeadSeq _ (max fuel (Nat.find hex + 1)) 0
    hd _ (le_max_right _ _) h1
  rw [h2] at h3
  apply hf
  have := congrArg (fun r => r.map Prod.snd) h3
  simpa using this.symm

/-! ## C5: replay order -/

/-- C5 (replay order): on a ledger with head sequence `h < 2 ^ 64 - 1`, that
is, on every ledger that holds its `h + 1` blocks, on which no per-block call
fails, `ProcessBlockchain` returns `nil` (given fuel for its `h + 2` loop
tests) and the state it leaves is the left fold of `ProcessBlock` over the
blocks at depth `0, 1, ..., h`, each once and in increasing order. -/
theorem ProcessBlockchain_replays_in_order (hd : HistoryDB c) (bc : coin.Blockchain)
    (hhead : bc.HeadSeq < 2 ^ 64 - 1)
    (hnofail : ∀ k ≤ bc.HeadSeq,
      ((List.foldl (fun s b => (HistoryDB.ProcessBlock s b).1) hd
        ((List.range k).map bc.GetBlockInDepth)).ProcessBlock (bc.GetBlockInDepth k)).2 = none)
    (fuel : Nat) (hfuel : bc.HeadSeq + 2 ≤ fuel) :
    HistoryDB.ProcessBlockchain fuel hd bc =
      some (List.foldl (fun s b => (HistoryDB.ProcessBlock s b).1) hd
        ((List.range (bc.HeadSeq + 1)).map bc.GetBlockInDepth), none) := by
  have h := processBlockchainLoop_all_ok bc hd bc.HeadSeq (by omega) (bc.HeadSeq + 1) 0 fuel
    (by omega) (by omega) (fun j _ hj => hnofail j hj)
  rw [replayState_zero] at h
  exact h

theorem ProcessBlockchain_replays_in_order_witness :
    HistoryDB.ProcessBlockchain 4 (HistoryDB.empty demoCoin) demoChain =
      some (List.foldl (fun s b => (HistoryDB.ProcessBlock s b).1) (HistoryDB.empty demoCoin)
        ((List.range (demoChain.HeadSeq + 1)).map demoChain.GetBlockInDepth), none) :=
  ProcessBlockchain_replays_in_order (HistoryDB.empty demoCoin) demoChain (by decide)
    (by decide) 4 (by decide)

/-! ## C6: the first error aborts the replay -/

/-- C6 (first-error abort). (1) If `k` is the smallest depth whose block makes
`ProcessBlock` return an error `e`, leaving state `hd1`, then `ProcessBlockchain`
returns exactly `e` in exactly the state `hd1`: the blocks `0 .. k - 1` were
processed, then the failed call on block `k`, and nothing after it. (2) If
`ProcessBlockchain` returns `nil`, no block `0 .. head` failed. (3) If the head
sequence is below `2 ^ 64 - 1`, as on every ledger that holds its `head + 1`
blocks, and no block `0 .. head` fails, `ProcessBlockchain` returns `nil`. -/
theorem ProcessBlockchain_first_error_abort (hd : HistoryDB c) (bc : coin.Blockchain) :
    (∀ (k : Nat) (hd1 : HistoryDB c) (e : Error), k ≤ bc.HeadSeq →
      (∀ j < k, ((replayState c bc hd j).ProcessBlock (bc.GetBlockInDepth j)).2 = none) →
      (replayState c bc hd k).ProcessBlock (bc.GetBlockInDepth k) = (hd1, some e) →
      ∀ fuel, k + 1 ≤ fuel → HistoryDB.ProcessBlockchain fuel hd bc = some (hd1, some e)) ∧
    (∀ (fuel : Nat) (hd1 : HistoryDB c),
      HistoryDB.ProcessBlockchain fuel hd bc = some (hd1, none) →
      ∀ k ≤ bc.HeadSeq,
        ((replayState c bc hd k).ProcessBlock (bc.GetBlockInDepth k)).2 = none) ∧
    (bc.HeadSeq < 2 ^ 64 - 1 →
      (∀ k ≤ bc.HeadSeq,
        ((replayState c bc hd k).ProcessBlock (bc.GetBlockInDepth k)).2 = none) →
      ∀ fuel, bc.HeadSeq + 2 ≤ fuel →
        ∃ hd1, HistoryDB.ProcessBlockchain fuel hd bc = some (hd1, none)) := by
  refine ⟨?_, ?_, ?_⟩
  · intro k hd1 e hk hbefore hfail fuel hfuel
    have hne : ((replayState c bc hd k).ProcessBlock (bc.GetBlockInDepth k)).2 ≠ none := by
      rw [hfail]; simp
    have h := processBlockchainLoop_first_error bc hd bc.HeadSeq bc.HeadSeq_lt k hk k 0 fuel
      (by omega) hfuel (fun j _ hj => hbefore j hj) hne
    rw [replayState_zero, hfail] at h
    exact h
  · intro fuel hd1 h
    exact ProcessBlockchain_nil_all_ok hd hd1 bc fuel h
  · intro hhead hok fuel hfuel
    have h := processBlockchainLoop_all_ok bc hd bc.HeadSeq (by omega) (bc.HeadSeq + 1) 0 fuel
      (by omega) (by omega) (fun j _ hj => hok j hj)
    rw [replayState_zero] at h
    exact ⟨_, h⟩

theorem ProcessBlockchain_first_error_abort_witness :
    HistoryDB.ProcessBlockchain 2 (HistoryDB.empty demoCoin) demoBrokenChain =
      some ((demoState1.ProcessBlock demoBadInput).1, some (.OutputNotFound 999)) :=
  (ProcessBlockchain_first_error_abort (HistoryDB.empty demoCoin) demoBrokenChain).1 1
    (demoState1.ProcessBlock demoBadInput).1 (.OutputNotFound 999) (by decide) (by decide)
    rfl 2 (by decide)

/-! ## C7: transaction indexing -/

theorem processTransactions_single_txns (b : coin.Block) (hd : HistoryDB c)
    (t : coin.Transaction) :
    (processTransactions c b hd [t]).1.txns = (addTx c b hd t).txns := by
  rcases processTransactions_single b hd t with ⟨_, _, h⟩ | ⟨_, _, h⟩ | ⟨_, h⟩
  · rw [h, settleInputs_txns]
  · rw [h, createOutputs_txns, settleInputs_txns]
  · rw [h, createOutputs_txns]

/-- A key that is the hash of no transaction of the block keeps its entry in
the Transaction Index. -/
theorem processTransactions_txns_of_not_mem (b : coin.Block) (hd : HistoryDB c)
    (txs : List coin.Transaction) (k : cipher.SHA256)
    (hk : ∀ t ∈ txs, c.TxHash t ≠ k) :
    (processTransactions c b hd txs).1.txns.bkt k = hd.txns.bkt k := by
  induction txs generalizing hd with
  | nil => rfl
  | cons t rest ih =>
    have h1 : (processTransactions c b hd [t]).1.txns.bkt k = hd.txns.bkt k := by
      rw [processTransactions_single_txns, addTx_txns_bkt,
        if_neg (fun h => hk t (List.mem_cons_self _ _) h.symm)]
    rw [processTransactions_cons]
    by_cases he : (processTransactions c b hd [t]).2 = none
    · rw [if_pos he, ih _ (fun t1 h1m => hk t1 (List.mem_cons_of_mem _ h1m)), h1]
    · rw [if_neg he, h1]

/-- After a run without error over transactions of pairwise distinct hashes,
each transaction is on record under its hash with the block's sequence. -/
theorem processTransactions_txns_of_mem (b : coin.Block) (hd : HistoryDB c)
    (txs : List coin.Transaction) (hnd : (txs.map c.TxHash).Nodup)
    (hok : (processTransactions c b hd txs).2 = none) :
    ∀ t ∈ txs, (processTransactions c b hd txs).1.txns.bkt (c.TxHash t) =
      some { Tx := t, BlockSeq := b.Seq } := by
  induction txs generalizing hd with
  | nil => exact fun t ht => absurd ht (List.not_mem_nil t)
  | cons t0 rest ih =>
    rw [List.map_cons, List.nodup_cons] at hnd
    obtain ⟨hnot, hndr⟩ := hnd
    rw [processTransactions_cons] at hok ⊢
    by_cases he : (processTransactions c b hd [t0]).2 = none
    · rw [if_pos he] at hok ⊢
      intro t ht
      rcases List.mem_cons.1 ht with h0 | h0
      · subst h0
        rw [processTransactions_txns_of_not_mem b _ rest (c.TxHash t)
          (fun t1 h1m h1 => hnot (List.mem_map.2 ⟨t1, h1m, h1⟩)),
          processTransactions_single_txns, addTx_txns_bkt, if_pos rfl]
      · exact ih _ hndr hok t h0
    · rw [if_neg he] at hok
      exact absurd hok he

/-- C7 (transaction indexing): when `ProcessBlock` succeeds on a block with
sequence `s` whose transactions have pairwise distinct hashes, then
`GetTransaction (t.Hash())` returns the record `{Tx = t, BlockSeq = s}` for
every transaction `t` of the block, and the Transaction Index is unchanged
under every other key. -/
theorem ProcessBlock_indexes_transactions (hd : HistoryDB c) (b : coin.Block)
    (hnd : (b.Body.Transactions.map c.TxHash).Nodup)
    (hok : (hd.ProcessBlock b).2 = none) :
    (∀ t ∈ b.Body.Transactions,
      (hd.ProcessBlock b).1.GetTransaction (c.TxHash t) =
        .ok { Tx := t, BlockSeq := b.Seq }) ∧
    ∀ k, (∀ t ∈ b.Body.Transactions, c.TxHash t ≠ k) →
      (hd.ProcessBlock b).1.GetTransaction k = hd.GetTransaction k := by
  constructor
  · intro t ht
    exact Transactions_Get_eq_ok.2
      (processTransactions_txns_of_mem b hd b.Body.Transactions hnd hok t ht)
  · intro k hk
    unfold HistoryDB.GetTransaction Transactions.Get HistoryDB.ProcessBlock
    rw [processTransactions_txns_of_not_mem b hd b.Body.Transactions k hk]

theorem ProcessBlock_indexes_transactions_witness :
    (∀ t ∈ demoBlock1.Body.Transactions,
      (demoState1.ProcessBlock demoBlock1).1.GetTransaction (demoCoin.TxHash t) =
        .ok { Tx := t, BlockSeq := demoBlock1.Seq }) ∧
    ∀ k, (∀ t ∈ demoBlock1.Body.Transactions, demoCoin.TxHash t ≠ k) →
      (demoState1.ProcessBlock demoBlock1).1.GetTransaction k = demoState1.GetTransaction k :=
  ProcessBlock_indexes_transactions demoState1 demoBlock1 (by decide) (by decide)

/-! ## C8: the two address indexes -/

/-- The address-in index after a run without error over the transactions of a
block: what it listed before, and each output created, under its owner. -/
theorem processTransactions_mem_addrIn (b : coin.Block) (hd : HistoryDB c)
    (txs : List coin.Transaction) (hok : (processTransactions c b hd txs).2 = none)
    (a : cipher.Address) (id : cipher.SHA256) :
    id ∈ (processTransactions c b hd txs).1.addrIn.bkt a ↔
      id ∈ hd.addrIn.bkt a ∨ ∃ t ∈ txs, ∃ ux ∈ c.CreateUnspents b.Head t,
        ux.Body.Address = a ∧ c.UxHash ux = id := by
  induction txs generalizing hd with
  | nil => simp [processTransactions_nil]
  | cons t0 rest ih =>
    rw [processTransactions_cons] at hok ⊢
    by_cases he : (processTransactions c b hd [t0]).2 = none
    · rw [if_pos he] at hok ⊢
      have h1 : id ∈ (processTransactions c b hd [t0]).1.addrIn.bkt a ↔
          id ∈ hd.addrIn.bkt a ∨ ∃ ux ∈ c.CreateUnspents b.Head t0,
            ux.Body.Address = a ∧ c.UxHash ux = id := by
        rcases processTransactions_single b hd t0 with ⟨_, hne, h⟩ | ⟨_, _, h⟩ | ⟨_, h⟩
        · rw [h] at he
          exact absurd he hne
        · rw [h, createOutputs_mem_addrIn, settleInputs_addrIn, addTx_addrIn]
        · rw [h, createOutputs_mem_addrIn, addTx_addrIn]
      rw [ih _ hok, h1]
      constructor
      · rintro ((h | ⟨ux, hu, h2⟩) | ⟨t, ht, ux, hu, h2⟩)
        · exact Or.inl h
        · exact Or.inr ⟨t0, List.mem_cons_self _ _, ux, hu, h2⟩
        · exact Or.inr ⟨t, List.mem_cons_of_mem _ ht, ux, hu, h2⟩
      · rintro (h | ⟨t, ht, ux, hu, h2⟩)
        · exact Or.inl (Or.inl h)
        · rcases List.mem_cons.1 ht with h0 | h0
          · subst h0
            exact Or.inl (Or.inr ⟨ux, hu, h2⟩)
          · exact Or.inr ⟨t, h0, ux, hu, h2⟩
    · rw [if_neg he] at hok
      exact absurd hok he

/-- The address-out index after `settleInputs` ran without error: what it
listed before, and each input under the owner of its record. -/
theorem settleInputs_mem_addrOut (b : coin.Block) (t : coin.Transaction) (hd : HistoryDB c)
    (ins : List cipher.SHA256) (hok : (settleInputs c b t hd ins).2 = none)
    (a : cipher.Address) (id : cipher.SHA256) :
    id ∈ (settleInputs c b t hd ins).1.addrOut.bkt a ↔
      id ∈ hd.addrOut.bkt a ∨
        (id ∈ ins ∧ ∃ r, hd.outputs.bkt id = some r ∧ r.Out.Body.Address = a) := by
  induction ins generalizing hd with
  | nil => simp [settleInputs_nil]
  | cons i rest ih =>
    cases h : hd.outputs.bkt i with
    | none =>
      rw [settleInputs_cons_none b t hd i rest h] at hok
      simp at hok
    | some o =>
      rw [settleInputs_cons_some b t hd i rest o h] at hok ⊢
      have hkey : c.UxHash o.Out = i := hd.outputs.keyed i o h
      have hao : id ∈ (settleOne c b t hd o).addrOut.bkt a ↔
          id ∈ hd.addrOut.bkt a ∨ (a = o.Out.Body.Address ∧ id = i) := by
        have h0 : id ∈ (settleOne c b t hd o).addrOut.bkt a ↔
            id ∈ hd.addrOut.bkt a ∨ (a = o.Out.Body.Address ∧ id = c.UxHash o.Out) :=
          addressUx_mem_insert hd.addrOut o.Out.Body.Address a (c.UxHash o.Out) id
        rw [hkey] at h0
        exact h0
      have hrec : (∃ r, (settleOne c b t hd o).outputs.bkt id = some r ∧
          r.Out.Body.Address = a) ↔ ∃ r, hd.outputs.bkt id = some r ∧ r.Out.Body.Address = a := by
        rw [settleOne_bkt b t hd i o h id]
        by_cases hid : id = i
        · rw [if_pos hid, hid, h]
          constructor
          · rintro ⟨r, h1, h2⟩
            cases h1
            exact ⟨o, rfl, h2⟩
          · rintro ⟨r, h1, h2⟩
            injection h1 with h1
            subst h1
            exact ⟨markSpent c b t o, rfl, h2⟩
        · rw [if_neg hid]
      rw [ih _ hok, hao, hrec]
      constructor
      · rintro ((h1 | ⟨h1, h2⟩) | ⟨h1, h2⟩)
        · exact Or.inl h1
        · exact Or.inr ⟨by rw [h2]; exact List.mem_cons_self _ _, o, by rw [h2]; exact h, h1.symm⟩
        · exact Or.inr ⟨List.mem_cons_of_mem _ h1, h2⟩
      · rintro (h1 | ⟨h1, r, h2, h3⟩)
        · exact Or.inl (Or.inl h1)
        · by_cases hid : id = i
          · rw [hid, h] at h2
            cases h2
            exact Or.inl (Or.inr ⟨h3.symm, hid⟩)
          · rcases List.mem_cons.1 h1 with h0 | h0
            · exact absurd h0 hid
            · exact Or.inr ⟨h0, r, h2, h3⟩

/-- The address-out index after one transaction that went through. -/
theorem processTransactions_single_mem_addrOut (b : coin.Block) (hd : HistoryDB c)
    (t : coin.Transaction) (hok : (processTransactions c b hd [t]).2 = none)
    (a : cipher.Address) (id : cipher.SHA256) :
    id ∈ (processTransactions c b hd [t]).1.addrOut.bkt a ↔
      id ∈ hd.addrOut.bkt a ∨
        (b.Seq > 0 ∧ id ∈ t.In ∧ ∃ r, hd.outputs.bkt id = some r ∧ r.Out.Body.Address = a) := by
  rcases processTransactions_single b hd t with ⟨_, hne, h⟩ | ⟨hs, hset, h⟩ | ⟨hs, h⟩
  · rw [h] at hok
    exact absurd hok hne
  · rw [h, createOutputs_addrOut, settleInputs_mem_addrOut b t _ t.In hset, addTx_addrOut,
      addTx_outputs]
    simp [hs]
  · rw [h, createOutputs_addrOut, addTx_addrOut]
    simp [hs]

/-- The address-out index after a run without error over the transactions of a
block: what it listed before, and, past genesis, each input of each
transaction under the owner of the record it had when the transaction was
reached. -/
theorem processTransactions_mem_addrOut (b : coin.Block) (hd : HistoryDB c)
    (txs : List coin.Transaction) (hok : (processTransactions c b hd txs).2 = none)
    (a : cipher.Address) (id : cipher.SHA256) :
    id ∈ (processTransactions c b hd txs).1.addrOut.bkt a ↔
      id ∈ hd.addrOut.bkt a ∨
        (b.Seq > 0 ∧ ∃ pre t post, txs = pre ++ t :: post ∧ id ∈ t.In ∧
          ∃ r, (processTransactions c b hd pre).1.outputs.bkt id = some r ∧
            r.Out.Body.Address = a) := by
  induction txs generalizing hd with
  | nil => simp [processTransactions_nil]
  | cons t0 rest ih =>
    rw [processTransactions_cons] at hok ⊢
    by_cases he : (processTransactions c b hd [t0]).2 = none
    · rw [if_pos he] at hok ⊢
      have hpre : ∀ pre, processTransactions c b hd (t0 :: pre) =
          processTransactions c b (processTransactions c b hd [t0]).1 pre := by
        intro pre
        rw [processTransactions_cons, if_pos he]
      rw [ih _ hok, processTransactions_single_mem_addrOut b hd t0 he]
      constructor
      · rintro ((h | ⟨hs, h1, h2⟩) | ⟨hs, pre, t, post, h1, h2, h3⟩)
        · exact Or.inl h
        · exact Or.inr ⟨hs, [], t0, rest, rfl, h1, h2⟩
        · refine Or.inr ⟨hs, t0 :: pre, t, post, by rw [h1]; rfl, h2, ?_⟩
          rw [hpre]
          exact h3
      · rintro (h | ⟨hs, pre, t, post, h1, h2, h3⟩)
        · exact Or.inl (Or.inl h)
        · cases pre with
          | nil =>
            rw [List.nil_append] at h1
            cases h1
            exact Or.inl (Or.inr ⟨hs, h2, h3⟩)
          | cons p pre1 =>
            rw [List.cons_append] at h1
            cases h1
            rw [hpre] at h3
            exact Or.inr ⟨hs, pre1, t, post, rfl, h2, h3⟩
    · rw [if_neg he] at hok
      exact absurd hok he

/-- When the replay returns `nil`, the state it leaves is the left fold of
`ProcessBlock` over the blocks `0 .. head`. -/
theorem ProcessBlockchain_nil_state (hd hd1 : HistoryDB c) (bc : coin.Blockchain)
    (fuel : Nat) (h : HistoryDB.ProcessBlockchain fuel hd bc = some (hd1, none)) :
    hd1 = replayState c bc hd (bc.HeadSeq + 1) := by
  have hok := ProcessBlockchain_nil_all_ok hd hd1 bc fuel h
  have hlt := bc.HeadSeq_lt
  unfold HistoryDB.ProcessBlockchain at h
  by_cases hmax : bc.HeadSeq = 2 ^ 64 - 1
  · rw [hmax] at h
    exact absurd h (processBlockchainLoop_max_not_nil bc fuel 0 hd hd1 (by norm_num))
  · have h1 := processBlockchainLoop_all_ok bc hd bc.HeadSeq (by omega) (bc.HeadSeq + 1) 0
      (max fuel (bc.HeadSeq + 2)) (by omega) (le_max_right _ _) (fun j _ hj => hok j hj)
    rw [replayState_zero] at h1
    have h2 := processBlockchainLoop_fuel_mono bc bc.HeadSeq fuel (max fuel (bc.HeadSeq + 2)) 0
      hd _ (le_max_left _ _) h
    rw [h1] at h2
    have h3 := congrArg (fun r => r.map Prod.fst) h2
    simpa using h3.symm

/-- The address-in index after the blocks `0 .. n - 1` went through. -/
theorem replayState_mem_addrIn (bc : coin.Blockchain) (hd : HistoryDB c) (n : Nat)
    (hok : ∀ k < n, ((replayState c bc hd k).ProcessBlock (bc.GetBlockInDepth k)).2 = none)
    (a : cipher.Address) (id : cipher.SHA256) :
    id ∈ (replayState c bc hd n).addrIn.bkt a ↔
      id ∈ hd.addrIn.bkt a ∨ ∃ k < n, ∃ t ∈ (bc.GetBlockInDepth k).Body.Transactions,
        ∃ ux ∈ c.CreateUnspents (bc.GetBlockInDepth k).Head t,
          ux.Body.Address = a ∧ c.UxHash ux = id := by
  induction n with
  | zero => simp [replayState_zero]
  | succ m ih =>
    have hstep := processTransactions_mem_addrIn (bc.GetBlockInDepth m) (replayState c bc hd m)
      (bc.GetBlockInDepth m).Body.Transactions (hok m (Nat.lt_succ_self m)) a id
    rw [replayState_succ]
    unfold HistoryDB.ProcessBlock
    rw [hstep, ih (fun k hk => hok k (Nat.lt_succ_of_lt hk))]
    constructor
    · rintro ((h | ⟨k, hk, h⟩) | h)
      · exact Or.inl h
      · exact Or.inr ⟨k, Nat.lt_succ_of_lt hk, h⟩
      · exact Or.inr ⟨m, Nat.lt_succ_self m, h⟩
    · rintro (h | ⟨k, hk, h⟩)
      · exact Or.inl (Or.inl h)
      · by_cases hkm : k = m
        · subst hkm
          exact Or.inr h
        · exact Or.inl (Or.inr ⟨k, by omega, h⟩)

/-- The address-out index after the blocks `0 .. n - 1` went through. -/
theorem replayState_mem_addrOut (bc : coin.Blockchain) (hd : HistoryDB c) (n : Nat)
    (hok : ∀ k < n, ((replayState c bc hd k).ProcessBlock (bc.GetBlockInDepth k)).2 = none)
    (a : cipher.Address) (id : cipher.SHA256) :
    id ∈ (replayState c bc hd n).addrOut.bkt a ↔
      id ∈ hd.addrOut.bkt a ∨ ∃ k < n, (bc.GetBlockInDepth k).Seq > 0 ∧
        ∃ pre t post, (bc.GetBlockInDepth k).Body.Transactions = pre ++ t :: post ∧
          id ∈ t.In ∧
          ∃ r, (processTransactions c (bc.GetBlockInDepth k) (replayState c bc hd k)
              pre).1.outputs.bkt id = some r ∧ r.Out.Body.Address = a := by
  induction n with
  | zero => simp [replayState_zero]
  | succ m ih =>
    have hstep := processTransactions_mem_addrOut (bc.GetBlockInDepth m) (replayState c bc hd m)
      (bc.GetBlockInDepth m).Body.Transactions (hok m (Nat.lt_succ_self m)) a id
    rw [replayState_succ]
    unfold HistoryDB.ProcessBlock
    rw [hstep, ih (fun k hk => hok k (Nat.lt_succ_of_lt hk))]
    constructor
    · rintro ((h | ⟨k, hk, h⟩) | h)
      · exact Or.inl h
      · exact Or.inr ⟨k, Nat.lt_succ_of_lt hk, h⟩
      · exact Or.inr ⟨m, Nat.lt_succ_self m, h⟩
    · rintro (h | ⟨k, hk, h⟩)
      · exact Or.inl (Or.inl h)
      · by_cases hkm : k = m
        · subst hkm
          exact Or.inr h
        · exact Or.inl (Or.inr ⟨k, by omega, h⟩)

/-- C8 (address relation exactness): after a successful `ProcessBlockchain`
from empty indexes, the address-in index lists under `a` exactly the
identifiers of the outputs `CreateUnspents` makes, over all blocks `0 .. head`
and their transactions, whose owning address is `a`; and the address-out index
lists under `a` exactly the identifiers that a transaction `t` of a block with
sequence `> 0` lists as an input and whose output record, the one the Output
Index holds when `t` is reached, is owned by `a`. -/
theorem ProcessBlockchain_address_indexes_exact (bc : coin.Blockchain) (fuel : Nat)
    (hd1 : HistoryDB c)
    (h : HistoryDB.ProcessBlockchain fuel (HistoryDB.empty c) bc = some (hd1, none))
    (a : cipher.Address) (id : cipher.SHA256) :
    (id ∈ hd1.addrIn.Get a ↔
      ∃ k ≤ bc.HeadSeq, ∃ t ∈ (bc.GetBlockInDepth k).Body.Transactions,
        ∃ ux ∈ c.CreateUnspents (bc.GetBlockInDepth k).Head t,
          ux.Body.Address = a ∧ c.UxHash ux = id) ∧
    (id ∈ hd1.addrOut.Get a ↔
      ∃ k ≤ bc.HeadSeq, (bc.GetBlockInDepth k).Seq > 0 ∧
        ∃ pre t post, (bc.GetBlockInDepth k).Body.Transactions = pre ++ t :: post ∧
          id ∈ t.In ∧
          ∃ r, ((replayState c bc (HistoryDB.empty c) k).ProcessBlock
              { bc.GetBlockInDepth k with Body := { Transactions := pre } }).1.GetUxout id =
                .ok r ∧ r.Out.Body.Address = a) := by
  have hok := ProcessBlockchain_nil_all_ok _ hd1 bc fuel h
  have hst := ProcessBlockchain_nil_state _ hd1 bc fuel h
  have hok1 : ∀ k < bc.HeadSeq + 1,
      ((replayState c bc (HistoryDB.empty c) k).ProcessBlock (bc.GetBlockInDepth k)).2 = none :=
    fun k hk => hok k (by omega)
  have hempty_in : ¬ id ∈ (HistoryDB.empty c).addrIn.bkt a := by simp [HistoryDB.empty]
  have hempty_out : ¬ id ∈ (HistoryDB.empty c).addrOut.bkt a := by simp [HistoryDB.empty]
  subst hst
  constructor
  · unfold addressUx.Get
    rw [replayState_mem_addrIn bc _ _ hok1 a id]
    constructor
    · rintro (h1 | ⟨k, hk, h1⟩)
      · exact absurd h1 hempty_in
      · exact ⟨k, by omega, h1⟩
    · rintro ⟨k, hk, h1⟩
      exact Or.inr ⟨k, by omega, h1⟩
  · unfold addressUx.Get
    rw [replayState_mem_addrOut bc _ _ hok1 a id]
    constructor
    · rintro (h1 | ⟨k, hk, hs, pre, t, post, h2, h3, r, h4, h5⟩)
      · exact absurd h1 hempty_out
      · refine ⟨k, by omega, hs, pre, t, post, h2, h3, r, ?_, h5⟩
        rw [ProcessBlock_truncated _ (bc.GetBlockInDepth k) pre]
        exact Outputs_Get_eq_ok.2 h4
    · rintro ⟨k, hk, hs, pre, t, post, h2, h3, r, h4, h5⟩
      refine Or.inr ⟨k, by omega, hs, pre, t, post, h2, h3, r, ?_, h5⟩
      rw [ProcessBlock_truncated _ (bc.GetBlockInDepth k) pre] at h4
      exact Outputs_Get_eq_ok.1 h4

theorem ProcessBlockchain_address_indexes_exact_witness :
    (101 ∈ (replayState demoCoin demoChain (HistoryDB.empty demoCoin) 3).addrIn.Get 7 ↔
      ∃ k ≤ demoChain.HeadSeq, ∃ t ∈ (demoChain.GetBlockInDepth k).Body.Transactions,
        ∃ ux ∈ demoCoin.CreateUnspents (demoChain.GetBlockInDepth k).Head t,
          ux.Body.Address = 7 ∧ demoCoin.UxHash ux = 101) ∧
    (101 ∈ (replayState demoCoin demoChain (HistoryDB.empty demoCoin) 3).addrOut.Get 7 ↔
      ∃ k ≤ demoChain.HeadSeq, (demoChain.GetBlockInDepth k).Seq > 0 ∧
        ∃ pre t post, (demoChain.GetBlockInDepth k).Body.Transactions = pre ++ t :: post ∧
          101 ∈ t.In ∧
          ∃ r, ((replayState demoCoin demoChain (HistoryDB.empty demoCoin) k).ProcessBlock
              { demoChain.GetBlockInDepth k with Body := { Transactions := pre } }).1.GetUxout
                101 = .ok r ∧ r.Out.Body.Address = 7) :=
  ProcessBlockchain_address_indexes_exact demoChain 4
    (replayState demoCoin demoChain (HistoryDB.empty demoCoin) 3) rfl 7 101

/-! ## C9: the three-block scenario -/

/-- One genesis transaction that creates one output. -/
theorem ProcessBlock_genesis_single (hd : HistoryDB c) (b : coin.Block)
    (t : coin.Transaction) (ux : coin.UxOut) (hs : b.Seq = 0)
    (hb : b.Body.Transactions = [t]) (hc : c.CreateUnspents b.Head t = [ux]) :
    hd.ProcessBlock b = (createOne c (addTx c b hd t) ux, none) := by
  unfold HistoryDB.ProcessBlock
  rw [hb, processTransactions_single_zero b hd t hs, hc, createOutputs_cons]
  rfl

/-- One transaction past genesis that spends one output on record and creates
one output. -/
theorem ProcessBlock_spend_single (hd : HistoryDB c) (b : coin.Block)
    (t : coin.Transaction) (i : cipher.SHA256) (o : UxOut) (ux : coin.UxOut)
    (hs : b.Seq > 0) (hb : b.Body.Transactions = [t]) (hi : t.In = [i])
    (ho : hd.outputs.bkt i = some o) (hc : c.CreateUnspents b.Head t = [ux]) :
    hd.ProcessBlock b = (createOne c (settleOne c b t (addTx c b hd t) o) ux, none) := by
  have hset : settleInputs c b t (addTx c b hd t) t.In =
      (settleOne c b t (addTx c b hd t) o, none) := by
    rw [hi, settleInputs_cons_some b t (addTx c b hd t) i [] o ho]
    rfl
  unfold HistoryDB.ProcessBlock
  rw [hb, processTransactions_single_pos b hd t hs, hset, if_pos rfl, hc, createOutputs_cons]
  rfl

/-- C9 (end-to-end scenario): a ledger of three blocks with sequences 0, 1, 2;
block 0 has one transaction creating `ux1` (identifier `O1`, owner `A`), block 1
one transaction with input `O1` creating `ux2` (`O2`, owner `B`), block 2 one
transaction with input `O2` creating `ux3` (`O3`, owner `A`), with `A ≠ B` and
`O1`, `O2`, `O3` distinct. `ProcessBlockchain` from empty indexes returns `nil`,
and then `O1` is spent at block 1 by block 1's transaction, `O2` at block 2 by
block 2's transaction, `O3` is unspent, Inbound(A) = {O1, O3}, Inbound(B) =
{O2}, Outbound(A) = {O1}, Outbound(B) = {O2}. -/
theorem ProcessBlockchain_three_block_scenario (bc : coin.Blockchain)
    (t0 t1 t2 : coin.Transaction) (ux1 ux2 ux3 : coin.UxOut) (A B : cipher.Address)
    (hhead : bc.HeadSeq = 2)
    (hs0 : (bc.GetBlockInDepth 0).Seq = 0)
    (hs1 : (bc.GetBlockInDepth 1).Seq = 1)
    (hs2 : (bc.GetBlockInDepth 2).Seq = 2)
    (hb0 : (bc.GetBlockInDepth 0).Body.Transactions = [t0])
    (hb1 : (bc.GetBlockInDepth 1).Body.Transactions = [t1])
    (hb2 : (bc.GetBlockInDepth 2).Body.Transactions = [t2])
    (hc0 : c.CreateUnspents (bc.GetBlockInDepth 0).Head t0 = [ux1])
    (hc1 : c.CreateUnspents (bc.GetBlockInDepth 1).Head t1 = [ux2])
    (hc2 : c.CreateUnspents (bc.GetBlockInDepth 2).Head t2 = [ux3])
    (hi1 : t1.In = [c.UxHash ux1]) (hi2 : t2.In = [c.UxHash ux2])
    (ha1 : ux1.Body.Address = A) (ha2 : ux2.Body.Address = B) (ha3 : ux3.Body.Address = A)
    (hAB : A ≠ B)
    (h12 : c.UxHash ux1 ≠ c.UxHash ux2) (h13 : c.UxHash ux1 ≠ c.UxHash ux3)
    (h23 : c.UxHash ux2 ≠ c.UxHash ux3)
    (fuel : Nat) (hfuel : 4 ≤ fuel) :
    ∃ hd1, HistoryDB.ProcessBlockchain fuel (HistoryDB.empty c) bc = some (hd1, none) ∧
      hd1.GetUxout (c.UxHash ux1) =
        .ok { Out := ux1, SpentTxID := c.TxHash t1, SpentBlockSeq := 1 } ∧
      hd1.GetUxout (c.UxHash ux2) =
        .ok { Out := ux2, SpentTxID := c.TxHash t2, SpentBlockSeq := 2 } ∧
      hd1.GetUxout (c.UxHash ux3) = .ok { Out := ux3, SpentTxID := 0, SpentBlockSeq := 0 } ∧
      hd1.addrIn.Get A = [c.UxHash ux1, c.UxHash ux3] ∧
      hd1.addrIn.Get B = [c.UxHash ux2] ∧
      hd1.addrOut.Get A = [c.UxHash ux1] ∧
      hd1.addrOut.Get B = [c.UxHash ux2] := by
  have h21 := h12.symm
  have h31 := h13.symm
  have h32 := h23.symm
  have hBA := hAB.symm
  -- the three calls of `ProcessBlock`
  have e0 := ProcessBlock_genesis_single (HistoryDB.empty c) (bc.GetBlockInDepth 0) t0 ux1
    hs0 hb0 hc0
  have o1 : (createOne c (addTx c (bc.GetBlockInDepth 0) (HistoryDB.empty c) t0)
      ux1).outputs.bkt (c.UxHash ux1) =
      some { Out := ux1, SpentTxID := 0, SpentBlockSeq := 0 } := by
    simp [createOne_bkt]
  have e1 := ProcessBlock_spend_single _ (bc.GetBlockInDepth 1) t1 (c.UxHash ux1) _ ux2
    (by omega) hb1 hi1 o1 hc1
  have o2 : (createOne c (settleOne c (bc.GetBlockInDepth 1) t1
      (addTx c (bc.GetBlockInDepth 1)
        (createOne c (addTx c (bc.GetBlockInDepth 0) (HistoryDB.empty c) t0) ux1) t1)
      { Out := ux1, SpentTxID := 0, SpentBlockSeq := 0 }) ux2).outputs.bkt (c.UxHash ux2) =
      some { Out := ux2, SpentTxID := 0, SpentBlockSeq := 0 } := by
    simp [createOne_bkt]
  have e2 := ProcessBlock_spend_single _ (bc.GetBlockInDepth 2) t2 (c.UxHash ux2) _ ux3
    (by omega) hb2 hi2 o2 hc2
  -- the replay
  have r1 := replayState_succ bc (HistoryDB.empty c) 0
  rw [replayState_zero, e0] at r1
  simp only [Nat.zero_add] at r1
  have r2 := replayState_succ bc (HistoryDB.empty c) 1
  rw [r1, e1] at r2
  simp only [Nat.reduceAdd] at r2
  have r3 := replayState_succ bc (HistoryDB.empty c) 2
  rw [r2, e2] at r3
  simp only [Nat.reduceAdd] at r3
  have hok : ∀ j, 0 ≤ j → j ≤ 2 →
      ((replayState c bc (HistoryDB.empty c) j).ProcessBlock (bc.GetBlockInDepth j)).2 =
        none := by
    intro j _ hj
    interval_cases j
    · rw [replayState_zero, e0]
    · rw [r1, e1]
    · rw [r2, e2]
  have hrun := processBlockchainLoop_all_ok bc (HistoryDB.empty c) 2 (by norm_num) 3 0 fuel
    rfl (by omega) hok
  simp only [Nat.reduceAdd] at hrun
  rw [replayState_zero, r3] at hrun
  simp only [HistoryDB.ProcessBlockchain, hhead]
  refine ⟨_, hrun, ?_, ?_, ?_, ?_, ?_, ?_, ?_⟩
  · simp [HistoryDB.GetUxout, Outputs.Get, createOne, settleOne, addTx, Outputs_put_bkt,
      markSpent, h12, h13, hs1]
  · simp [HistoryDB.GetUxout, Outputs.Get, createOne, settleOne, addTx, Outputs_put_bkt,
      markSpent, h23, hs2]
  · simp [HistoryDB.GetUxout, Outputs.Get, createOne, settleOne, addTx, Outputs_put_bkt]
  · simp [addressUx.Get, createOne, settleOne, addTx, addressUx.insert, HistoryDB.empty,
      ha1, ha2, ha3, hAB, hBA, h12, h13, h23, h21, h31, h32]
  · simp [addressUx.Get, createOne, settleOne, addTx, addressUx.insert, HistoryDB.empty,
      ha1, ha2, ha3, hAB, hBA, h12, h13, h23, h21, h31, h32]
  · simp [addressUx.Get, createOne, settleOne, addTx, addressUx.insert, HistoryDB.empty,
      markSpent, ha1, ha2, ha3, hAB, hBA, h12, h13, h23, h21, h31, h32]
  · simp [addressUx.Get, createOne, settleOne, addTx, addressUx.insert, HistoryDB.empty,
      markSpent, ha1, ha2, ha3, hAB, hBA, h12, h13, h23, h21, h31, h32]


theorem ProcessBlockchain_three_block_scenario_witness :
    ∃ hd1, HistoryDB.ProcessBlockchain 4 (HistoryDB.empty demoCoin) demoChain =
        some (hd1, none) ∧
      hd1.GetUxout 101 =
        .ok { Out := ⟨⟨0, 0⟩, ⟨1, 7, 1, 0⟩⟩, SpentTxID := 2, SpentBlockSeq := 1 } ∧
      hd1.GetUxout 201 =
        .ok { Out := ⟨⟨10, 1⟩, ⟨2, 8, 1, 0⟩⟩, SpentTxID := 3, SpentBlockSeq := 2 } ∧
      hd1.GetUxout 301 =
        .ok { Out := ⟨⟨20, 2⟩, ⟨3, 7, 1, 0⟩⟩, SpentTxID := 0, SpentBlockSeq := 0 } ∧
      hd1.addrIn.Get 7 = [101, 301] ∧
      hd1.addrIn.Get 8 = [201] ∧
      hd1.addrOut.Get 7 = [101] ∧
      hd1.addrOut.Get 8 = [201] :=
  ProcessBlockchain_three_block_scenario demoChain
    ⟨1, [], [⟨7, 1, 0⟩]⟩ ⟨2, [101], [⟨8, 1, 0⟩]⟩ ⟨3, [201], [⟨7, 1, 0⟩]⟩
    ⟨⟨0, 0⟩, ⟨1, 7, 1, 0⟩⟩ ⟨⟨10, 1⟩, ⟨2, 8, 1, 0⟩⟩ ⟨⟨20, 2⟩, ⟨3, 7, 1, 0⟩⟩ 7 8
    rfl rfl rfl rfl rfl rfl rfl rfl rfl rfl rfl rfl rfl rfl rfl
    (by decide) (by decide) (by decide) (by decide) 4 (by decide)

/-! ## C10: spend markers over a replay -/

theorem mem_createdIds (b : coin.Block) (id : cipher.SHA256) :
    id ∈ createdIds c b ↔
      ∃ t ∈ b.Body.Transactions, ∃ ux ∈ c.CreateUnspents b.Head t, c.UxHash ux = id := by
  simp [createdIds, List.mem_flatMap, List.mem_map]

/-- A key on record after the transactions of a block was on record before or
is the identifier of an output the block creates. -/
theorem processTransactions_bkt_origin (b : coin.Block) (hd : HistoryDB c)
    (txs : List coin.Transaction) (id : cipher.SHA256)
    (h : (processTransactions c b hd txs).1.outputs.bkt id ≠ none) :
    hd.outputs.bkt id ≠ none ∨
      ∃ t ∈ txs, ∃ ux ∈ c.CreateUnspents b.Head t, c.UxHash ux = id := by
  induction txs generalizing hd with
  | nil => exact Or.inl h
  | cons t rest ih =>
    have hone : (processTransactions c b hd [t]).1.outputs.bkt id ≠ none →
        hd.outputs.bkt id ≠ none ∨ ∃ ux ∈ c.CreateUnspents b.Head t, c.UxHash ux = id := by
      intro h1
      rcases processTransactions_single_bkt b hd t id with h2 | ⟨_, _, o, h2, _⟩ |
        ⟨ux, hu, hk, _⟩
      · rw [h2] at h1; exact Or.inl h1
      · rw [h2]; exact Or.inl (by simp)
      · exact Or.inr ⟨ux, hu, hk⟩
    rw [processTransactions_cons] at h
    by_cases he : (processTransactions c b hd [t]).2 = none
    · rw [if_pos he] at h
      rcases ih _ h with h1 | ⟨t1, ht1, ux, hu, hk⟩
      · rcases hone h1 with h2 | ⟨ux, hu, hk⟩
        · exact Or.inl h2
        · exact Or.inr ⟨t, List.mem_cons_self _ _, ux, hu, hk⟩
      · exact Or.inr ⟨t1, List.mem_cons_of_mem _ ht1, ux, hu, hk⟩
    · rw [if_neg he] at h
      rcases hone h with h2 | ⟨ux, hu, hk⟩
      · exact Or.inl h2
      · exact Or.inr ⟨t, List.mem_cons_self _ _, ux, hu, hk⟩

/-- Every key on record after the blocks `0 .. n - 1` were processed on empty
indexes is the identifier of an output one of these blocks creates. -/
theorem replayState_bkt_origin (bc : coin.Blockchain) (n : Nat) (id : cipher.SHA256)
    (h : (replayState c bc (HistoryDB.empty c) n).outputs.bkt id ≠ none) :
    ∃ k < n, id ∈ createdIds c (bc.GetBlockInDepth k) := by
  induction n with
  | zero => exact absurd rfl h
  | succ m ih =>
    rw [replayState_succ] at h
    rcases processTransactions_bkt_origin (bc.GetBlockInDepth m) _ _ id h with h1 | h1
    · obtain ⟨k, hk, hm⟩ := ih h1
      exact ⟨k, Nat.lt_succ_of_lt hk, hm⟩
    · exact ⟨m, Nat.lt_succ_self m, (mem_createdIds _ id).2 h1⟩

/-- A record with its spend marker set, under a key the block creates no
output for, still has its spend marker set after the block. -/
theorem ProcessBlock_keeps_marker (hd : HistoryDB c) (b : coin.Block) (id : cipher.SHA256)
    (hnew : id ∉ createdIds c b) (r : UxOut) (hr : hd.outputs.bkt id = some r)
    (hset : r.SpentBlockSeq ≠ 0 ∨ r.SpentTxID ≠ 0) :
    ∃ r1, (hd.ProcessBlock b).1.outputs.bkt id = some r1 ∧
      (r1.SpentBlockSeq ≠ 0 ∨ r1.SpentTxID ≠ 0) := by
  have hout : ∀ t ∈ b.Body.Transactions, ∀ ux ∈ c.CreateUnspents b.Head t,
      c.UxHash ux ≠ id := by
    intro t ht ux hu hk
    exact hnew ((mem_createdIds b id).2 ⟨t, ht, ux, hu, hk⟩)
  unfold HistoryDB.ProcessBlock
  rcases processTransactions_bkt_of_not_created b hd b.Body.Transactions id hout with
    h | ⟨hs, t, _, _, o, _, h⟩
  · exact ⟨r, by rw [h, hr], hset⟩
  · refine ⟨markSpent c b t o, h, Or.inl ?_⟩
    show b.Seq ≠ 0
    omega

/-- Blocks at different depths of a ledger whose created identifiers are
pairwise distinct create no identifier in common. -/
theorem createdIds_disjoint (bc : coin.Blockchain) (hu : (ledgerCreatedIds c bc).Nodup)
    (k1 k2 : Nat) (h1 : k1 ≤ bc.HeadSeq) (h2 : k2 ≤ bc.HeadSeq) (hne : k1 ≠ k2)
    (id : cipher.SHA256) (hid : id ∈ createdIds c (bc.GetBlockInDepth k1)) :
    id ∉ createdIds c (bc.GetBlockInDepth k2) := by
  unfold ledgerCreatedIds at hu
  rw [List.nodup_flatMap] at hu
  have hsymm : Symmetric (Function.onFun List.Disjoint
      fun k => createdIds c (bc.GetBlockInDepth k)) := by
    intro x y hxy
    exact List.Disjoint.symm hxy
  have hd := List.Pairwise.forall hsymm hu.2 (List.mem_range.2 (by omega))
    (List.mem_range.2 (by omega)) hne
  exact fun h => hd hid h

/-- C10, as the code has it: on a ledger whose created output identifiers are
pairwise distinct, over one full replay from empty indexes (the states
`replayState .. 0, 1, ..., head + 1` between the calls of `ProcessBlock`), a
record whose spend marker is set after `j` blocks is still on record with its
spend marker set after `k ≥ j` blocks: no step turns a set marker into an
absent one, so within the replay a marker goes from absent to set at most
once. -/
theorem replay_from_empty_keeps_spend_markers (bc : coin.Blockchain)
    (hunique : ((List.range (bc.HeadSeq + 1)).flatMap fun k =>
      (bc.GetBlockInDepth k).Body.Transactions.flatMap fun t =>
        (c.CreateUnspents (bc.GetBlockInDepth k).Head t).map c.UxHash).Nodup)
    (j k : Nat) (hjk : j ≤ k) (hk : k ≤ bc.HeadSeq + 1)
    (id : cipher.SHA256) (r : UxOut)
    (hr : (replayState c bc (HistoryDB.empty c) j).GetUxout id = .ok r)
    (hset : r.SpentBlockSeq ≠ 0 ∨ r.SpentTxID ≠ 0) :
    ∃ r1, (replayState c bc (HistoryDB.empty c) k).GetUxout id = .ok r1 ∧
      (r1.SpentBlockSeq ≠ 0 ∨ r1.SpentTxID ≠ 0) := by
  have hu : (ledgerCreatedIds c bc).Nodup := hunique
  rw [HistoryDB.GetUxout, Outputs_Get_eq_ok] at hr
  have hne : (replayState c bc (HistoryDB.empty c) j).outputs.bkt id ≠ none := by
    rw [hr]; simp
  obtain ⟨k0, hk0, hmem⟩ := replayState_bkt_origin bc j id hne
  have main : ∀ m, j ≤ m → m ≤ bc.HeadSeq + 1 →
      ∃ r1, (replayState c bc (HistoryDB.empty c) m).outputs.bkt id = some r1 ∧
        (r1.SpentBlockSeq ≠ 0 ∨ r1.SpentTxID ≠ 0) := by
    intro m hjm
    induction m, hjm using Nat.le_induction with
    | base => exact fun _ => ⟨r, hr, hset⟩
    | succ m hjm ih =>
      intro hm
      obtain ⟨r1, h1, h2⟩ := ih (by omega)
      have hnew : id ∉ createdIds c (bc.GetBlockInDepth m) :=
        createdIds_disjoint bc hu k0 m (by omega) (by omega) (by omega) id hmem
      rw [replayState_succ]
      exact ProcessBlock_keeps_marker _ _ id hnew r1 h1 h2
  obtain ⟨r1, h1, h2⟩ := main k hjk hk
  exact ⟨r1, Outputs_Get_eq_ok.2 h1, h2⟩

theorem replay_from_empty_keeps_spend_markers_witness :
    ∃ r1, (replayState demoCoin demoChain (HistoryDB.empty demoCoin) 3).GetUxout 101 =
        .ok r1 ∧ (r1.SpentBlockSeq ≠ 0 ∨ r1.SpentTxID ≠ 0) :=
  replay_from_empty_keeps_spend_markers demoChain (by decide) 2 3 (by decide) (by decide) 101
    { Out := ⟨⟨0, 0⟩, ⟨1, 7, 1, 0⟩⟩, SpentTxID := 2, SpentBlockSeq := 1 } (by decide)
    (by decide)

/-- C10 as stated fails on the second replay: `demoChain` is consistent (101 is
created at genesis and spent once, by block 1; 201 is created by block 1 and
spent once, by block 2). The first replay from empty indexes returns `nil` and
leaves 101 with the marker `(1, 2)`; the first `ProcessBlock` step of the next
replay, on the genesis block, writes 101 back with the zero marker; and that
replay ends with the marker `(1, 2)` set a second time. -/
theorem second_replay_clears_spend_marker :
    HistoryDB.ProcessBlockchain 4 (HistoryDB.empty demoCoin) demoChain =
        some (demoReplayed, none) ∧
      demoReplayed.GetUxout 101 =
        .ok { Out := ⟨⟨0, 0⟩, ⟨1, 7, 1, 0⟩⟩, SpentTxID := 2, SpentBlockSeq := 1 } ∧
      (demoReplayed.ProcessBlock (demoChain.GetBlockInDepth 0)).1.GetUxout 101 =
        .ok { Out := ⟨⟨0, 0⟩, ⟨1, 7, 1, 0⟩⟩, SpentTxID := 0, SpentBlockSeq := 0 } ∧
      (HistoryDB.ProcessBlockchain 4 demoReplayed demoChain).map
          (fun res => (res.1.GetUxout 101, res.2)) =
        some (.ok { Out := ⟨⟨0, 0⟩, ⟨1, 7, 1, 0⟩⟩, SpentTxID := 2, SpentBlockSeq := 1 },
          none) :=
  ⟨rfl, by decide, by decide, by decide⟩

/-! ## Termination of the replay -/

/-- Below the largest `uint64` head the replay returns, given fuel for its
`head + 2` loop tests: the first error, or `nil` in the state of the left fold
over the `head + 1` blocks. -/
theorem ProcessBlockchain_returns_below_max (hd : HistoryDB c) (bc : coin.Blockchain)
    (hhead : bc.HeadSeq < 2 ^ 64 - 1) (fuel : Nat) (hfuel : bc.HeadSeq + 2 ≤ fuel) :
    ∃ r, HistoryDB.ProcessBlockchain fuel hd bc = some r ∧
      (r.2 = none → r.1 = replayState c bc hd (bc.HeadSeq + 1)) := by
  by_cases hall : ∀ k ≤ bc.HeadSeq,
      ((replayState c bc hd k).ProcessBlock (bc.GetBlockInDepth k)).2 = none
  · have h := processBlockchainLoop_all_ok bc hd bc.HeadSeq (by omega) (bc.HeadSeq + 1) 0 fuel
      (by omega) (by omega) (fun j _ hj => hall j hj)
    rw [replayState_zero] at h
    exact ⟨_, h, fun _ => rfl⟩
  · push_neg at hall
    classical
    have hex : ∃ k, k ≤ bc.HeadSeq ∧
        ((replayState c bc hd k).ProcessBlock (bc.GetBlockInDepth k)).2 ≠ none := by
      obtain ⟨k, hk, hf⟩ := hall
      exact ⟨k, hk, hf⟩
    have hmin : ∀ {m : Nat}, m < Nat.find hex → ¬ (m ≤ bc.HeadSeq ∧
        ((replayState c bc hd m).ProcessBlock (bc.GetBlockInDepth m)).2 ≠ none) :=
      fun hm => Nat.find_min hex hm
    obtain ⟨hk, hf⟩ := Nat.find_spec hex
    have hbefore : ∀ j, 0 ≤ j → j < Nat.find hex →
        ((replayState c bc hd j).ProcessBlock (bc.GetBlockInDepth j)).2 = none := by
      intro j _ hj
      by_contra hne
      exact hmin hj ⟨by omega, hne⟩
    have h1 := processBlockchainLoop_first_error bc hd bc.HeadSeq bc.HeadSeq_lt (Nat.find hex)
      hk (Nat.find hex) 0 fuel (by omega) (by omega) hbefore hf
    rw [replayState_zero] at h1
    exact ⟨_, h1, fun h => absurd h hf⟩

theorem ProcessBlockchain_returns_below_max_witness :
    ∃ r, HistoryDB.ProcessBlockchain 3 (HistoryDB.empty demoCoin) demoBrokenChain = some r ∧
      (r.2 = none →
        r.1 = replayState demoCoin demoBrokenChain (HistoryDB.empty demoCoin)
          (demoBrokenChain.HeadSeq + 1)) :=
  ProcessBlockchain_returns_below_max (HistoryDB.empty demoCoin) demoBrokenChain (by decide) 3
    (by decide)

/-- Termination with its result: on a ledger with head sequence `h` below the
largest `uint64`, that is, on every ledger that holds its `h + 1` blocks, and
on every index state, `ProcessBlockchain` returns, given fuel for its `h + 2`
loop tests. Either some block fails: then it returns the error of the first
failing call, in the state that call left, and no later block is processed. Or
no block fails: then it returns `nil` after exactly `h + 1` calls of
`ProcessBlock`, in the state of the left fold over the blocks at depth
`0 .. h`. The counter is computed modulo `2 ^ 64` and ends at `h + 1` without
wrapping. -/
theorem ProcessBlockchain_terminates (hd : HistoryDB c) (bc : coin.Blockchain)
    (hhead : bc.HeadSeq < 2 ^ 64 - 1) (fuel : Nat) (hfuel : bc.HeadSeq + 2 ≤ fuel) :
    (∃ (k : Nat) (hd1 : HistoryDB c) (e : Error), k ≤ bc.HeadSeq ∧
      (∀ j < k, ((replayState c bc hd j).ProcessBlock (bc.GetBlockInDepth j)).2 = none) ∧
      (replayState c bc hd k).ProcessBlock (bc.GetBlockInDepth k) = (hd1, some e) ∧
      HistoryDB.ProcessBlockchain fuel hd bc = some (hd1, some e)) ∨
    ((∀ k ≤ bc.HeadSeq,
        ((replayState c bc hd k).ProcessBlock (bc.GetBlockInDepth k)).2 = none) ∧
      HistoryDB.ProcessBlockchain fuel hd bc =
        some (List.foldl (fun s b => (HistoryDB.ProcessBlock s b).1) hd
          ((List.range (bc.HeadSeq + 1)).map bc.GetBlockInDepth), none)) := by
  by_cases hall : ∀ k ≤ bc.HeadSeq,
      ((replayState c bc hd k).ProcessBlock (bc.GetBlockInDepth k)).2 = none
  · right
    have h := processBlockchainLoop_all_ok bc hd bc.HeadSeq (by omega) (bc.HeadSeq + 1) 0 fuel
      (by omega) (by omega) (fun j _ hj => hall j hj)
    rw [replayState_zero] at h
    exact ⟨hall, h⟩
  · left
    push_neg at hall
    classical
    have hex : ∃ k, k ≤ bc.HeadSeq ∧
        ((replayState c bc hd k).ProcessBlock (bc.GetBlockInDepth k)).2 ≠ none := by
      obtain ⟨k, hk, hf⟩ := hall
      exact ⟨k, hk, hf⟩
    have hmin : ∀ {m : Nat}, m < Nat.find hex → ¬ (m ≤ bc.HeadSeq ∧
        ((replayState c bc hd m).ProcessBlock (bc.GetBlockInDepth m)).2 ≠ none) :=
      fun hm => Nat.find_min hex hm
    obtain ⟨hk, hf⟩ := Nat.find_spec hex
    have hbefore : ∀ j, j < Nat.find hex →
        ((replayState c bc hd j).ProcessBlock (bc.GetBlockInDepth j)).2 = none := by
      intro j hj
      by_contra hne
      exact hmin hj ⟨by omega, hne⟩
    have h1 := processBlockchainLoop_first_error bc hd bc.HeadSeq bc.HeadSeq_lt (Nat.find hex)
      hk (Nat.find hex) 0 fuel (by omega) (by omega) (fun j _ hj => hbefore j hj) hf
    rw [replayState_zero] at h1
    cases hres : ((replayState c bc hd (Nat.find hex)).ProcessBlock
        (bc.GetBlockInDepth (Nat.find hex))).2 with
    | none => exact absurd hres hf
    | some e =>
      refine ⟨Nat.find hex, ((replayState c bc hd (Nat.find hex)).ProcessBlock
        (bc.GetBlockInDepth (Nat.find hex))).1, e, hk, hbefore, ?_, ?_⟩
      · exact Prod.ext rfl hres
      · rw [HistoryDB.ProcessBlockchain, h1]
        exact congrArg some (Prod.ext rfl hres)

theorem ProcessBlockchain_terminates_witness :
    (∃ (k : Nat) (hd1 : HistoryDB demoCoin) (e : Error), k ≤ demoChain.HeadSeq ∧
      (∀ j < k, ((replayState demoCoin demoChain (HistoryDB.empty demoCoin) j).ProcessBlock
        (demoChain.GetBlockInDepth j)).2 = none) ∧
      (replayState demoCoin demoChain (HistoryDB.empty demoCoin) k).ProcessBlock
        (demoChain.GetBlockInDepth k) = (hd1, some e) ∧
      HistoryDB.ProcessBlockchain 4 (HistoryDB.empty demoCoin) demoChain =
        some (hd1, some e)) ∨
    ((∀ k ≤ demoChain.HeadSeq,
        ((replayState demoCoin demoChain (HistoryDB.empty demoCoin) k).ProcessBlock
          (demoChain.GetBlockInDepth k)).2 = none) ∧
      HistoryDB.ProcessBlockchain 4 (HistoryDB.empty demoCoin) demoChain =
        some (List.foldl (fun s b => (HistoryDB.ProcessBlock s b).1) (HistoryDB.empty demoCoin)
          ((List.range (demoChain.HeadSeq + 1)).map demoChain.GetBlockInDepth), none)) :=
  ProcessBlockchain_terminates (HistoryDB.empty demoCoin) demoChain (by decide) 4 (by decide)

/-! ## C13: no rollback on failure -/

/-- C13 (no rollback on failure): in a block with sequence `s > 0`, let the
transactions `pre` before `t` go through, the inputs `ins1` of `t` be on record
in the state `P` they leave and the next input `id` have no record there. Then
`ProcessBlock` fails and the state it leaves keeps every write made before:
the Transaction Index holds the record of the failing `t` and is as `P` left it
elsewhere (so, with pairwise distinct hashes, it holds the records of all of
`pre` and `t`); each input in `ins1` carries the marker `(s, t.Hash())` and is
listed in the address-out index under its owner; and what the transactions
`pre` did persists: the other output records, the address-in index and every
entry of the address-out index are as in `P`. -/
theorem ProcessBlock_keeps_writes_on_failure (hd : HistoryDB c) (b : coin.Block)
    (hs : b.Seq > 0) (pre post : List coin.Transaction) (t : coin.Transaction)
    (hsplit : b.Body.Transactions = pre ++ t :: post)
    (hpre : (hd.ProcessBlock { b with Body := { Transactions := pre } }).2 = none)
    (ins1 ins2 : List cipher.SHA256) (id : cipher.SHA256)
    (hin : t.In = ins1 ++ id :: ins2)
    (hins1 : ∀ i ∈ ins1, ∃ r,
      (hd.ProcessBlock { b with Body := { Transactions := pre } }).1.GetUxout i = .ok r)
    (e : Error)
    (hmiss : (hd.ProcessBlock { b with Body := { Transactions := pre } }).1.GetUxout id =
      .error e) :
    (hd.ProcessBlock b).2 = some e ∧
      (hd.ProcessBlock b).1.GetTransaction (c.TxHash t) =
        .ok { Tx := t, BlockSeq := b.Seq } ∧
      (∀ k, k ≠ c.TxHash t → (hd.ProcessBlock b).1.GetTransaction k =
        (hd.ProcessBlock { b with Body := { Transactions := pre } }).1.GetTransaction k) ∧
      (((pre ++ [t]).map c.TxHash).Nodup → ∀ t1 ∈ pre ++ [t],
        (hd.ProcessBlock b).1.GetTransaction (c.TxHash t1) =
          .ok { Tx := t1, BlockSeq := b.Seq }) ∧
      (∀ i ∈ ins1, ∃ o,
        (hd.ProcessBlock { b with Body := { Transactions := pre } }).1.GetUxout i = .ok o ∧
        (hd.ProcessBlock b).1.GetUxout i =
          .ok { o with SpentBlockSeq := b.Seq, SpentTxID := c.TxHash t } ∧
        i ∈ (hd.ProcessBlock b).1.addrOut.Get o.Out.Body.Address) ∧
      (∀ k, k ∉ ins1 → (hd.ProcessBlock b).1.GetUxout k =
        (hd.ProcessBlock { b with Body := { Transactions := pre } }).1.GetUxout k) ∧
      (hd.ProcessBlock b).1.addrIn =
        (hd.ProcessBlock { b with Body := { Transactions := pre } }).1.addrIn ∧
      ∀ a i, i ∈ (hd.ProcessBlock { b with Body := { Transactions := pre } }).1.addrOut.Get a →
        i ∈ (hd.ProcessBlock b).1.addrOut.Get a := by
  rw [ProcessBlock_truncated hd b pre] at hpre hins1 hmiss ⊢
  rw [HistoryDB.GetUxout, Outputs_Get_eq_error] at hmiss
  obtain ⟨hnone, he⟩ := hmiss
  have hp1 : ∀ i ∈ ins1, (processTransactions c b hd pre).1.outputs.bkt i ≠ none := by
    intro i hi
    obtain ⟨r, hr⟩ := hins1 i hi
    rw [HistoryDB.GetUxout, Outputs_Get_eq_ok] at hr
    rw [hr]; simp
  have hres : hd.ProcessBlock b =
      ((settleInputs c b t (addTx c b (processTransactions c b hd pre).1 t) ins1).1,
        some (.OutputNotFound id)) := by
    unfold HistoryDB.ProcessBlock
    rw [hsplit]
    exact processTransactions_missing b hs hd pre post t hpre ins1 ins2 id hin hp1 hnone
  have htx : ∀ k, (hd.ProcessBlock b).1.txns.bkt k =
      if k = c.TxHash t then some { Tx := t, BlockSeq := b.Seq }
      else (processTransactions c b hd pre).1.txns.bkt k := by
    intro k
    rw [hres]
    show (settleInputs c b t _ ins1).1.txns.bkt k = _
    rw [settleInputs_txns, addTx_txns_bkt]
  have hself : (hd.ProcessBlock b).1.GetTransaction (c.TxHash t) =
      .ok { Tx := t, BlockSeq := b.Seq } := by
    apply Transactions_Get_eq_ok.2
    rw [htx, if_pos rfl]
  have hother : ∀ k, k ≠ c.TxHash t → (hd.ProcessBlock b).1.GetTransaction k =
      (processTransactions c b hd pre).1.GetTransaction k := by
    intro k hk
    unfold HistoryDB.GetTransaction Transactions.Get
    rw [htx, if_neg hk]
  obtain ⟨_, hmarks⟩ := settleInputs_ok b t
    (addTx c b (processTransactions c b hd pre).1 t) ins1 hp1
  refine ⟨by rw [hres, he], hself, hother, ?_, ?_, ?_, ?_, ?_⟩
  · intro hnd t1 ht1
    rcases List.mem_append.1 ht1 with h1 | h1
    · rw [List.map_append, List.nodup_append] at hnd
      obtain ⟨hndp, _, hdis⟩ := hnd
      have hne : c.TxHash t1 ≠ c.TxHash t := by
        intro heq
        exact hdis (List.mem_map.2 ⟨t1, h1, rfl⟩) (by rw [heq]; simp)
      rw [hother _ hne]
      exact Transactions_Get_eq_ok.2
        (processTransactions_txns_of_mem b hd pre hndp hpre t1 h1)
    · rw [List.mem_singleton] at h1
      rw [h1]
      exact hself
  · intro i hi
    obtain ⟨o, h1, h2, h3⟩ := hmarks i hi
    rw [addTx_outputs] at h1
    refine ⟨o, Outputs_Get_eq_ok.2 h1, ?_, ?_⟩
    · rw [hres]
      exact Outputs_Get_eq_ok.2 h2
    · rw [hres]
      exact h3
  · intro k hk
    rw [hres]
    show (settleInputs c b t _ ins1).1.outputs.Get k = _
    unfold HistoryDB.GetUxout Outputs.Get
    rw [settleInputs_bkt_of_not_mem b t _ ins1 k hk, addTx_outputs]
  · rw [hres]
    show (settleInputs c b t _ ins1).1.addrIn = _
    rw [settleInputs_addrIn, addTx_addrIn]
  · intro a i hi
    rw [hres]
    exact settleInputs_addrOut_mono b t _ ins1 a i hi

theorem ProcessBlock_keeps_writes_on_failure_witness :
    (demoState1.ProcessBlock demoBadInput).2 = some (.OutputNotFound 999) ∧
      (demoState1.ProcessBlock demoBadInput).1.GetTransaction 5 =
        .ok { Tx := ⟨5, [101, 999], [⟨8, 1, 0⟩]⟩, BlockSeq := 1 } ∧
      demoState1.GetTransaction 5 = .error (.TransactionNotFound 5) ∧
      (demoState1.ProcessBlock demoBadInput).1.GetUxout 101 =
        .ok { Out := ⟨⟨0, 0⟩, ⟨1, 7, 1, 0⟩⟩, SpentTxID := 5, SpentBlockSeq := 1 } ∧
      demoState1.GetUxout 101 =
        .ok { Out := ⟨⟨0, 0⟩, ⟨1, 7, 1, 0⟩⟩, SpentTxID := 0, SpentBlockSeq := 0 } ∧
      101 ∈ (demoState1.ProcessBlock demoBadInput).1.addrOut.Get 7 :=
  have h := ProcessBlock_keeps_writes_on_failure demoState1 demoBadInput (by decide) [] []
    ⟨5, [101, 999], [⟨8, 1, 0⟩]⟩ rfl rfl [101] [] 999 rfl
    (by
      intro i hi
      simp only [List.mem_singleton] at hi
      subst hi
      exact ⟨⟨⟨⟨0, 0⟩, ⟨1, 7, 1, 0⟩⟩, 0, 0⟩, by decide⟩)
    (.OutputNotFound 999) (by decide)
  ⟨h.1, h.2.1, by decide, by decide, by decide, by decide⟩

/-! ## C15: cross-index consistency -/

theorem settleOne_listed (b : coin.Block) (t : coin.Transaction) (hd : HistoryDB c)
    (i : cipher.SHA256) (o : UxOut) (ho : hd.outputs.bkt i = some o)
    (h : ListedOnRecord hd) : ListedOnRecord (settleOne c b t hd o) := by
  have hkey : c.UxHash o.Out = i := hd.outputs.keyed i o ho
  intro a id hid
  rw [settleOne_bkt b t hd i o ho id]
  by_cases hi : id = i
  · rw [if_pos hi]; simp
  · rw [if_neg hi]
    apply h a id
    rcases hid with h1 | h1
    · exact Or.inl h1
    · have h2 : id ∈ hd.addrOut.bkt a ∨ (a = o.Out.Body.Address ∧ id = c.UxHash o.Out) :=
        (addressUx_mem_insert hd.addrOut o.Out.Body.Address a (c.UxHash o.Out) id).1 h1
      rcases h2 with h2 | ⟨_, h2⟩
      · exact Or.inr h2
      · rw [hkey] at h2
        exact absurd h2 hi

theorem settleInputs_listed (b : coin.Block) (t : coin.Transaction) (hd : HistoryDB c)
    (ins : List cipher.SHA256) (h : ListedOnRecord hd) :
    ListedOnRecord (settleInputs c b t hd ins).1 := by
  induction ins generalizing hd with
  | nil => exact h
  | cons i rest ih =>
    cases ho : hd.outputs.bkt i with
    | none => rw [settleInputs_cons_none b t hd i rest ho]; exact h
    | some o =>
      rw [settleInputs_cons_some b t hd i rest o ho]
      exact ih _ (settleOne_listed b t hd i o ho h)

theorem createOne_listed (hd : HistoryDB c) (ux : coin.UxOut) (h : ListedOnRecord hd) :
    ListedOnRecord (createOne c hd ux) := by
  intro a id hid
  rw [createOne_bkt]
  by_cases hi : id = c.UxHash ux
  · rw [if_pos hi]; simp
  · rw [if_neg hi]
    apply h a id
    rcases hid with h1 | h1
    · have h2 : id ∈ hd.addrIn.bkt a ∨ (a = ux.Body.Address ∧ id = c.UxHash ux) :=
        (addressUx_mem_insert hd.addrIn ux.Body.Address a (c.UxHash ux) id).1 h1
      rcases h2 with h2 | ⟨_, h2⟩
      · exact Or.inl h2
      · exact absurd h2 hi
    · exact Or.inr h1

theorem createOutputs_listed (hd : HistoryDB c) (uxs : List coin.UxOut)
    (h : ListedOnRecord hd) : ListedOnRecord (createOutputs c hd uxs).1 := by
  induction uxs generalizing hd with
  | nil => exact h
  | cons ux rest ih =>
    rw [createOutputs_cons]
    exact ih _ (createOne_listed hd ux h)

theorem processTransactions_single_listed (b : coin.Block) (hd : HistoryDB c)
    (t : coin.Transaction) (h : ListedOnRecord hd) :
    ListedOnRecord (processTransactions c b hd [t]).1 := by
  have h0 : ListedOnRecord (addTx c b hd t) := h
  rcases processTransactions_single b hd t with ⟨_, _, he⟩ | ⟨_, _, he⟩ | ⟨_, he⟩
  · rw [he]; exact settleInputs_listed b t _ _ h0
  · rw [he]; exact createOutputs_listed _ _ (settleInputs_listed b t _ _ h0)
  · rw [he]; exact createOutputs_listed _ _ h0

theorem processTransactions_listed (b : coin.Block) (hd : HistoryDB c)
    (txs : List coin.Transaction) (h : ListedOnRecord hd) :
    ListedOnRecord (processTransactions c b hd txs).1 := by
  induction txs generalizing hd with
  | nil => exact h
  | cons t rest ih =>
    have h1 := processTransactions_single_listed b hd t h
    rw [processTransactions_cons]
    by_cases he : (processTransactions c b hd [t]).2 = none
    · rw [if_pos he]; exact ih _ h1
    · rw [if_neg he]; exact h1

theorem reachable_listed (hd : HistoryDB c) (h : Reachable c hd) : ListedOnRecord hd := by
  induction h with
  | empty =>
    intro a id hid
    simp [HistoryDB.empty] at hid
  | step hd b _ ih => exact processTransactions_listed b hd _ ih

/-- No key of the Transaction Index is ever removed. -/
theorem processTransactions_txns_ne_none (b : coin.Block) (hd : HistoryDB c)
    (txs : List coin.Transaction) (k : cipher.SHA256) (hk : hd.txns.bkt k ≠ none) :
    (processTransactions c b hd txs).1.txns.bkt k ≠ none := by
  induction txs generalizing hd with
  | nil => exact hk
  | cons t rest ih =>
    have h1 : (processTransactions c b hd [t]).1.txns.bkt k ≠ none := by
      rw [processTransactions_single_txns, addTx_txns_bkt]
      by_cases hkt : k = c.TxHash t
      · rw [if_pos hkt]; simp
      · rw [if_neg hkt]; exact hk
    rw [processTransactions_cons]
    by_cases he : (processTransactions c b hd [t]).2 = none
    · rw [if_pos he]; exact ih _ h1
    · rw [if_neg he]; exact h1

/-- C15 (cross-index consistency): in every state reachable from the empty
indexes by calls of `ProcessBlock`, successful or failed, every identifier
listed under an address in the address-in or the address-out index is the key
of a record of the Output Index; and a further call of `ProcessBlock`, whatever
it returns, removes no key of the Output Index or the Transaction Index. -/
theorem reachable_indexes_consistent (hd : HistoryDB c) (h : Reachable c hd) :
    (∀ a id, id ∈ hd.addrIn.Get a ∨ id ∈ hd.addrOut.Get a → ∃ r, hd.GetUxout id = .ok r) ∧
    ∀ b : coin.Block,
      (∀ k r, hd.GetUxout k = .ok r → ∃ r1, (hd.ProcessBlock b).1.GetUxout k = .ok r1) ∧
      (∀ k r, hd.GetTransaction k = .ok r →
        ∃ r1, (hd.ProcessBlock b).1.GetTransaction k = .ok r1) := by
  refine ⟨?_, fun b => ⟨?_, ?_⟩⟩
  · intro a id hid
    have h1 := reachable_listed hd h a id hid
    cases hr : hd.outputs.bkt id with
    | none => exact absurd hr h1
    | some r => exact ⟨r, Outputs_Get_eq_ok.2 hr⟩
  · intro k r hr
    rw [HistoryDB.GetUxout, Outputs_Get_eq_ok] at hr
    have h1 := processTransactions_bkt_ne_none b hd b.Body.Transactions k (by rw [hr]; simp)
    cases hr1 : (hd.ProcessBlock b).1.outputs.bkt k with
    | none => exact absurd hr1 h1
    | some r1 => exact ⟨r1, Outputs_Get_eq_ok.2 hr1⟩
  · intro k r hr
    rw [HistoryDB.GetTransaction, Transactions_Get_eq_ok] at hr
    have h1 := processTransactions_txns_ne_none b hd b.Body.Transactions k (by rw [hr]; simp)
    cases hr1 : (hd.ProcessBlock b).1.txns.bkt k with
    | none => exact absurd hr1 h1
    | some r1 => exact ⟨r1, Transactions_Get_eq_ok.2 hr1⟩

theorem reachable_indexes_consistent_witness :
    (∀ a id, id ∈ (demoState1.ProcessBlock demoBadInput).1.addrIn.Get a ∨
        id ∈ (demoState1.ProcessBlock demoBadInput).1.addrOut.Get a →
      ∃ r, (demoState1.ProcessBlock demoBadInput).1.GetUxout id = .ok r) ∧
    ∀ b : coin.Block,
      (∀ k r, (demoState1.ProcessBlock demoBadInput).1.GetUxout k = .ok r →
        ∃ r1, ((demoState1.ProcessBlock demoBadInput).1.ProcessBlock b).1.GetUxout k =
          .ok r1) ∧
      (∀ k r, (demoState1.ProcessBlock demoBadInput).1.GetTransaction k = .ok r →
        ∃ r1, ((demoState1.ProcessBlock demoBadInput).1.ProcessBlock b).1.GetTransaction k =
          .ok r1) :=
  reachable_indexes_consistent (demoState1.ProcessBlock demoBadInput).1
    (Reachable.step _ _ (Reachable.step _ _ Reachable.empty))

/-! ## C16: the order within a block -/

/-- After a run without error, every output the transactions create is on
record. -/
theorem processTransactions_created_present (b : coin.Block) (hd : HistoryDB c)
    (txs : List coin.Transaction) (hok : (processTransactions c b hd txs).2 = none) :
    ∀ t ∈ txs, ∀ ux ∈ c.CreateUnspents b.Head t,
      (processTransactions c b hd txs).1.outputs.bkt (c.UxHash ux) ≠ none := by
  induction txs generalizing hd with
  | nil => exact fun t ht => absurd ht (List.not_mem_nil t)
  | cons t0 rest ih =>
    rw [processTransactions_cons] at hok ⊢
    by_cases he : (processTransactions c b hd [t0]).2 = none
    · rw [if_pos he] at hok ⊢
      intro t ht ux hu
      rcases List.mem_cons.1 ht with h0 | h0
      · subst h0
        apply processTransactions_bkt_ne_none
        have hcr : ∀ hd1 : HistoryDB c,
            (createOutputs c hd1 (c.CreateUnspents b.Head t)).1.outputs.bkt (c.UxHash ux) ≠
              none := by
          intro hd1
          obtain ⟨ux1, _, _, h1⟩ := createOutputs_bkt_of_mem hd1 _ ux hu
          rw [h1]; simp
        rcases processTransactions_single b hd t with ⟨_, hne, h⟩ | ⟨_, _, h⟩ | ⟨_, h⟩
        · rw [h] at he
          exact absurd he hne
        · rw [h]; exact hcr _
        · rw [h]; exact hcr _
      · exact ih _ hok t h0 ux hu
    · rw [if_neg he] at hok
      exact absurd hok he

/-- C16 (intra-block ordering), for a block with sequence `s > 0` and a
transaction `t` that comes after the transactions `pre`. (a) If the
transactions `pre` go through and every input of `t` is on record before the
block or is an output created by a transaction of `pre`, then the block cut
after `t` is processed without error, and each input of `t` that `t` does not
itself create comes out with the marker `(s, t.Hash())` on the record it had
when `t` was reached. (b) If an input of `t` has no record before the block
and no transaction of `pre` creates it (so that only `t` itself or a later
transaction may), `ProcessBlock` returns an error. -/
theorem ProcessBlock_settles_inputs_before_outputs (hd : HistoryDB c) (b : coin.Block)
    (hs : b.Seq > 0) (pre post : List coin.Transaction) (t : coin.Transaction)
    (hsplit : b.Body.Transactions = pre ++ t :: post) :
    ((hd.ProcessBlock { b with Body := { Transactions := pre } }).2 = none →
      (∀ i ∈ t.In, (∃ r, hd.GetUxout i = .ok r) ∨
        ∃ t0 ∈ pre, ∃ ux ∈ c.CreateUnspents b.Head t0, c.UxHash ux = i) →
      (hd.ProcessBlock { b with Body := { Transactions := pre ++ [t] } }).2 = none ∧
      ∀ i ∈ t.In, (∀ ux ∈ c.CreateUnspents b.Head t, c.UxHash ux ≠ i) →
        ∃ o, (hd.ProcessBlock { b with Body := { Transactions := pre } }).1.GetUxout i =
            .ok o ∧
          (hd.ProcessBlock { b with Body := { Transactions := pre ++ [t] } }).1.GetUxout i =
            .ok { o with SpentBlockSeq := b.Seq, SpentTxID := c.TxHash t }) ∧
    (∀ id ∈ t.In, (∃ e, hd.GetUxout id = .error e) →
      (∀ t0 ∈ pre, ∀ ux ∈ c.CreateUnspents b.Head t0, c.UxHash ux ≠ id) →
      ∃ e, (hd.ProcessBlock b).2 = some e) := by
  constructor
  · intro hpre hall
    rw [ProcessBlock_truncated hd b pre] at hpre ⊢
    rw [ProcessBlock_truncated hd b (pre ++ [t])]
    have hp : ∀ i ∈ t.In,
        (addTx c b (processTransactions c b hd pre).1 t).outputs.bkt i ≠ none := by
      intro i hi
      rw [addTx_outputs]
      rcases hall i hi with ⟨r, hr⟩ | ⟨t0, ht0, ux, hu, hk⟩
      · rw [HistoryDB.GetUxout, Outputs_Get_eq_ok] at hr
        exact processTransactions_bkt_ne_none b hd pre i (by rw [hr]; simp)
      · rw [← hk]
        exact processTransactions_created_present b hd pre hpre t0 ht0 ux hu
    obtain ⟨hok, hmarks⟩ := settleInputs_ok b t _ t.In hp
    have hone : processTransactions c b (processTransactions c b hd pre).1 [t] =
        createOutputs c
          (settleInputs c b t (addTx c b (processTransactions c b hd pre).1 t) t.In).1
          (c.CreateUnspents b.Head t) := by
      rw [processTransactions_single_pos b _ t hs, if_pos hok]
    have hres : processTransactions c b hd (pre ++ [t]) =
        createOutputs c
          (settleInputs c b t (addTx c b (processTransactions c b hd pre).1 t) t.In).1
          (c.CreateUnspents b.Head t) := by
      rw [processTransactions_append, if_pos hpre, hone]
    rw [hres]
    refine ⟨createOutputs_snd _ _, ?_⟩
    intro i hi hnew
    obtain ⟨o, h1, h2, _⟩ := hmarks i hi
    rw [addTx_outputs] at h1
    refine ⟨o, Outputs_Get_eq_ok.2 h1, Outputs_Get_eq_ok.2 ?_⟩
    rw [createOutputs_bkt_of_not_mem _ _ i hnew]
    exact h2
  · intro id hid hmiss hnot
    obtain ⟨e0, he0⟩ := hmiss
    rw [HistoryDB.GetUxout, Outputs_Get_eq_error] at he0
    have hne : (hd.ProcessBlock b).2 ≠ none := by
      unfold HistoryDB.ProcessBlock
      rw [hsplit, processTransactions_append]
      by_cases hpre : (processTransactions c b hd pre).2 = none
      · rw [if_pos hpre, processTransactions_cons]
        have hP : (processTransactions c b hd pre).1.outputs.bkt id = none := by
          by_contra hcon
          rcases processTransactions_bkt_origin b hd pre id hcon with h1 | ⟨t0, ht0, ux, hu, hk⟩
          · exact h1 he0.1
          · exact hnot t0 ht0 ux hu hk
        have hset : (settleInputs c b t
            (addTx c b (processTransactions c b hd pre).1 t) t.In).2 ≠ none := by
          intro hok
          exact settleInputs_present_of_ok b t _ t.In hok id hid hP
        have hone : (processTransactions c b (processTransactions c b hd pre).1 [t]).2 ≠
            none := by
          rw [processTransactions_single_pos b _ t hs, if_neg hset]
          exact hset
        rw [if_neg hone]
        exact hone
      · rw [if_neg hpre]
        exact hpre
    cases hr : (hd.ProcessBlock b).2 with
    | none => exact absurd hr hne
    | some e => exact ⟨e, rfl⟩

theorem ProcessBlock_settles_inputs_before_outputs_witness :
    ((demoState1.ProcessBlock
        { demoCreateThenSpend with Body := { Transactions :=
          [⟨7, [], [⟨7, 1, 0⟩]⟩] ++ [⟨8, [701], [⟨8, 1, 0⟩]⟩] } }).2 = none ∧
      ∀ i ∈ [701], (∀ ux ∈ demoCoin.CreateUnspents demoCreateThenSpend.Head
          ⟨8, [701], [⟨8, 1, 0⟩]⟩, demoCoin.UxHash ux ≠ i) →
        ∃ o, (demoState1.ProcessBlock
            { demoCreateThenSpend with Body := { Transactions :=
              [⟨7, [], [⟨7, 1, 0⟩]⟩] } }).1.GetUxout i = .ok o ∧
          (demoState1.ProcessBlock
            { demoCreateThenSpend with Body := { Transactions :=
              [⟨7, [], [⟨7, 1, 0⟩]⟩] ++ [⟨8, [701], [⟨8, 1, 0⟩]⟩] } }).1.GetUxout i =
            .ok { o with SpentBlockSeq := demoCreateThenSpend.Seq,
                         SpentTxID := demoCoin.TxHash ⟨8, [701], [⟨8, 1, 0⟩]⟩ }) ∧
    ∃ e, (demoState1.ProcessBlock demoSpendThenCreate).2 = some e :=
  ⟨(ProcessBlock_settles_inputs_before_outputs demoState1 demoCreateThenSpend (by decide)
      [⟨7, [], [⟨7, 1, 0⟩]⟩] [] ⟨8, [701], [⟨8, 1, 0⟩]⟩ rfl).1 (by decide)
      (by
        intro i hi
        simp only [List.mem_singleton] at hi
        subst hi
        exact Or.inr ⟨⟨7, [], [⟨7, 1, 0⟩]⟩, by simp, ⟨⟨10, 1⟩, ⟨7, 7, 1, 0⟩⟩, by decide,
          by decide⟩),
    (ProcessBlock_settles_inputs_before_outputs demoState1 demoSpendThenCreate (by decide)
      [] [⟨7, [], [⟨7, 1, 0⟩]⟩] ⟨8, [701], [⟨8, 1, 0⟩]⟩ rfl).2 701 (by decide)
      ⟨.OutputNotFound 701, by decide⟩
      (fun t0 ht0 => absurd ht0 (List.not_mem_nil t0))⟩

/-! ## C17: the spend marker tells spent from unspent -/

/-- In a reachable state a record with `SpentBlockSeq = 0` has a zero
`SpentTxID` as well. -/
theorem reachable_zero_seq_zero_txid (hd : HistoryDB c) (h : Reachable c hd) :
    ∀ k r, hd.outputs.bkt k = some r → r.SpentBlockSeq = 0 → r.SpentTxID = 0 := by
  induction h with
  | empty =>
    intro k r hr
    simp [HistoryDB.empty] at hr
  | step hd b _ ih =>
    intro k r hr hz
    unfold HistoryDB.ProcessBlock at hr
    rcases processTransactions_bkt b hd b.Body.Transactions k with
      h1 | ⟨hs, t, _, _, o, h1⟩ | ⟨t, _, ux, _, _, h1⟩
    · rw [h1] at hr
      exact ih k r hr hz
    · rw [h1] at hr
      injection hr with hr
      subst hr
      have : b.Seq = 0 := hz
      omega
    · rw [h1] at hr
      injection hr with hr
      subst hr
      rfl

/-- C17 (the spend marker is distinguishable from unspent). For a state
reachable from the empty indexes: (1) a call of `ProcessBlock` leaves under
each key the record held before, or a record last written by the settling of
an input, with `SpentBlockSeq` equal to the block's sequence, which is at least
1, or a record last written by the creation of an output, with `SpentBlockSeq`
and `SpentTxID` zero; (2) hence a record of the state has `SpentBlockSeq = 0`
exactly when it is the record a creation writes for its output, with the whole
spend marker zero. -/
theorem spend_marker_tells_spent_from_unspent (hd : HistoryDB c) (h : Reachable c hd) :
    (∀ (b : coin.Block) (k : cipher.SHA256),
      (hd.ProcessBlock b).1.GetUxout k = hd.GetUxout k ∨
      (b.Seq ≥ 1 ∧ ∃ t ∈ b.Body.Transactions, k ∈ t.In ∧ ∃ o : UxOut,
        (hd.ProcessBlock b).1.GetUxout k =
          .ok { o with SpentBlockSeq := b.Seq, SpentTxID := c.TxHash t }) ∨
      (∃ t ∈ b.Body.Transactions, ∃ ux ∈ c.CreateUnspents b.Head t, c.UxHash ux = k ∧
        (hd.ProcessBlock b).1.GetUxout k =
          .ok { Out := ux, SpentTxID := 0, SpentBlockSeq := 0 })) ∧
    (∀ k r, hd.GetUxout k = .ok r →
      (r.SpentBlockSeq = 0 ↔ r = { Out := r.Out, SpentTxID := 0, SpentBlockSeq := 0 })) := by
  constructor
  · intro b k
    unfold HistoryDB.ProcessBlock HistoryDB.GetUxout
    rcases processTransactions_bkt b hd b.Body.Transactions k with
      h1 | ⟨hs, t, ht, hk, o, h1⟩ | ⟨t, ht, ux, hu, hk, h1⟩
    · left
      unfold Outputs.Get
      rw [h1]
    · right; left
      exact ⟨hs, t, ht, hk, o, Outputs_Get_eq_ok.2 h1⟩
    · right; right
      exact ⟨t, ht, ux, hu, hk, Outputs_Get_eq_ok.2 h1⟩
  · intro k r hr
    rw [HistoryDB.GetUxout, Outputs_Get_eq_ok] at hr
    refine ⟨?_, ?_⟩
    · intro hz
      have htx := reachable_zero_seq_zero_txid hd h k r hr hz
      cases r with
      | mk out txid seq =>
        simp only at hz htx
        subst hz
        subst htx
        rfl
    · intro hform
      rw [hform]

theorem spend_marker_tells_spent_from_unspent_witness :
    (∀ (b : coin.Block) (k : cipher.SHA256),
      (demoState2.ProcessBlock b).1.GetUxout k = demoState2.GetUxout k ∨
      (b.Seq ≥ 1 ∧ ∃ t ∈ b.Body.Transactions, k ∈ t.In ∧ ∃ o : UxOut,
        (demoState2.ProcessBlock b).1.GetUxout k =
          .ok { o with SpentBlockSeq := b.Seq, SpentTxID := demoCoin.TxHash t }) ∨
      (∃ t ∈ b.Body.Transactions, ∃ ux ∈ demoCoin.CreateUnspents b.Head t,
        demoCoin.UxHash ux = k ∧
        (demoState2.ProcessBlock b).1.GetUxout k =
          .ok { Out := ux, SpentTxID := 0, SpentBlockSeq := 0 })) ∧
    (∀ k r, demoState2.GetUxout k = .ok r →
      (r.SpentBlockSeq = 0 ↔ r = { Out := r.Out, SpentTxID := 0, SpentBlockSeq := 0 })) :=
  spend_marker_tells_spent_from_unspent demoState2
    (Reachable.step _ _ (Reachable.step _ _ Reachable.empty))

/-! ## C11: a second replay -/

theorem addressUx_insert_of_mem (ax : addressUx) (a : cipher.Address) (id : cipher.SHA256)
    (h : id ∈ ax.bkt a) : ax.insert a id = ax := by
  unfold addressUx.insert
  rw [if_pos h]

/-- Creating outputs that the address-in index lists already leaves it as it is. -/
theorem createOutputs_addrIn_of_mem (hd : HistoryDB c) (uxs : List coin.UxOut)
    (h : ∀ ux ∈ uxs, c.UxHash ux ∈ hd.addrIn.bkt ux.Body.Address) :
    (createOutputs c hd uxs).1.addrIn = hd.addrIn := by
  induction uxs generalizing hd with
  | nil => rfl
  | cons u rest ih =>
    have h1 : (createOne c hd u).addrIn = hd.addrIn :=
      addressUx_insert_of_mem _ _ _ (h u (List.mem_cons_self _ _))
    rw [createOutputs_cons, ih, h1]
    intro ux hux
    rw [h1]
    exact h ux (List.mem_cons_of_mem _ hux)

/-- Settling inputs that the address-out index lists already, under the owner
of their record, leaves it as it is. -/
theorem settleInputs_addrOut_of_mem (b : coin.Block) (t : coin.Transaction)
    (hd : HistoryDB c) (ins : List cipher.SHA256)
    (h : ∀ i ∈ ins, ∀ r, hd.outputs.bkt i = some r → i ∈ hd.addrOut.bkt r.Out.Body.Address) :
    (settleInputs c b t hd ins).1.addrOut = hd.addrOut := by
  induction ins generalizing hd with
  | nil => rfl
  | cons i rest ih =>
    cases ho : hd.outputs.bkt i with
    | none => rw [settleInputs_cons_none b t hd i rest ho]
    | some o =>
      have hkey : c.UxHash o.Out = i := hd.outputs.keyed i o ho
      have h1 : (settleOne c b t hd o).addrOut = hd.addrOut := by
        apply addressUx_insert_of_mem
        rw [hkey]
        exact h i (List.mem_cons_self _ _) o ho
      rw [settleInputs_cons_some b t hd i rest o ho, ih, h1]
      intro j hj r hr
      rw [h1]
      rw [settleOne_bkt b t hd i o ho j] at hr
      by_cases hji : j = i
      · rw [if_pos hji] at hr
        injection hr with hr
        rw [← hr, hji]
        exact h i (List.mem_cons_self _ _) o ho
      · rw [if_neg hji] at hr
        exact h j (List.mem_cons_of_mem _ hj) r hr

/-- Under a key of an output it creates, what `createOutputs` leaves does not
depend on the state it started in. -/
theorem createOutputs_bkt_congr (hd1 hd2 : HistoryDB c) (uxs : List coin.UxOut)
    (k : cipher.SHA256) (hk : ∃ ux ∈ uxs, c.UxHash ux = k) :
    (createOutputs c hd1 uxs).1.outputs.bkt k = (createOutputs c hd2 uxs).1.outputs.bkt k := by
  induction uxs generalizing hd1 hd2 with
  | nil =>
    obtain ⟨ux, hux, _⟩ := hk
    exact absurd hux (List.not_mem_nil ux)
  | cons u rest ih =>
    rw [createOutputs_cons, createOutputs_cons]
    by_cases hr : ∃ ux ∈ rest, c.UxHash ux = k
    · exact ih _ _ hr
    · have hnot : ∀ ux ∈ rest, c.UxHash ux ≠ k := fun ux hux heq => hr ⟨ux, hux, heq⟩
      have hu : c.UxHash u = k := by
        obtain ⟨ux, hux, heq⟩ := hk
        rcases List.mem_cons.1 hux with h0 | h0
        · rw [← h0]; exact heq
        · exact absurd heq (hnot ux h0)
      rw [createOutputs_bkt_of_not_mem _ rest k hnot, createOutputs_bkt_of_not_mem _ rest k hnot,
        createOne_bkt, createOne_bkt, if_pos hu.symm, if_pos hu.symm]

theorem createOutputs_sim (S R T : HistoryDB c) (uxs : List coin.UxOut)
    (h : OutputsSim S R T) :
    OutputsSim S (createOutputs c R uxs).1 (createOutputs c T uxs).1 := by
  intro k
  by_cases hk : ∃ ux ∈ uxs, c.UxHash ux = k
  · have heq := createOutputs_bkt_congr R T uxs k hk
    obtain ⟨ux, hux, hkk⟩ := hk
    obtain ⟨ux1, _, _, h1⟩ := createOutputs_bkt_of_mem R uxs ux hux
    rw [hkk] at h1
    constructor
    · intro _
      exact heq.symm
    · intro hnone
      rw [h1] at hnone
      cases hnone
  · have hnot : ∀ ux ∈ uxs, c.UxHash ux ≠ k := fun ux hux heq => hk ⟨ux, hux, heq⟩
    rw [createOutputs_bkt_of_not_mem R uxs k hnot, createOutputs_bkt_of_not_mem T uxs k hnot]
    exact h k

theorem settleInputs_sim (S R T : HistoryDB c) (b : coin.Block) (t : coin.Transaction)
    (ins : List cipher.SHA256) (h : OutputsSim S R T)
    (hok : (settleInputs c b t R ins).2 = none) :
    (settleInputs c b t T ins).2 = none ∧
      OutputsSim S (settleInputs c b t R ins).1 (settleInputs c b t T ins).1 := by
  have hpR := settleInputs_present_of_ok b t R ins hok
  have hpT : ∀ i ∈ ins, T.outputs.bkt i ≠ none := by
    intro i hi
    rw [(h i).1 (hpR i hi)]
    exact hpR i hi
  obtain ⟨_, hmR⟩ := settleInputs_ok b t R ins hpR
  obtain ⟨hokT, hmT⟩ := settleInputs_ok b t T ins hpT
  refine ⟨hokT, ?_⟩
  intro k
  by_cases hk : k ∈ ins
  · obtain ⟨o, h1, h2, _⟩ := hmR k hk
    obtain ⟨o1, h3, h4, _⟩ := hmT k hk
    have heq : T.outputs.bkt k = R.outputs.bkt k := (h k).1 (hpR k hk)
    rw [h1, h3] at heq
    injection heq with heq
    subst heq
    constructor
    · intro _
      rw [h2, h4]
    · intro hnone
      rw [h2] at hnone
      cases hnone
  · rw [settleInputs_bkt_of_not_mem b t R ins k hk, settleInputs_bkt_of_not_mem b t T ins k hk]
    exact h k

/-- One transaction of the second replay against the first: if the first
replay got through `t` from state `R`, so does the second from the related
state `T`, and the states they reach are related again. -/
theorem processTransactions_single_sim (S R T : HistoryDB c) (b : coin.Block)
    (t : coin.Transaction) (hrel : ReplaySim S R T)
    (hRok : (processTransactions c b R [t]).2 = none)
    (hFin : ∀ ux ∈ c.CreateUnspents b.Head t, c.UxHash ux ∈ S.addrIn.bkt ux.Body.Address)
    (hFout : b.Seq > 0 → ∀ i ∈ t.In, ∀ r, R.outputs.bkt i = some r →
      i ∈ S.addrOut.bkt r.Out.Body.Address) :
    (processTransactions c b T [t]).2 = none ∧
      ReplaySim S (processTransactions c b R [t]).1 (processTransactions c b T [t]).1 := by
  obtain ⟨hin, hout, hos, hts⟩ := hrel
  have hos0 : OutputsSim S (addTx c b R t) (addTx c b T t) := hos
  have htx : TxnsSim S (processTransactions c b R [t]).1 (processTransactions c b T [t]).1 := by
    intro k
    rw [processTransactions_single_txns, processTransactions_single_txns, addTx_txns_bkt,
      addTx_txns_bkt]
    by_cases hk : k = c.TxHash t
    · rw [if_pos hk, if_pos hk]
      exact ⟨fun _ => rfl, fun h => by cases h⟩
    · rw [if_neg hk, if_neg hk]
      exact hts k
  rcases processTransactions_single b R t with ⟨_, hne, he⟩ | ⟨hs, hset, he⟩ | ⟨hs, he⟩
  · rw [he] at hRok
    exact absurd hRok hne
  · obtain ⟨hsetT, hsim⟩ := settleInputs_sim S _ _ b t t.In hos0 hset
    have heT : processTransactions c b T [t] =
        createOutputs c (settleInputs c b t (addTx c b T t) t.In).1
          (c.CreateUnspents b.Head t) := by
      rw [processTransactions_single_pos b T t hs, if_pos hsetT]
    have hmem : ∀ i ∈ t.In, ∀ r, (addTx c b T t).outputs.bkt i = some r →
        i ∈ (addTx c b T t).addrOut.bkt r.Out.Body.Address := by
      intro i hi r hr
      rw [addTx_addrOut, hout]
      rw [addTx_outputs] at hr
      have hpR := settleInputs_present_of_ok b t _ t.In hset i hi
      rw [addTx_outputs] at hpR
      rw [(hos i).1 hpR] at hr
      exact hFout hs i hi r hr
    have hao : (settleInputs c b t (addTx c b T t) t.In).1.addrOut = S.addrOut := by
      rw [settleInputs_addrOut_of_mem b t _ t.In hmem, addTx_addrOut, hout]
    have hai : (settleInputs c b t (addTx c b T t) t.In).1.addrIn = S.addrIn := by
      rw [settleInputs_addrIn, addTx_addrIn, hin]
    rw [heT]
    refine ⟨createOutputs_snd _ _, ?_, ?_, ?_, ?_⟩
    · rw [createOutputs_addrIn_of_mem _ _ (by rw [hai]; exact hFin), hai]
    · rw [createOutputs_addrOut, hao]
    · rw [he]
      exact createOutputs_sim S _ _ _ hsim
    · rw [← heT]
      exact htx
  · have heT : processTransactions c b T [t] =
        createOutputs c (addTx c b T t) (c.CreateUnspents b.Head t) :=
      processTransactions_single_zero b T t hs
    rw [heT]
    refine ⟨createOutputs_snd _ _, ?_, ?_, ?_, ?_⟩
    · rw [createOutputs_addrIn_of_mem _ _ (by rw [addTx_addrIn, hin]; exact hFin),
        addTx_addrIn, hin]
    · rw [createOutputs_addrOut, addTx_addrOut, hout]
    · rw [he]
      exact createOutputs_sim S _ _ _ hos0
    · rw [← heT]
      exact htx

/-- The transactions of a block in the second replay against the first. -/
theorem processTransactions_sim (S : HistoryDB c) (b : coin.Block)
    (rest : List coin.Transaction) (R T : HistoryDB c) (hrel : ReplaySim S R T)
    (hRok : (processTransactions c b R rest).2 = none)
    (hFin : ∀ t ∈ rest, ∀ ux ∈ c.CreateUnspents b.Head t,
      c.UxHash ux ∈ S.addrIn.bkt ux.Body.Address)
    (hFout : b.Seq > 0 → ∀ pre1 t post1, rest = pre1 ++ t :: post1 → ∀ i ∈ t.In, ∀ r,
      (processTransactions c b R pre1).1.outputs.bkt i = some r →
        i ∈ S.addrOut.bkt r.Out.Body.Address) :
    (processTransactions c b T rest).2 = none ∧
      ReplaySim S (processTransactions c b R rest).1 (processTransactions c b T rest).1 := by
  induction rest generalizing R T with
  | nil => exact ⟨rfl, hrel⟩
  | cons t rest1 ih =>
    rw [processTransactions_cons] at hRok
    by_cases he : (processTransactions c b R [t]).2 = none
    · rw [if_pos he] at hRok
      obtain ⟨hokT, hrel1⟩ := processTransactions_single_sim S R T b t hrel he
        (hFin t (List.mem_cons_self _ _))
        (fun hs i hi r hr => hFout hs [] t rest1 rfl i hi r hr)
      have hcons : ∀ pre, processTransactions c b R (t :: pre) =
          processTransactions c b (processTransactions c b R [t]).1 pre := by
        intro pre
        rw [processTransactions_cons, if_pos he]
      rw [processTransactions_cons b R, if_pos he, processTransactions_cons b T, if_pos hokT]
      apply ih _ _ hrel1 hRok (fun t1 h1 => hFin t1 (List.mem_cons_of_mem _ h1))
      intro hs pre1 t1 post1 hsplit i hi r hr
      rw [← hcons] at hr
      exact hFout hs (t :: pre1) t1 post1 (by rw [hsplit]; rfl) i hi r hr
    · rw [if_neg he] at hRok
      exact absurd hRok he

/-- The second replay against the first, block by block: `S` is the state the
first replay, on empty indexes, ends in. After `n` blocks the second replay has
not failed and its state is related to that of the first. -/
theorem replayState_sim (bc : coin.Blockchain)
    (hok : ∀ k < bc.HeadSeq + 1,
      ((replayState c bc (HistoryDB.empty c) k).ProcessBlock (bc.GetBlockInDepth k)).2 = none)
    (n : Nat) (hn : n ≤ bc.HeadSeq + 1) :
    (∀ k < n, ((replayState c bc (replayState c bc (HistoryDB.empty c) (bc.HeadSeq + 1))
        k).ProcessBlock (bc.GetBlockInDepth k)).2 = none) ∧
      ReplaySim (replayState c bc (HistoryDB.empty c) (bc.HeadSeq + 1))
        (replayState c bc (HistoryDB.empty c) n)
        (replayState c bc (replayState c bc (HistoryDB.empty c) (bc.HeadSeq + 1)) n) := by
  induction n with
  | zero =>
    refine ⟨fun k hk => absurd hk (Nat.not_lt_zero k), rfl, rfl, ?_, ?_⟩
    · intro k
      exact ⟨fun h => absurd rfl h, fun _ => rfl⟩
    · intro k
      exact ⟨fun h => absurd rfl h, fun _ => rfl⟩
  | succ m ih =>
    obtain ⟨hokT, hrel⟩ := ih (by omega)
    have hstep := processTransactions_sim
      (replayState c bc (HistoryDB.empty c) (bc.HeadSeq + 1)) (bc.GetBlockInDepth m)
      (bc.GetBlockInDepth m).Body.Transactions _ _ hrel (hok m (by omega))
      (by
        intro t ht ux hu
        exact (replayState_mem_addrIn bc _ _ hok ux.Body.Address (c.UxHash ux)).2
          (Or.inr ⟨m, by omega, t, ht, ux, hu, rfl, rfl⟩))
      (by
        intro hs pre1 t post1 hsplit i hi r hr
        exact (replayState_mem_addrOut bc _ _ hok r.Out.Body.Address i).2
          (Or.inr ⟨m, by omega, hs, pre1, t, post1, hsplit, hi, r, hr, rfl⟩))
    constructor
    · intro k hk
      by_cases hkm : k = m
      · rw [hkm]
        exact hstep.1
      · exact hokT k (by omega)
    · rw [replayState_succ bc (HistoryDB.empty c) m,
        replayState_succ bc (replayState c bc (HistoryDB.empty c) (bc.HeadSeq + 1)) m]
      exact hstep.2

/-- Two engine states with the same four indexes are the same state. -/
theorem HistoryDB_eq_of_indexes (A B : HistoryDB c) (h1 : A.txns.bkt = B.txns.bkt)
    (h2 : A.outputs.bkt = B.outputs.bkt) (h3 : A.addrIn = B.addrIn)
    (h4 : A.addrOut = B.addrOut) : A = B := by
  obtain ⟨⟨ta⟩, ⟨oa, ka⟩, ia, xa⟩ := A
  obtain ⟨⟨tb⟩, ⟨ob, kb⟩, ib, xb⟩ := B
  simp only at h1 h2 h3 h4
  subst h1
  subst h2
  subst h3
  subst h4
  rfl

theorem ReplaySim_end (S T : HistoryDB c) (h : ReplaySim S S T) : T = S := by
  obtain ⟨hin, hout, hos, hts⟩ := h
  apply HistoryDB_eq_of_indexes _ _ _ _ hin hout
  · funext k
    by_cases hk : S.txns.bkt k = none
    · exact (hts k).2 hk
    · exact (hts k).1 hk
  · funext k
    by_cases hk : S.outputs.bkt k = none
    · exact (hos k).2 hk
    · exact (hos k).1 hk

/-- No key of the Output Index is removed along a replay. -/
theorem replayState_bkt_mono (bc : coin.Blockchain) (hd : HistoryDB c) (j n : Nat)
    (hjn : j ≤ n) (k : cipher.SHA256) (h : (replayState c bc hd j).outputs.bkt k ≠ none) :
    (replayState c bc hd n).outputs.bkt k ≠ none := by
  induction n, hjn using Nat.le_induction with
  | base => exact h
  | succ m _ ih =>
    rw [replayState_succ]
    exact processTransactions_bkt_ne_none _ _ _ k ih

/-- The transactions of a block go through when every input is on record
before the block or is created by a transaction that comes before in the
block. -/
theorem processTransactions_ok_of_inputs (b : coin.Block) (hd : HistoryDB c)
    (txs : List coin.Transaction)
    (hin : b.Seq > 0 → ∀ pre t post, txs = pre ++ t :: post → ∀ i ∈ t.In,
      hd.outputs.bkt i ≠ none ∨
        ∃ t0 ∈ pre, ∃ ux ∈ c.CreateUnspents b.Head t0, c.UxHash ux = i) :
    (processTransactions c b hd txs).2 = none := by
  by_cases hs : b.Seq > 0
  · have main : ∀ rest pre, txs = pre ++ rest → (processTransactions c b hd pre).2 = none →
        (processTransactions c b hd (pre ++ rest)).2 = none := by
      intro rest
      induction rest with
      | nil =>
        intro pre _ hpre
        rw [List.append_nil]
        exact hpre
      | cons t rest1 ih =>
        intro pre hsplit hpre
        have hp : ∀ i ∈ t.In,
            (addTx c b (processTransactions c b hd pre).1 t).outputs.bkt i ≠ none := by
          intro i hi
          rw [addTx_outputs]
          rcases hin hs pre t rest1 hsplit i hi with h1 | ⟨t0, ht0, ux, hu, hk⟩
          · exact processTransactions_bkt_ne_none b hd pre i h1
          · rw [← hk]
            exact processTransactions_created_present b hd pre hpre t0 ht0 ux hu
        obtain ⟨hok, _⟩ := settleInputs_ok b t _ t.In hp
        have hone : (processTransactions c b (processTransactions c b hd pre).1 [t]).2 =
            none := by
          rw [processTransactions_single_pos b _ t hs, if_pos hok]
          exact createOutputs_snd _ _
        have hpre1 : (processTransactions c b hd (pre ++ [t])).2 = none := by
          rw [processTransactions_append, if_pos hpre]
          exact hone
        have := ih (pre ++ [t]) (by rw [hsplit]; simp) hpre1
        rw [List.append_assoc] at this
        exact this
    exact main txs [] rfl rfl
  · exact processTransactions_zero_snd b (by omega) hd txs

/-- On a ledger where every input of a block past genesis is created by an
earlier transaction, the replay on empty indexes fails at no block. -/
theorem replay_ok_of_inputs_created (bc : coin.Blockchain)
    (hcons : ∀ k ≤ bc.HeadSeq, (bc.GetBlockInDepth k).Seq > 0 →
      ∀ pre t post, (bc.GetBlockInDepth k).Body.Transactions = pre ++ t :: post →
      ∀ i ∈ t.In,
        (∃ k1 < k, ∃ t0 ∈ (bc.GetBlockInDepth k1).Body.Transactions,
          ∃ ux ∈ c.CreateUnspents (bc.GetBlockInDepth k1).Head t0, c.UxHash ux = i) ∨
        (∃ t0 ∈ pre, ∃ ux ∈ c.CreateUnspents (bc.GetBlockInDepth k).Head t0,
          c.UxHash ux = i)) :
    ∀ k ≤ bc.HeadSeq,
      ((replayState c bc (HistoryDB.empty c) k).ProcessBlock (bc.GetBlockInDepth k)).2 =
        none := by
  intro k
  induction k using Nat.strong_induction_on with
  | _ k ih =>
    intro hk
    apply processTransactions_ok_of_inputs
    intro hs pre t post hsplit i hi
    rcases hcons k hk hs pre t post hsplit i hi with ⟨k1, hk1, t0, ht0, ux, hu, hkk⟩ | h2
    · left
      have hok1 := ih k1 hk1 (by omega)
      have hpres := processTransactions_created_present (bc.GetBlockInDepth k1)
        (replayState c bc (HistoryDB.empty c) k1) _ hok1 t0 ht0 ux hu
      rw [hkk] at hpres
      have hsucc : (replayState c bc (HistoryDB.empty c) (k1 + 1)).outputs.bkt i ≠ none := by
        rw [replayState_succ]
        exact hpres
      exact replayState_bkt_mono bc _ (k1 + 1) k (by omega) i hsucc
    · exact Or.inr h2

/-- C11 (replay idempotence): on a ledger with head sequence below `2 ^ 64 - 1`
in which every input of a block with sequence `> 0` is created by an earlier
transaction (of an earlier block, or earlier in the same block), running
`ProcessBlockchain` twice in a row from empty indexes succeeds both times, and
the second run leaves the state of the first: the same four indexes. -/
theorem ProcessBlockchain_twice_same_state (bc : coin.Blockchain)
    (hhead : bc.HeadSeq < 2 ^ 64 - 1)
    (hcons : ∀ k ≤ bc.HeadSeq, (bc.GetBlockInDepth k).Seq > 0 →
      ∀ pre t post, (bc.GetBlockInDepth k).Body.Transactions = pre ++ t :: post →
      ∀ i ∈ t.In,
        (∃ k1 < k, ∃ t0 ∈ (bc.GetBlockInDepth k1).Body.Transactions,
          ∃ ux ∈ c.CreateUnspents (bc.GetBlockInDepth k1).Head t0, c.UxHash ux = i) ∨
        (∃ t0 ∈ pre, ∃ ux ∈ c.CreateUnspents (bc.GetBlockInDepth k).Head t0,
          c.UxHash ux = i))
    (fuel : Nat) (hfuel : bc.HeadSeq + 2 ≤ fuel) :
    ∃ S, HistoryDB.ProcessBlockchain fuel (HistoryDB.empty c) bc = some (S, none) ∧
      HistoryDB.ProcessBlockchain fuel S bc = some (S, none) := by
  have hok := replay_ok_of_inputs_created bc hcons
  have hok1 : ∀ k < bc.HeadSeq + 1,
      ((replayState c bc (HistoryDB.empty c) k).ProcessBlock (bc.GetBlockInDepth k)).2 = none :=
    fun k hk => hok k (by omega)
  have hrun1 := processBlockchainLoop_all_ok bc (HistoryDB.empty c) bc.HeadSeq (by omega)
    (bc.HeadSeq + 1) 0 fuel (by omega) (by omega) (fun j _ hj => hok j hj)
  rw [replayState_zero] at hrun1
  obtain ⟨hokT, hrel⟩ := replayState_sim bc hok1 (bc.HeadSeq + 1) (le_refl _)
  have hend := ReplaySim_end _ _ hrel
  have hrun2 := processBlockchainLoop_all_ok bc
    (replayState c bc (HistoryDB.empty c) (bc.HeadSeq + 1)) bc.HeadSeq (by omega)
    (bc.HeadSeq + 1) 0 fuel (by omega) (by omega) (fun j _ hj => hokT j (by omega))
  rw [replayState_zero, hend] at hrun2
  exact ⟨_, hrun1, hrun2⟩

theorem eq_of_singleton_split {α : Type} (a t : α) (pre post : List α)
    (h : [a] = pre ++ t :: post) : pre = [] ∧ t = a := by
  cases pre with
  | nil =>
    rw [List.nil_append] at h
    injection h with h1 _
    exact ⟨rfl, h1.symm⟩
  | cons p pre1 =>
    rw [List.cons_append] at h
    injection h with _ h2
    cases pre1 <;> cases h2

theorem ProcessBlockchain_twice_same_state_witness :
    ∃ S, HistoryDB.ProcessBlockchain 4 (HistoryDB.empty demoCoin) demoChain = some (S, none) ∧
      HistoryDB.ProcessBlockchain 4 S demoChain = some (S, none) :=
  ProcessBlockchain_twice_same_state demoChain (by decide)
    (by
      intro k hk hs pre t post hsplit i hi
      have hk2 : k ≤ 2 := hk
      interval_cases k
      · exact absurd hs (by decide)
      · have h1 := eq_of_singleton_split _ t pre post hsplit
        rw [h1.2] at hi
        simp only [List.mem_singleton] at hi
        subst hi
        exact Or.inl ⟨0, by decide, ⟨1, [], [⟨7, 1, 0⟩]⟩, by decide,
          ⟨⟨0, 0⟩, ⟨1, 7, 1, 0⟩⟩, by decide, by decide⟩
      · have h1 := eq_of_singleton_split _ t pre post hsplit
        rw [h1.2] at hi
        simp only [List.mem_singleton] at hi
        subst hi
        exact Or.inl ⟨1, by decide, ⟨2, [101], [⟨8, 1, 0⟩]⟩, by decide,
          ⟨⟨10, 1⟩, ⟨2, 8, 1, 0⟩⟩, by decide, by decide⟩)
    4 (by decide)

end historydb
